import Mathlib

/-!
# ant-modal: the environment rewriter and the command runners of `app.go`

Go strings are byte sequences.  A text is modelled as a list of characters, one
list element per byte of the Go string (every byte value 0..255 is a `Char`).
The functions of the rewriter treat the elements uniformly and single out only
ASCII characters, so the results about it also hold when a list element is
read as one UTF-8 encoded rune: the patterns of `modifyScriptForEnvironment`
mention only ASCII characters and the negated class `[^"']`, and a multi-byte
rune never contains an ASCII byte.  The JSON encoding of the execution log
looks at the bytes themselves.
-/

namespace AntModal

/-- Texts: Go `string` values. -/
abbrev Text := List Char

/-- The double quote `"`. -/
def dquote : Char := Char.ofNat 34

/-- The single quote. -/
def squote : Char := Char.ofNat 39

/-- The class `["']`. -/
def isQuote (c : Char) : Bool := c == dquote || c == squote

/-- The class `\s` of Go's `regexp`: `[\t\n\f\r ]`. -/
def isSpace (c : Char) : Bool :=
  c == Char.ofNat 9 || c == Char.ofNat 10 || c == Char.ofNat 12 || c == Char.ofNat 13 || c == ' '

/-- Match a literal at the head of the input; the result is the remaining input. -/
def stripLit : Text → Text → Option Text
  | [], t => some t
  | _ :: _, [] => none
  | c :: cs, d :: ds => if c = d then stripLit cs ds else none

/-- The greedy `\s*`: in each of the patterns it is followed by an item that
cannot start with a space character, so giving back spaces never helps and the
longest run is the only way to match. -/
def skipSpaces (t : Text) : Text := t.dropWhile isSpace

/-- The tail `["'])([^"']+)(["']` of each pattern, at the opening quote: the
name is the longest run of non-quote characters (a shorter run is followed by
a non-quote and cannot be closed), it is not empty, and a quote closes it.
Gives the name (group 2), the closing quote (group 3) and the rest of the
input after the match. -/
def quoted : Text → Option (Text × Char × Text)
  | [] => none
  | q :: r =>
    if isQuote q then
      let name := r.takeWhile (fun c => !isQuote c)
      match r.dropWhile (fun c => !isQuote c) with
      | [] => none
      | q2 :: rest => if name = [] then none else some (name, q2, rest)
    else none

/-- One match of a pattern, with its three capture groups. -/
structure Match where
  /-- Group 1: the keyword up to and including the opening quote. -/
  pre : Text
  /-- Group 2: the literal between the quotes. -/
  name : Text
  /-- Group 3: the closing quote. -/
  close : Char
  /-- The input after the match. -/
  rest : Text
deriving DecidableEq, Repr

/-- A pattern `(kw\s*\(\s*(?:name\s*=\s*)?["'])([^"']+)(["'])` (the optional
`name=` item only when `optName`) matched at the head of the input.  The
optional item is tried first, and the match without it is the fallback, as in
Go's leftmost-first matching. -/
def matchAt (kw : Text) (optName : Bool) (t : Text) : Option Match :=
  (stripLit kw t).bind fun r1 =>
  (stripLit ['('] (skipSpaces r1)).bind fun r3 =>
  let r4 := skipSpaces r3
  let viaName : Option (Text × Char × Text) :=
    if optName then
      (stripLit "name".toList r4).bind fun r5 =>
      (stripLit ['='] (skipSpaces r5)).bind fun r7 =>
      quoted (skipSpaces r7)
    else none
  (viaName <|> quoted r4).map fun m =>
    { pre := t.take (t.length - (m.1.length + 1 + m.2.2.length)),
      name := m.1, close := m.2.1, rest := m.2.2 }

/-- The callback given to `ReplaceAllStringFunc`, applied to the matched text:
`FindStringSubmatch` matches the pattern again on the matched text, and when it
gives the three groups and not `strings.HasSuffix(name, suffix)`, the result is
group 1, the name, the suffix and group 3; in every other case the matched text
is returned. -/
def suffixCallback (kw : Text) (optName : Bool) (suffix : Text) (matched : Text) : Text :=
  match matchAt kw optName matched with
  | some sub =>
    if !(suffix.isSuffixOf sub.name) then sub.pre ++ sub.name ++ suffix ++ [sub.close]
    else matched
  | none => matched

/-- The scan of `ReplaceAllStringFunc`: the leftmost match is replaced by what the
callback makes of the matched text and the scan goes on after the match; where
no match starts the character is copied.  Each step consumes at least one
character, so a fuel equal to the length of the input is never used up
(`replaceAllAux_fuel`). -/
def replaceAllAux (kw : Text) (optName : Bool) (suffix : Text) : Nat → Text → Text
  | 0, t => t
  | n + 1, t =>
    match matchAt kw optName t with
    | some m =>
      suffixCallback kw optName suffix (t.take (t.length - m.rest.length))
        ++ replaceAllAux kw optName suffix n m.rest
    | none =>
      match t with
      | [] => []
      | c :: cs => c :: replaceAllAux kw optName suffix n cs

/-- The call `pattern.ReplaceAllStringFunc(content, ...)`. -/
def replaceAll (kw : Text) (optName : Bool) (suffix : Text) (t : Text) : Text :=
  replaceAllAux kw optName suffix t.length t

/-- The keyword of `appNamePattern`. -/
def appKw : Text := "modal.App".toList

/-- The keyword of `volumePattern`. -/
def volumeKw : Text := "modal.Volume.from_name".toList

/-- The keyword of `secretPattern`. -/
def secretKw : Text := "modal.Secret.from_name".toList

/-- The three replacement passes, with the suffix as it is after normalization. -/
def rewriteWith (suffix : Text) (content : Text) : Text :=
  replaceAll secretKw false suffix
    (replaceAll volumeKw false suffix
      (replaceAll appKw true suffix content))

/-- The normalization `if !strings.HasPrefix(suffix, "-") { suffix = "-" + suffix }`. -/
def normalizeSuffix (suffix : Text) : Text :=
  if ['-'].isPrefixOf suffix then suffix else '-' :: suffix

/-- The function `modifyScriptForEnvironment` of `app.go`. -/
def modifyScriptForEnvironment (content : Text) (suffix : Text) : Text :=
  if suffix = [] then content
  else rewriteWith (normalizeSuffix suffix) content

/-! ## Devices of the proofs about the rewriter -/

/-- The part of a pattern before the opening quote, as a deterministic parser:
the `name=` item is taken whenever the word `name` is there.  `matchAt_eq`
shows that the fallback of `matchAt` never changes the outcome. -/
def pfx (kw : Text) (optName : Bool) (t : Text) : Option Text :=
  (stripLit kw t).bind fun r1 =>
  (stripLit ['('] (skipSpaces r1)).bind fun r3 =>
  if optName then
    match stripLit "name".toList (skipSpaces r3) with
    | some r5 => (stripLit ['='] (skipSpaces r5)).map skipSpaces
    | none => some (skipSpaces r3)
  else some (skipSpaces r3)

/-- Some suffix of the quote-free segment `g` is a whole pattern prefix, so that
a match starts in `g` when an opening quote follows it. -/
def hasPre (kw : Text) (optName : Bool) : Text → Bool
  | [] => false
  | c :: cs => (pfx kw optName (c :: cs) == some []) || hasPre kw optName cs

/-- A text put together from its quote-free segments and the quotes between them. -/
def join : Text → List (Char × Text) → Text
  | g0, [] => g0
  | g0, p :: l => g0 ++ p.1 :: join p.2 l

/-- The segments are free of quotes and the separators are quotes. -/
def Valid : Text → List (Char × Text) → Prop
  | g0, [] => ∀ c ∈ g0, isQuote c = false
  | g0, p :: l => (∀ c ∈ g0, isQuote c = false) ∧ isQuote p.1 = true ∧ Valid p.2 l

/-- The name after the callback: `name` itself when it ends with the suffix. -/
def fixName (suffix : Text) (name : Text) : Text :=
  if suffix.isSuffixOf name then name else name ++ suffix

/-- One replacement pass seen on the segments: the segment after a quote is
rewritten when a pattern prefix ends the segment before it, it is not empty,
a closing quote follows, and its opening quote was not consumed as the closing
quote of the match before (`skip`). -/
def segPass (hp : Text → Bool) (suffix : Text) : Bool → Text → List (Char × Text) → List (Char × Text)
  | _, _, [] => []
  | skip, g0, p :: tl =>
    if !skip && hp g0 && !p.2.isEmpty && !tl.isEmpty then
      (p.1, fixName suffix p.2) :: segPass hp suffix true (fixName suffix p.2) tl
    else p :: segPass hp suffix false p.2 tl

/-- Every segment a match would rewrite already ends with the suffix. -/
def Stable (hp : Text → Bool) (suffix : Text) : Text → List (Char × Text) → Prop
  | _, [] => True
  | g0, p :: tl =>
    (tl ≠ [] → hp g0 = true → p.2 ≠ [] → suffix <:+ p.2) ∧ Stable hp suffix p.2 tl

/-! ## The command runners

The runners are modelled as functions of what the operating system does with
the invocation they build.  The calls `a.Log`, `a.LogInfo` and `a.LogError`
write a diagnostic log only and are left out. -/

/-- The UTF-8 bytes of a string literal of the source. -/
def goStr (s : String) : Text :=
  (s.data.flatMap String.utf8EncodeChar).map fun b => Char.ofNat b.toNat

/-- The struct `CommandResult`. -/
structure CommandResult where
  /-- Field `Success`. -/
  Success : Bool
  /-- Field `Output`. -/
  Output : Text
  /-- Field `Error`. -/
  Error : Text
deriving DecidableEq, Repr

/-- What the runners read from the host before they start a process. -/
structure Host where
  /-- The result of `a.getModalPath()`. -/
  modalPath : Text
  /-- The result of `os.Environ()`. -/
  environ : List Text
  /-- The function `a.getProjectAbsolutePath`. -/
  absPath : Text → Text

/-- The fields of `exec.Cmd` the runners set: `exec.Command(path, args...)`,
`cmd.Dir` (empty when not set) and `cmd.Env`. -/
structure Invocation where
  /-- The program. -/
  path : Text
  /-- The arguments after the program. -/
  args : List Text
  /-- The working directory. -/
  dir : Text
  /-- The environment. -/
  env : List Text
deriving DecidableEq, Repr

/-- The errors of `os/exec` and `os`. -/
inductive ExecError where
  /-- An `*exec.ExitError` of a process that exited with a nonzero status. -/
  | exitStatus (code : Nat)
  /-- An `*exec.ExitError` of a process ended by a signal. -/
  | signal (name : Text)
  /-- An `*exec.Error`: the program was not found. -/
  | lookPath (name reason : Text)
  /-- An `*fs.PathError` or `*os.SyscallError` of the operation `op`. -/
  | sys (op reason : Text)
deriving DecidableEq, Repr

/-- The method `Error()` of the errors above, with the texts of the Go library
(`strconv.Quote` taken as plain double quotes). -/
def ExecError.Error : ExecError → Text
  | .exitStatus code => "exit status ".toList ++ (Nat.repr code).toList
  | .signal name => "signal: ".toList ++ name
  | .lookPath name reason => "exec: ".toList ++ dquote :: name ++ dquote :: ": ".toList ++ reason
  | .sys op reason => op ++ ": ".toList ++ reason

/-- The message of an optional error: `err.Error()` when `err != nil`, and the
zero value of the field `Error` otherwise. -/
def errorText : Option ExecError → Text
  | some e => e.Error
  | none => []

/-- How a process run by `cmd.CombinedOutput()` ends. -/
inductive ProcOutcome where
  /-- The process could not be started. -/
  | notStarted (err : ExecError)
  /-- The process ran and exited with the status `code`, having written `output`
  to its merged stdout and stderr. -/
  | exited (code : Nat) (output : Text)
  /-- The process ran and was ended by a signal. -/
  | signaled (name : Text) (output : Text)
deriving DecidableEq, Repr

/-- The bytes the process wrote to its merged stdout and stderr. -/
def ProcOutcome.output : ProcOutcome → Text
  | .notStarted _ => []
  | .exited _ output => output
  | .signaled _ output => output

/-- The error of `cmd.CombinedOutput()`: `nil` exactly for exit status 0. -/
def ProcOutcome.err : ProcOutcome → Option ExecError
  | .notStarted e => some e
  | .exited 0 _ => none
  | .exited (n + 1) _ => some (.exitStatus (n + 1))
  | .signaled name _ => some (.signal name)

/-- The events sent with `runtime.EventsEmit`: `command:start`, `command:output`
and `command:complete`. -/
inductive Event where
  /-- Event `command:start` with the subcommand. -/
  | start (command : Text)
  /-- Event `command:output` with one line. -/
  | output (line : Text)
  /-- Event `command:complete` with the result. -/
  | complete (result : CommandResult)
deriving DecidableEq, Repr

/-- The effects of a runner, in the order in which it performs them. -/
inductive Action where
  /-- A call of `runtime.EventsEmit`. -/
  | emit (e : Event)
  /-- The assignment `a.runningCmd = cmd` under the mutex. -/
  | setRunning
  /-- The assignment `a.runningCmd = nil` under the mutex. -/
  | clearRunning
  /-- A call `a.UpdateExecutionLog(logID, status, output)`. -/
  | updateLog (logID status output : Text)
deriving DecidableEq, Repr

/-- The environment of `RunModalCommandWithEnv`, `RunModalCommandAsync` and
`RunModalCommandAsyncWithLog`: each of them has these statements. -/
def tokenEnv (environ : List Text) (tokenId tokenSecret : Text) : List Text :=
  let env := environ
  let env :=
    if tokenId ≠ [] ∧ tokenSecret ≠ [] then
      (env ++ ["MODAL_TOKEN_ID=".toList ++ tokenId]) ++ ["MODAL_TOKEN_SECRET=".toList ++ tokenSecret]
    else env
  env ++ ["PYTHONIOENCODING=utf-8".toList]

/-- The working directory: `cmd.Dir` is set only when `workDir != ""`. -/
def cmdDir (h : Host) (workDir : Text) : Text :=
  if workDir ≠ [] then h.absPath workDir else []

/-- The command built by `RunModalCommand`. -/
def RunModalCommand_cmd (h : Host) (command : Text) (args : List Text) (workDir : Text) :
    Invocation :=
  ⟨h.modalPath, [command] ++ args, cmdDir h workDir, h.environ ++ ["PYTHONIOENCODING=utf-8".toList]⟩

/-- The command built by `RunModalCommandWithEnv`. -/
def RunModalCommandWithEnv_cmd (h : Host) (command : Text) (args : List Text)
    (workDir tokenId tokenSecret : Text) : Invocation :=
  ⟨h.modalPath, [command] ++ args, cmdDir h workDir, tokenEnv h.environ tokenId tokenSecret⟩

/-- The command built by `RunModalCommandAsync`. -/
def RunModalCommandAsync_cmd (h : Host) (command : Text) (args : List Text)
    (workDir tokenId tokenSecret : Text) : Invocation :=
  ⟨h.modalPath, [command] ++ args, cmdDir h workDir, tokenEnv h.environ tokenId tokenSecret⟩

/-- The command built by `RunModalCommandAsyncWithLog`. -/
def RunModalCommandAsyncWithLog_cmd (h : Host) (command : Text) (args : List Text)
    (workDir tokenId tokenSecret : Text) : Invocation :=
  ⟨h.modalPath, [command] ++ args, cmdDir h workDir, tokenEnv h.environ tokenId tokenSecret⟩

/-- The result both synchronous runners build from `cmd.CombinedOutput()`. -/
def syncResult (o : ProcOutcome) : CommandResult :=
  let result : CommandResult := ⟨o.err.isNone, o.output, []⟩
  match o.err with
  | some e => ⟨result.Success, result.Output, e.Error⟩
  | none => result

/-- The function `RunModalCommand`: its events and its result, given what the
operating system does with the command. -/
def RunModalCommand (h : Host) (os : Invocation → ProcOutcome) (command : Text)
    (args : List Text) (workDir : Text) : List Action × CommandResult :=
  let result := syncResult (os (RunModalCommand_cmd h command args workDir))
  ([.emit (.start command), .emit (.complete result)], result)

/-- The function `RunModalCommandWithEnv`. -/
def RunModalCommandWithEnv (h : Host) (os : Invocation → ProcOutcome) (command : Text)
    (args : List Text) (workDir tokenId tokenSecret : Text) : List Action × CommandResult :=
  let result :=
    syncResult (os (RunModalCommandWithEnv_cmd h command args workDir tokenId tokenSecret))
  ([.emit (.start command), .emit (.complete result)], result)

/-- What the operating system does with a command of an asynchronous runner:
the errors of `cmd.StdoutPipe()`, `cmd.StderrPipe()` and `cmd.Start()` (`none`
for `nil`), the bytes the process writes to each stream before the stream
ends, and the error of `cmd.Wait()`, `none` exactly for exit status 0. -/
structure Spawn where
  /-- The error of `cmd.StdoutPipe()`. -/
  stdoutPipe : Option ExecError
  /-- The error of `cmd.StderrPipe()`. -/
  stderrPipe : Option ExecError
  /-- The error of `cmd.Start()`. -/
  start : Option ExecError
  /-- The bytes written to stdout. -/
  stdout : Text
  /-- The bytes written to stderr. -/
  stderr : Text
  /-- The error of `cmd.Wait()`. -/
  wait : Option ExecError
deriving DecidableEq, Repr

/-- The function `dropCR` of `bufio`: a trailing carriage return is removed. -/
def dropCR (line : Text) : Text :=
  if line.getLast? = some (Char.ofNat 13) then line.dropLast else line

/-- The tokens a `bufio.Scanner` with the split function `ScanLines` and the
token limit `max` (second argument of `scanner.Buffer`) delivers before `Scan`
returns false, `cur` being the bytes of the line read so far.  A newline ends
a token.  When the bytes read so far fill a buffer of `max` bytes and hold no
newline, `Scan` sets `ErrTooLong` and returns false: nothing more is delivered.
At the end of the input the bytes left over are the last token. -/
def scanLinesAux (max : Nat) : Text → Text → List Text
  | cur, [] => if cur = [] then [] else [dropCR cur]
  | cur, c :: cs =>
    if c = Char.ofNat 10 then dropCR cur :: scanLinesAux max [] cs
    else if max ≤ cur.length + 1 then []
    else scanLinesAux max (cur ++ [c]) cs

/-- The lines of the loop `for scanner.Scan() { line := scanner.Text() ... }`. -/
def scanLines (max : Nat) (data : Text) : List Text :=
  scanLinesAux max [] data

/-- The lines both asynchronous runners read: `io.MultiReader(stdout, stderr)`
gives the bytes of stdout up to its end and then those of stderr, and the
scanner has the limit `1024*1024` set by `scanner.Buffer(buf, 1024*1024)`. -/
def mergedLines (w : Spawn) : List Text :=
  scanLines (1024 * 1024) (w.stdout ++ w.stderr)

/-- The three early exits of `RunModalCommandAsync`, with the text of the message. -/
def asyncFailure (msg : String) (e : ExecError) : List Action :=
  [.emit (.output (goStr msg ++ e.Error)), .emit (.complete ⟨false, [], e.Error⟩)]

/-- The function `RunModalCommandAsync`: the start event and then the effects of
its goroutine, given what the operating system does with the command. -/
def RunModalCommandAsync (h : Host) (os : Invocation → Spawn) (command : Text)
    (args : List Text) (workDir tokenId tokenSecret : Text) : List Action :=
  let w := os (RunModalCommandAsync_cmd h command args workDir tokenId tokenSecret)
  Action.emit (.start command) ::
    match w.stdoutPipe with
    | some e => asyncFailure "创建stdout管道失败: " e
    | none =>
      match w.stderrPipe with
      | some e => asyncFailure "创建stderr管道失败: " e
      | none =>
        match w.start with
        | some e => asyncFailure "启动命令失败: " e
        | none =>
          [Action.setRunning]
            ++ (mergedLines w).map (fun line => Action.emit (.output line))
            ++ [Action.clearRunning,
                Action.emit (.complete ⟨w.wait.isNone, [], errorText w.wait⟩)]

/-- The three early exits of `RunModalCommandAsyncWithLog`. -/
def asyncFailureWithLog (msg : String) (e : ExecError) (logID : Text) : List Action :=
  let errMsg := goStr msg ++ e.Error
  [.emit (.output errMsg), .emit (.complete ⟨false, [], e.Error⟩)]
    ++ (if logID ≠ [] then [Action.updateLog logID "failed".toList errMsg] else [])

/-- The scan loop of `RunModalCommandAsyncWithLog`: each line is emitted and
written, with a newline, to `outputBuilder`.  The state is the effects so far
and the content of the builder. -/
def scanLoopWithLog (lines : List Text) : List Action × Text :=
  lines.foldl
    (fun st line => (st.1 ++ [Action.emit (.output line)], st.2 ++ (line ++ [Char.ofNat 10])))
    ([], [])

/-- The output written to the execution log: the last `50*1024` bytes after a
marker line when the output is longer than that. -/
def logOutput (output : Text) : Text :=
  if output.length > 50 * 1024 then
    goStr "...(输出过长，已截断)...\n" ++ output.drop (output.length - 50 * 1024)
  else output

/-- The function `RunModalCommandAsyncWithLog`. -/
def RunModalCommandAsyncWithLog (h : Host) (os : Invocation → Spawn) (command : Text)
    (args : List Text) (workDir tokenId tokenSecret logID : Text) : List Action :=
  let w := os (RunModalCommandAsyncWithLog_cmd h command args workDir tokenId tokenSecret)
  Action.emit (.start command) ::
    match w.stdoutPipe with
    | some e => asyncFailureWithLog "创建stdout管道失败: " e logID
    | none =>
      match w.stderrPipe with
      | some e => asyncFailureWithLog "创建stderr管道失败: " e logID
      | none =>
        match w.start with
        | some e => asyncFailureWithLog "启动命令失败: " e logID
        | none =>
          let loop := scanLoopWithLog (mergedLines w)
          let result : CommandResult := ⟨w.wait.isNone, loop.2, errorText w.wait⟩
          let status := if w.wait.isNone then "success".toList else "failed".toList
          [Action.setRunning] ++ loop.1 ++ [Action.clearRunning]
            ++ (if logID ≠ [] then [Action.updateLog logID status (logOutput loop.2)] else [])
            ++ [Action.emit (.complete result)]

/-- The lines handed to the line consumer: the payloads of the `command:output`
events, in order. -/
def deliveredLines (trace : List Action) : List Text :=
  trace.filterMap fun a =>
    match a with
    | .emit (.output line) => some line
    | _ => none

/-- The results carried by the `command:complete` events, in order. -/
def completions (trace : List Action) : List CommandResult :=
  trace.filterMap fun a =>
    match a with
    | .emit (.complete r) => some r
    | _ => none

/-- A process that starts: no pipe and no start error. -/
def Spawn.started (w : Spawn) : Prop :=
  w.stdoutPipe = none ∧ w.stderrPipe = none ∧ w.start = none

/-- The pieces of a stream between newlines, the bytes before the first newline
being given in `cur`; bytes after the last newline are a piece when there
are any. -/
def rawLinesAux : Text → Text → List Text
  | cur, [] => if cur = [] then [] else [cur]
  | cur, c :: cs =>
    if c = Char.ofNat 10 then cur :: rawLinesAux [] cs
    else rawLinesAux (cur ++ [c]) cs

/-- The lines of a stream as the claims speak of them: the pieces ended by a
newline, and the bytes after the last newline when there are any. -/
def rawLines (data : Text) : List Text := rawLinesAux [] data

/-- The lines of a stream as text: without the newline and without a carriage
return before it. -/
def linesOf (data : Text) : List Text := (rawLines data).map dropCR

/-! ## The running-process handle and the cancellation -/

/-- The field `a.runningCmd` as far as its presence goes, after one effect of a
runner: `true` when a command is registered. -/
def handleStep (present : Bool) : Action → Bool
  | .setRunning => true
  | .clearRunning => false
  | _ => present

/-- The presence of `a.runningCmd` after the effects of a trace, when no other
invocation writes the field. -/
def handleAfter (present : Bool) (trace : List Action) : Bool :=
  trace.foldl handleStep present

/-- An effect that is a `command:start` event. -/
def Action.isStart : Action → Bool
  | .emit (.start _) => true
  | _ => false

/-- An effect that is a `command:output` event. -/
def Action.isOutput : Action → Bool
  | .emit (.output _) => true
  | _ => false

/-- An effect that is a `command:complete` event. -/
def Action.isComplete : Action → Bool
  | .emit (.complete _) => true
  | _ => false

/-- The calls of `a.UpdateExecutionLog` in a trace: log id, status and output. -/
def logUpdates (trace : List Action) : List (Text × Text × Text) :=
  trace.filterMap fun a =>
    match a with
    | .updateLog logID status output => some (logID, status, output)
    | _ => none

/-- The first failure on the way to a started process: `cmd.StdoutPipe()`, then
`cmd.StderrPipe()`, then `cmd.Start()`. -/
def Spawn.failure (w : Spawn) : Option ExecError :=
  match w.stdoutPipe with
  | some e => some e
  | none =>
    match w.stderrPipe with
    | some e => some e
    | none => w.start

/-- What `CancelRunningCommand` looks at in the registered `*exec.Cmd`. -/
structure RunningCmd where
  /-- Whether `cmd.Process != nil`. -/
  hasProcess : Bool
  /-- The error of `cmd.Process.Kill()`, `none` for `nil`. -/
  killErr : Option ExecError
deriving DecidableEq, Repr

/-- The function `CancelRunningCommand`, given the field `a.runningCmd`: the value
returned, the events emitted, and the field afterwards. -/
def CancelRunningCommand (runningCmd : Option RunningCmd) :
    Bool × List Action × Option RunningCmd :=
  match runningCmd with
  | some cmd =>
    if cmd.hasProcess then
      match cmd.killErr with
      | some _ => (false, [], runningCmd)
      | none => (true, [Action.emit (.output (goStr "⚠️ 命令已被用户中止"))], runningCmd)
    else (false, [], runningCmd)
  | none => (false, [], runningCmd)

/-! ## The JSON encoding of texts

`encoding/json` writes a Go string as valid UTF-8: going through the string
with `utf8.DecodeRuneInString`, it writes U+FFFD for every byte at which no
valid sequence starts, and the decoder does the same with the bytes of a
string of the file.  All other bytes come back as they are. -/

/-- The three bytes of U+FFFD. -/
def replacementChar : Text := [Char.ofNat 0xEF, Char.ofNat 0xBF, Char.ofNat 0xBD]

/-- The byte lies in the range given. -/
def byteIn (lo hi : Nat) (b : Char) : Bool := decide (lo ≤ b.toNat) && decide (b.toNat ≤ hi)

/-- The bytes are exactly one valid UTF-8 sequence, by the table of `unicode/utf8`:
the first byte gives the length and the range of the second byte. -/
def validSeq : Text → Bool
  | [b0] => decide (b0.toNat < 0x80)
  | [b0, b1] => byteIn 0xC2 0xDF b0 && byteIn 0x80 0xBF b1
  | [b0, b1, b2] =>
    byteIn 0xE0 0xEF b0
      && byteIn (if b0.toNat = 0xE0 then 0xA0 else 0x80) (if b0.toNat = 0xED then 0x9F else 0xBF) b1
      && byteIn 0x80 0xBF b2
  | [b0, b1, b2, b3] =>
    byteIn 0xF0 0xF4 b0
      && byteIn (if b0.toNat = 0xF0 then 0x90 else 0x80) (if b0.toNat = 0xF4 then 0x8F else 0xBF) b1
      && byteIn 0x80 0xBF b2 && byteIn 0x80 0xBF b3
  | _ => false

/-- The size `utf8.DecodeRuneInString` returns with a valid rune at the head of the
text, and 0 where it returns `RuneError` (with size 1 or, on the empty text, 0). -/
def utf8Len (t : Text) : Nat :=
  if validSeq (t.take 1) then 1
  else if validSeq (t.take 2) then 2
  else if validSeq (t.take 3) then 3
  else if validSeq (t.take 4) then 4
  else 0

/-- The text a Go string comes back as, the first `k` bytes being the rest of a
valid sequence that is copied. -/
def jsonStringAux : Nat → Text → Text
  | _, [] => []
  | k + 1, b :: rest => b :: jsonStringAux k rest
  | 0, b :: rest =>
    match utf8Len (b :: rest) with
    | 0 => replacementChar ++ jsonStringAux 0 rest
    | n + 1 => b :: jsonStringAux n rest

/-- The text a Go string comes back as from the JSON file: valid sequences as
they are, and U+FFFD for every other byte. -/
def jsonString (t : Text) : Text := jsonStringAux 0 t

/-- The text is valid UTF-8: it is made of valid sequences.  The first argument
bounds the number of sequences. -/
def validUTF8Aux : Nat → Text → Bool
  | _, [] => true
  | 0, _ :: _ => false
  | fuel + 1, b :: rest =>
    [1, 2, 3, 4].any fun k =>
      decide (k ≤ (b :: rest).length) && validSeq ((b :: rest).take k)
        && validUTF8Aux fuel ((b :: rest).drop k)

/-- The text is valid UTF-8, so that `utf8.ValidString` holds of it. -/
def validUTF8 (t : Text) : Bool := validUTF8Aux t.length t

/-- Of the pairs of a JSON object with the same key the decoder keeps the last. -/
def keepLast : List (Text × Text) → List (Text × Text)
  | [] => []
  | p :: rest => if rest.any (fun q => q.1 = p.1) then keepLast rest else p :: keepLast rest

/-- A map of texts as it comes back from the JSON file, the list giving its pairs
in the order in which they stand in the file (the encoder writes them in
the order of the keys). -/
def jsonVars (vars : List (Text × Text)) : List (Text × Text) :=
  keepLast (vars.map fun p => (jsonString p.1, jsonString p.2))

/-! ## The execution log

The file `execution_logs.json` is modelled by the entries its JSON text spells.
Writing and reading put every text through the JSON encoding. -/

/-- The struct `ExecutionLog`. -/
structure ExecutionLog where
  /-- Field `ID`. -/
  ID : Text
  /-- Field `ProjectID`. -/
  ProjectID : Text
  /-- Field `ProjectCode`. -/
  ProjectCode : Text
  /-- Field `ProjectName`. -/
  ProjectName : Text
  /-- Field `ScriptName`. -/
  ScriptName : Text
  /-- Field `ScriptPath`. -/
  ScriptPath : Text
  /-- Field `ScriptContent`. -/
  ScriptContent : Text
  /-- Field `Command`. -/
  Command : Text
  /-- Field `Variables`, a map from names to values, as the list of its pairs in
  the order of the names. -/
  Variables : List (Text × Text)
  /-- Field `StartTime`. -/
  StartTime : Int
  /-- Field `EndTime`. -/
  EndTime : Int
  /-- Field `Status`. -/
  Status : Text
  /-- Field `Output`. -/
  Output : Text
deriving DecidableEq, Repr

/-- The state of the file `execution_logs.json`. -/
inductive LogFile where
  /-- The file does not exist. -/
  | missing
  /-- `os.ReadFile` fails with the message given. -/
  | unreadable (msg : Text)
  /-- `json.Unmarshal` fails with the message given. -/
  | corrupt (msg : Text)
  /-- The file is a JSON array that spells the entries given. -/
  | stored (logs : List ExecutionLog)
deriving DecidableEq, Repr

/-- An entry as it comes back from the JSON file: every text goes through
`jsonString` and the numbers stay. -/
def jsonLog (l : ExecutionLog) : ExecutionLog :=
  { ID := jsonString l.ID, ProjectID := jsonString l.ProjectID,
    ProjectCode := jsonString l.ProjectCode, ProjectName := jsonString l.ProjectName,
    ScriptName := jsonString l.ScriptName, ScriptPath := jsonString l.ScriptPath,
    ScriptContent := jsonString l.ScriptContent, Command := jsonString l.Command,
    Variables := jsonVars l.Variables, StartTime := l.StartTime, EndTime := l.EndTime,
    Status := jsonString l.Status, Output := jsonString l.Output }

/-- What `os.WriteFile` does in `saveExecutionLogs`: it succeeds, or it fails with a
message and leaves the file in the state given. -/
inductive WriteOutcome where
  /-- The write succeeds. -/
  | done
  /-- The write fails. -/
  | failed (msg : Text) (left : LogFile)
deriving DecidableEq, Repr

/-- The function `loadExecutionLogs`: `json.Unmarshal` gives the entries the file
spells, each text as the decoder reads it. -/
def loadExecutionLogs : LogFile → Except Text (List ExecutionLog)
  | .missing => .ok []
  | .unreadable msg => .error (goStr "读取执行日志文件失败: " ++ msg)
  | .corrupt msg => .error (goStr "解析执行日志失败: " ++ msg)
  | .stored logs => .ok (logs.map jsonLog)

/-- The function `saveExecutionLogs`: the file afterwards and the error returned.
`json.MarshalIndent` does not fail on a slice of `ExecutionLog`; the file it
makes spells every text as the encoder writes it. -/
def saveExecutionLogs (w : WriteOutcome) (logs : List ExecutionLog) : LogFile × Option Text :=
  match w with
  | .done => (.stored (logs.map jsonLog), none)
  | .failed msg left => (left, some (goStr "写入执行日志文件失败: " ++ msg))

/-- The entry `newLog` of `CreateExecutionLog`: the id is the nanosecond reading of
the clock printed with `%d`, the start time is the reading in seconds, the
status is `running`, and the end time and the output are zero values. -/
def newExecutionLog (nano unix : Int)
    (projectID projectName scriptName scriptPath scriptContent command : Text)
    (vars : List (Text × Text)) : ExecutionLog :=
  { ID := (toString nano).toList, ProjectID := projectID, ProjectCode := [],
    ProjectName := projectName, ScriptName := scriptName, ScriptPath := scriptPath,
    ScriptContent := scriptContent, Command := command, Variables := vars, StartTime := unix,
    EndTime := 0, Status := "running".toList, Output := [] }

/-- The function `CreateExecutionLog`, given the file, the two readings of the clock
(`time.Now().UnixNano()` for the id and `time.Now().Unix()` for the start
time) and what the write does: the file afterwards, and the id or the error
returned.  A failure of `loadExecutionLogs` is logged and the list is taken
as empty. -/
def CreateExecutionLog (file : LogFile) (nano unix : Int) (w : WriteOutcome)
    (projectID projectName scriptName scriptPath scriptContent command : Text)
    (vars : List (Text × Text)) : LogFile × Except Text Text :=
  let logs : List ExecutionLog :=
    match loadExecutionLogs file with
    | .ok logs => logs
    | .error _ => []
  let newLog := newExecutionLog nano unix projectID projectName scriptName scriptPath
    scriptContent command vars
  let logs := [newLog] ++ logs
  let logs := if logs.length > 500 then logs.take 500 else logs
  match saveExecutionLogs w logs with
  | (after, some err) => (after, .error err)
  | (after, none) => (after, .ok newLog.ID)

/-- The loop of `UpdateExecutionLog`: the first entry with the id is changed, and
the loop ends there. -/
def updateLoop (logID status output : Text) (unix : Int) : List ExecutionLog → List ExecutionLog
  | [] => []
  | log :: rest =>
    if log.ID = logID then
      { log with Status := status, Output := output, EndTime := unix } :: rest
    else log :: updateLoop logID status output unix rest

/-- The function `UpdateExecutionLog`, given the file, the reading of the clock and
what the write does: the file afterwards and the error returned. -/
def UpdateExecutionLog (file : LogFile) (unix : Int) (w : WriteOutcome)
    (logID status output : Text) : LogFile × Option Text :=
  match loadExecutionLogs file with
  | .error err => (file, some err)
  | .ok logs => saveExecutionLogs w (updateLoop logID status output unix logs)

/-- The function `GetExecutionLogDetail`: the first entry with the id, or an error. -/
def GetExecutionLogDetail (file : LogFile) (logID : Text) : Except Text ExecutionLog :=
  match loadExecutionLogs file with
  | .error err => .error err
  | .ok logs =>
    match logs.find? (fun log => log.ID = logID) with
    | some log => .ok log
    | none => .error (goStr "日志不存在: " ++ logID)

/-- The entries of a file as `loadExecutionLogs` reads them, none when it fails. -/
def LogFile.entries : LogFile → List ExecutionLog
  | .stored logs => logs.map jsonLog
  | _ => []

/-- The life of the handle in a trace, as C11 words it, the handle being absent
before the run: some `a.runningCmd = cmd` takes the handle from absent to
present; there is one completion event; wherever a completion event stands
in the trace, the handle was cleared before it and is absent when it is
emitted; and the handle is absent after the whole trace. -/
def HandleLifecycle (trace : List Action) : Prop :=
  (∃ pre post, trace = pre ++ Action.setRunning :: post
      ∧ handleAfter false pre = false ∧ handleAfter false (pre ++ [Action.setRunning]) = true)
  ∧ (trace.filter Action.isComplete).length = 1
  ∧ (∀ before after r, trace = before ++ Action.emit (.complete r) :: after →
      Action.clearRunning ∈ before ∧ handleAfter false before = false)
  ∧ handleAfter false trace = false

/-- The events of a run as C14 words them: the first effect is the `command:start`
event with the subcommand and it is the only start event; there is exactly
one `command:complete` event; and no `command:output` event comes after a
`command:complete` event. -/
def StartCompleteOnce (command : Text) (trace : List Action) : Prop :=
  trace.head? = some (Action.emit (.start command))
  ∧ (trace.filter Action.isStart).length = 1
  ∧ (trace.filter Action.isComplete).length = 1
  ∧ ∀ before after r, trace = before ++ Action.emit (.complete r) :: after →
      ∀ a ∈ after, a.isOutput = false

/-- The loop `for _, log := range logs { if keep(log) { filtered = append(filtered, log) } }`
of `GetExecutionLogs`, `DeleteExecutionLog` and `ClearExecutionLogs`. -/
def filterLoop (keep : ExecutionLog → Bool) (logs : List ExecutionLog) : List ExecutionLog :=
  logs.foldl (fun filtered log => if keep log then filtered ++ [log] else filtered) []

/-- The function `GetExecutionLogs`: the file afterwards, which the function never
writes, and the entries or the error returned.  The limit is a Go `int`. -/
def GetExecutionLogs (file : LogFile) (projectID : Text) (limit : Int) :
    LogFile × Except Text (List ExecutionLog) :=
  match loadExecutionLogs file with
  | .error err => (file, .error err)
  | .ok logs =>
    let logs :=
      if projectID ≠ [] then filterLoop (fun log => log.ProjectID = projectID) logs else logs
    let logs :=
      if limit > 0 ∧ (logs.length : Int) > limit then logs.take limit.toNat else logs
    (file, .ok logs)

/-- The function `DeleteExecutionLog`: the file afterwards and the error returned. -/
def DeleteExecutionLog (file : LogFile) (w : WriteOutcome) (logID : Text) :
    LogFile × Option Text :=
  match loadExecutionLogs file with
  | .error err => (file, some err)
  | .ok logs => saveExecutionLogs w (filterLoop (fun log => log.ID ≠ logID) logs)

/-- The function `ClearExecutionLogs`: with an empty project id the empty list is
written without reading the file. -/
def ClearExecutionLogs (file : LogFile) (w : WriteOutcome) (projectID : Text) :
    LogFile × Option Text :=
  if projectID = [] then saveExecutionLogs w []
  else
    match loadExecutionLogs file with
    | .error err => (file, some err)
    | .ok logs => saveExecutionLogs w (filterLoop (fun log => log.ProjectID ≠ projectID) logs)

/-- The characters of the suffixes of C24: ASCII letters, digits, `-` and `_`. -/
def isSuffixChar (c : Char) : Bool :=
  c.isAlphanum || c == '-' || c == '_'

/-- A piece of a stream without the carriage return at its end, when it has one:
the text of a line as the claims word it. -/
def withoutCR (piece : Text) : Text :=
  match piece.reverse with
  | c :: init => if c = Char.ofNat 13 then init.reverse else piece
  | [] => piece

/-- The line split of a byte string as C28 words it: the pieces ended by a
newline and the bytes after the last newline, each without a carriage
return at its end. -/
def claimedLines (data : Text) : List Text := (rawLines data).map withoutCR

/-- The truncation marker line of the log output. -/
def truncationMarker : Text := goStr "...(输出过长，已截断)...\n"

/-- The notice `CancelRunningCommand` emits after a kill. -/
def abortNotice : Text := goStr "⚠️ 命令已被用户中止"

/-! ## Texts and hosts of the examples, and the wording of the claims -/

/-- The characters a pattern prefix is made of, besides its keyword and spaces. -/
def prefixChars : Text := "(name=".toList

/-- The script of C5. -/
def fooBarScript : Text :=
  "app = modal.App(name=\"foo\")\nvol = modal.Volume.from_name(\"bar\")".toList

/-- The script of C5 with both literals suffixed once. -/
def fooBarScriptTest : Text :=
  "app = modal.App(name=\"foo-test\")\nvol = modal.Volume.from_name(\"bar-test\")".toList

/-- The environment as C6 words it: the inherited environment, then the two token
variables exactly when both the id and the secret are non-empty, then the
encoding variable. -/
def claimedEnv (environ : List Text) (tokenId tokenSecret : Text) : List Text :=
  environ
    ++ (if tokenId ≠ [] ∧ tokenSecret ≠ [] then
          ["MODAL_TOKEN_ID=".toList ++ tokenId, "MODAL_TOKEN_SECRET=".toList ++ tokenSecret]
        else [])
    ++ ["PYTHONIOENCODING=utf-8".toList]

/-- A host with the program `modal`, an empty environment and paths left as they are. -/
def demoHost : Host := ⟨"modal".toList, [], fun dir => dir⟩

/-- A process that starts, writes the given bytes and exits with status 0. -/
def demoSpawn (stdout stderr : Text) : Spawn := ⟨none, none, none, stdout, stderr, none⟩

/-! ## The scan: fuel and unfolding -/

theorem stripLit_eq_some {kw t r : Text} (h : stripLit kw t = some r) : t = kw ++ r := by
  induction kw generalizing t with
  | nil => simp [stripLit] at h; simp [h]
  | cons c cs ih =>
    cases t with
    | nil => simp [stripLit] at h
    | cons d ds =>
      simp only [stripLit] at h
      split at h
      · rename_i hcd
        subst hcd
        simp [ih h]
      · simp at h

theorem stripLit_append_self (kw r : Text) : stripLit kw (kw ++ r) = some r := by
  induction kw with
  | nil => simp [stripLit]
  | cons c cs ih => simp [stripLit, ih]

theorem skipSpaces_suffix (t : Text) : skipSpaces t <:+ t := by
  unfold skipSpaces
  exact List.dropWhile_suffix _

theorem quoted_eq_some {t : Text} {m : Text × Char × Text} (h : quoted t = some m) :
    ∃ q, t = q :: m.1 ++ m.2.1 :: m.2.2 ∧ isQuote q = true ∧ isQuote m.2.1 = true
      ∧ (∀ c ∈ m.1, isQuote c = false) ∧ m.1 ≠ [] := by
  cases t with
  | nil => simp [quoted] at h
  | cons q r =>
    simp only [quoted] at h
    split at h
    · rename_i hq
      split at h
      · simp at h
      · rename_i q2 rest hd
        split at h
        · simp at h
        · rename_i hne
          simp only [Option.some.injEq] at h
          subst h
          refine ⟨q, ?_, hq, ?_, ?_, hne⟩
          · have := List.takeWhile_append_dropWhile (fun c => !isQuote c) r
            rw [hd] at this
            simp [this]
          · have := List.head_dropWhile_not (fun c => !isQuote c) r
            simp [hd] at this
            simpa using this
          · intro c hc
            have := List.mem_takeWhile_imp hc
            simpa using this
    · simp at h

theorem isSpace_of_isQuote {q : Char} (h : isQuote q = true) : isSpace q = false := by
  simp only [isQuote, Bool.or_eq_true, beq_iff_eq] at h
  rcases h with h | h <;> subst h <;> decide

theorem stripLit_append_quote {kw : Text} (hkw : ∀ c ∈ kw, isQuote c = false) {q : Char}
    (hq : isQuote q = true) (w R : Text) :
    stripLit kw (w ++ q :: R) = (stripLit kw w).map (· ++ q :: R) := by
  induction kw generalizing w with
  | nil => simp [stripLit]
  | cons c cs ih =>
    have hc : isQuote c = false := hkw c (List.mem_cons_self _ _)
    have hcs : ∀ c ∈ cs, isQuote c = false := fun x hx => hkw x (List.mem_cons_of_mem _ hx)
    cases w with
    | nil =>
      have : c ≠ q := by
        intro h
        rw [h, hq] at hc
        exact Bool.noConfusion hc
      simp [stripLit, this]
    | cons d ds =>
      simp only [List.cons_append, stripLit]
      split
      · exact ih hcs ds
      · rfl

theorem skipSpaces_append_quote {q : Char} (hq : isQuote q = true) (w R : Text) :
    skipSpaces (w ++ q :: R) = skipSpaces w ++ q :: R := by
  induction w with
  | nil => simp [skipSpaces, List.dropWhile, isSpace_of_isQuote hq]
  | cons d ds ih =>
    simp only [skipSpaces, List.cons_append, List.dropWhile] at ih ⊢
    cases isSpace d
    · rfl
    · exact ih

theorem pfx_append_quote {kw : Text} (hkw : ∀ c ∈ kw, isQuote c = false) (o : Bool) {q : Char}
    (hq : isQuote q = true) (w R : Text) :
    pfx kw o (w ++ q :: R) = (pfx kw o w).map (· ++ q :: R) := by
  have hp : ∀ c ∈ ['('], isQuote c = false := by decide
  have he : ∀ c ∈ ['='], isQuote c = false := by decide
  have hn : ∀ c ∈ "name".toList, isQuote c = false := by decide
  unfold pfx
  rw [stripLit_append_quote hkw hq]
  cases stripLit kw w with
  | none => rfl
  | some r1 =>
    simp only [Option.map_some', Option.some_bind]
    rw [skipSpaces_append_quote hq, stripLit_append_quote hp hq]
    cases stripLit ['('] (skipSpaces r1) with
    | none => rfl
    | some r3 =>
      simp only [Option.map_some', Option.some_bind]
      rw [skipSpaces_append_quote hq]
      cases o with
      | false => rfl
      | true =>
        simp only [if_true]
        rw [stripLit_append_quote hn hq]
        cases stripLit "name".toList (skipSpaces r3) with
        | none => rfl
        | some r5 =>
          simp only [Option.map_some']
          rw [skipSpaces_append_quote hq, stripLit_append_quote he hq]
          cases stripLit ['='] (skipSpaces r5) with
          | none => rfl
          | some r7 =>
            simp only [Option.map_some']
            rw [skipSpaces_append_quote hq]

theorem skipSpaces_decomp (t : Text) :
    ∃ sp, t = sp ++ skipSpaces t ∧ ∀ c ∈ sp, isSpace c = true := by
  refine ⟨t.takeWhile isSpace, ?_, ?_⟩
  · unfold skipSpaces
    exact (List.takeWhile_append_dropWhile isSpace t).symm
  · intro c hc
    exact List.mem_takeWhile_imp hc

theorem pfx_eq_some {kw : Text} {o : Bool} {t r : Text} (h : pfx kw o t = some r) :
    ∃ w, t = w ++ r ∧ '(' ∈ w ∧ ∀ c ∈ w, c ∈ kw ∨ isSpace c = true ∨ c ∈ prefixChars := by
  unfold pfx at h
  simp only [Option.bind_eq_some] at h
  obtain ⟨r1, h1, r3, h3, h⟩ := h
  have e1 := stripLit_eq_some h1
  have e3 := stripLit_eq_some h3
  obtain ⟨sp1, d1, s1⟩ := skipSpaces_decomp r1
  obtain ⟨sp2, d2, s2⟩ := skipSpaces_decomp r3
  have base : t = (kw ++ sp1 ++ '(' :: sp2) ++ skipSpaces r3 := by
    conv_lhs => rw [e1, d1, e3, d2]
    simp only [List.append_assoc, List.cons_append, List.nil_append, List.singleton_append]
  have hb : ∀ c ∈ kw ++ sp1 ++ '(' :: sp2, c ∈ kw ∨ isSpace c = true ∨ c ∈ prefixChars := by
    intro c hc
    simp only [List.mem_append, List.mem_cons] at hc
    rcases hc with (hc | hc) | hc | hc
    · exact Or.inl hc
    · exact Or.inr (Or.inl (s1 c hc))
    · subst hc
      exact Or.inr (Or.inr (by decide))
    · exact Or.inr (Or.inl (s2 c hc))
  have hmem : '(' ∈ kw ++ sp1 ++ '(' :: sp2 := by simp
  by_cases ho : o = true
  · simp only [ho, if_true] at h
    split at h
    · rename_i r5 h5
      simp only [Option.map_eq_some'] at h
      obtain ⟨r7, h7, h⟩ := h
      have e5 := stripLit_eq_some h5
      have e7 := stripLit_eq_some h7
      obtain ⟨sp3, d3, s3⟩ := skipSpaces_decomp r5
      obtain ⟨sp4, d4, s4⟩ := skipSpaces_decomp r7
      refine ⟨(kw ++ sp1 ++ '(' :: sp2) ++ ("name".toList ++ sp3 ++ '=' :: sp4), ?_, ?_, ?_⟩
      · rw [← h]
        conv_lhs => rw [base, e5, d3, e7, d4]
        simp only [List.append_assoc, List.cons_append, List.nil_append, List.singleton_append]
      · exact List.mem_append_left _ hmem
      · intro c hc
        rcases List.mem_append.1 hc with hc | hc
        · exact hb c hc
        · simp only [List.mem_append, List.mem_cons] at hc
          rcases hc with (hc | hc) | hc | hc
          · have hname : ∀ c ∈ "name".toList, c ∈ prefixChars := by decide
            exact Or.inr (Or.inr (hname c hc))
          · exact Or.inr (Or.inl (s3 c hc))
          · subst hc
            exact Or.inr (Or.inr (by decide))
          · exact Or.inr (Or.inl (s4 c hc))
    · simp only [Option.some.injEq] at h
      exact ⟨_, h ▸ base, hmem, hb⟩
  · simp only [ho] at h
    simp only [Bool.false_eq_true, if_false, Option.some.injEq] at h
    exact ⟨_, h ▸ base, hmem, hb⟩

theorem quoted_of_stripName {r4 r5 : Text} (h : stripLit "name".toList r4 = some r5) :
    quoted r4 = none := by
  rw [stripLit_eq_some h]
  rfl

theorem matchAt_eq (kw : Text) (o : Bool) (t : Text) :
    matchAt kw o t = (pfx kw o t).bind fun r => (quoted r).map fun m =>
      { pre := t.take (t.length - (m.1.length + 1 + m.2.2.length)),
        name := m.1, close := m.2.1, rest := m.2.2 } := by
  unfold matchAt pfx
  cases stripLit kw t with
  | none => rfl
  | some r1 =>
    simp only [Option.some_bind]
    cases stripLit ['('] (skipSpaces r1) with
    | none => rfl
    | some r3 =>
      simp only [Option.some_bind]
      cases o with
      | false => simp
      | true =>
        simp only [if_true]
        cases h5 : stripLit "name".toList (skipSpaces r3) with
        | none => simp
        | some r5 =>
          simp only [Option.some_bind]
          cases stripLit ['='] (skipSpaces r5) with
          | none => simp [quoted_of_stripName h5]
          | some r7 =>
            simp only [Option.some_bind, Option.map_some']
            cases quoted (skipSpaces r7) with
            | none => simp [quoted_of_stripName h5]
            | some m => simp

theorem valid_head {g0 : Text} {l : List (Char × Text)} (h : Valid g0 l) :
    ∀ c ∈ g0, isQuote c = false := by
  cases l with
  | nil => exact h
  | cons p tl => exact h.1

theorem takeWhile_join {g : Text} {l : List (Char × Text)} (h : Valid g l) :
    (join g l).takeWhile (fun c => !isQuote c) = g := by
  cases l with
  | nil =>
    simp only [join]
    rw [List.takeWhile_eq_self_iff]
    intro c hc
    simp [h c hc]
  | cons p tl =>
    simp only [join]
    rw [List.takeWhile_append_of_pos (fun c hc => by simp [h.1 c hc])]
    simp [List.takeWhile, h.2.1]

theorem dropWhile_join {g : Text} {l : List (Char × Text)} (h : Valid g l) :
    (join g l).dropWhile (fun c => !isQuote c)
      = match l with
        | [] => []
        | p :: tl => p.1 :: join p.2 tl := by
  cases l with
  | nil =>
    simp only [join]
    rw [List.dropWhile_eq_nil_iff]
    intro c hc
    simp [h c hc]
  | cons p tl =>
    simp only [join]
    rw [List.dropWhile_append_of_pos (fun c hc => by simp [h.1 c hc])]
    simp [List.dropWhile, h.2.1]

theorem quoted_noQuote {r : Text} (h : ∀ c ∈ r, isQuote c = false) : quoted r = none := by
  cases hq : quoted r with
  | none => rfl
  | some m =>
    obtain ⟨q, e, hq1, -⟩ := quoted_eq_some hq
    have := h q (by rw [e]; simp)
    rw [hq1] at this
    exact Bool.noConfusion this

theorem pfx_suffix {kw : Text} {o : Bool} {t r : Text} (h : pfx kw o t = some r) : r <:+ t := by
  obtain ⟨w, e, -⟩ := pfx_eq_some h
  exact ⟨w, e.symm⟩

theorem matchAt_noQuote (kw : Text) (o : Bool) {g : Text} (h : ∀ c ∈ g, isQuote c = false) :
    matchAt kw o g = none := by
  rw [matchAt_eq]
  cases hp : pfx kw o g with
  | none => rfl
  | some r =>
    simp only [Option.some_bind, Option.map_eq_none']
    exact quoted_noQuote fun c hc => h c ((pfx_suffix hp).mem hc)

theorem take_pre (g0 n R : Text) (q q2 : Char) :
    (g0 ++ q :: (n ++ q2 :: R)).take ((g0 ++ q :: (n ++ q2 :: R)).length - (n.length + 1 + R.length))
      = g0 ++ [q] := by
  have e : g0 ++ q :: (n ++ q2 :: R) = (g0 ++ [q]) ++ (n ++ q2 :: R) := by simp
  have hl : (g0 ++ q :: (n ++ q2 :: R)).length - (n.length + 1 + R.length) = (g0 ++ [q]).length := by
    simp only [List.length_append, List.length_cons, List.length_nil]
    omega
  rw [hl, e, List.take_left]

theorem matchAt_join {kw : Text} (hkw : ∀ c ∈ kw, isQuote c = false) (o : Bool)
    {g0 : Text} {p : Char × Text} {tl : List (Char × Text)} (h : Valid g0 (p :: tl)) :
    matchAt kw o (join g0 (p :: tl)) =
      if pfx kw o g0 = some [] ∧ p.2 ≠ [] then
        match tl with
        | [] => none
        | p2 :: tl2 => some ⟨g0 ++ [p.1], p.2, p2.1, join p2.2 tl2⟩
      else none := by
  rw [matchAt_eq]
  simp only [join]
  rw [pfx_append_quote hkw o h.2.1]
  cases hp : pfx kw o g0 with
  | none => simp
  | some r =>
    cases r with
    | nil =>
      simp only [Option.map_some', Option.some_bind, List.nil_append, true_and]
      simp only [quoted, h.2.1, if_true, takeWhile_join h.2.2, dropWhile_join h.2.2]
      cases tl with
      | nil => simp
      | cons p2 tl2 =>
        by_cases hn : p.2 = []
        · simp [hn]
        · simp only [hn, if_false, Option.map_some', not_false_eq_true, if_true, join]
          rw [take_pre, if_pos hn]
    | cons c cs =>
      have hc : isQuote c = false :=
        h.1 c ((pfx_suffix hp).mem (List.mem_cons_self _ _))
      simp [quoted, hc]

theorem matchAt_rest_lt {kw : Text} {o : Bool} {t : Text} {m : Match}
    (h : matchAt kw o t = some m) : m.rest.length < t.length := by
  rw [matchAt_eq] at h
  simp only [Option.bind_eq_some, Option.map_eq_some'] at h
  obtain ⟨r, hr, x, hx, hm⟩ := h
  obtain ⟨q, e, -⟩ := quoted_eq_some hx
  have h1 : r.length ≤ t.length := (pfx_suffix hr).length_le
  have h2 : r.length = x.1.length + x.2.2.length + 2 := by
    rw [e]
    simp only [List.length_append, List.length_cons]
    omega
  rw [← hm]
  show x.2.2.length < t.length
  omega

theorem matchAt_nil (kw : Text) (o : Bool) : matchAt kw o [] = none :=
  matchAt_noQuote kw o (fun c hc => by simp at hc)

theorem replaceAllAux_fuel (kw : Text) (o : Bool) (suffix : Text) :
    ∀ (n m : Nat) (t : Text), t.length ≤ n → t.length ≤ m →
      replaceAllAux kw o suffix n t = replaceAllAux kw o suffix m t := by
  intro n
  induction n with
  | zero =>
    intro m t hn _
    have ht : t = [] := List.length_eq_zero.1 (Nat.le_zero.1 hn)
    subst ht
    cases m with
    | zero => rfl
    | succ m => simp [replaceAllAux, matchAt_nil]
  | succ n ih =>
    intro m t hn hm
    cases m with
    | zero =>
      have ht : t = [] := List.length_eq_zero.1 (Nat.le_zero.1 hm)
      subst ht
      simp [replaceAllAux, matchAt_nil]
    | succ m =>
      simp only [replaceAllAux]
      cases hmt : matchAt kw o t with
      | some x =>
        have := matchAt_rest_lt hmt
        simp only
        rw [ih m x.rest (by omega) (by omega)]
      | none =>
        cases t with
        | nil => rfl
        | cons c cs =>
          simp only [List.length_cons] at hn hm
          simp only
          rw [ih m cs (by omega) (by omega)]

theorem replaceAll_nil (kw : Text) (o : Bool) (suffix : Text) :
    replaceAll kw o suffix [] = [] := rfl

theorem isQuote_of_isSpace {c : Char} (h : isSpace c = true) : isQuote c = false := by
  cases hq : isQuote c with
  | false => rfl
  | true =>
    rw [isSpace_of_isQuote hq] at h
    exact Bool.noConfusion h

/-- The shape of a match: a pattern prefix, the opening quote, the name, the
closing quote. -/
theorem matchAt_shape {kw : Text} (hkw : ∀ c ∈ kw, isQuote c = false) {o : Bool} {t : Text}
    {m : Match} (h : matchAt kw o t = some m) :
    ∃ w q, (∀ c ∈ w, isQuote c = false) ∧ isQuote q = true ∧ isQuote m.close = true
      ∧ (∀ c ∈ m.name, isQuote c = false) ∧ m.name ≠ [] ∧ m.pre = w ++ [q]
      ∧ t = w ++ q :: (m.name ++ m.close :: m.rest) := by
  rw [matchAt_eq] at h
  simp only [Option.bind_eq_some, Option.map_eq_some'] at h
  obtain ⟨r, hr, x, hx, hm⟩ := h
  obtain ⟨w, e, -, hall⟩ := pfx_eq_some hr
  obtain ⟨q, er, hq, hq2, hn, hne⟩ := quoted_eq_some hx
  have hw : ∀ c ∈ w, isQuote c = false := by
    intro c hc
    rcases hall c hc with h1 | h1 | h1
    · exact hkw c h1
    · exact isQuote_of_isSpace h1
    · have hpc : ∀ c ∈ prefixChars, isQuote c = false := by decide
      exact hpc c h1
  have et : t = w ++ q :: (x.1 ++ x.2.1 :: x.2.2) := by
    rw [e, er]
    simp
  refine ⟨w, q, hw, hq, ?_, ?_, ?_, ?_, ?_⟩
  · rw [← hm]
    exact hq2
  · rw [← hm]
    exact hn
  · rw [← hm]
    exact hne
  · rw [← hm]
    show t.take (t.length - (x.1.length + 1 + x.2.2.length)) = w ++ [q]
    rw [et, take_pre]
  · rw [← hm]
    exact et

theorem pfx_of_match {kw : Text} (hkw : ∀ c ∈ kw, isQuote c = false) {o : Bool}
    {w R : Text} {q : Char} (hw : ∀ c ∈ w, isQuote c = false) (hq : isQuote q = true)
    {m : Match} (h : matchAt kw o (w ++ q :: R) = some m) : pfx kw o w = some [] := by
  rw [matchAt_eq, pfx_append_quote hkw o hq] at h
  cases hp : pfx kw o w with
  | none => simp [hp] at h
  | some r =>
    cases r with
    | nil => rfl
    | cons c cs =>
      have hc : isQuote c = false := hw c ((pfx_suffix hp).mem (List.mem_cons_self _ _))
      simp [hp, quoted, hc] at h

theorem take_matched (w name rest : Text) (q close : Char) :
    (w ++ q :: (name ++ close :: rest)).take
        ((w ++ q :: (name ++ close :: rest)).length - rest.length)
      = w ++ q :: (name ++ [close]) := by
  have e : w ++ q :: (name ++ close :: rest) = (w ++ q :: (name ++ [close])) ++ rest := by simp
  have hl : (w ++ q :: (name ++ close :: rest)).length - rest.length
      = (w ++ q :: (name ++ [close])).length := by
    simp only [List.length_append, List.length_cons, List.length_nil]
    omega
  rw [hl, e, List.take_left]

/-- On the text of a match the callback finds the same three groups again. -/
theorem suffixCallback_eq {kw : Text} (hkw : ∀ c ∈ kw, isQuote c = false) {o : Bool}
    (suffix : Text) {t : Text} {m : Match} (h : matchAt kw o t = some m) :
    suffixCallback kw o suffix (t.take (t.length - m.rest.length))
      = m.pre ++ fixName suffix m.name ++ [m.close] := by
  obtain ⟨w, q, hw, hq, hq2, hn, hne, hpre, et⟩ := matchAt_shape hkw h
  have hp : pfx kw o w = some [] := by
    rw [et] at h
    exact pfx_of_match hkw hw hq h
  have hv : Valid w [(q, m.name), (m.close, [])] :=
    ⟨hw, hq, hn, hq2, fun c hc => by simp at hc⟩
  have hself : matchAt kw o (w ++ q :: (m.name ++ [m.close]))
      = some ⟨w ++ [q], m.name, m.close, []⟩ := by
    have := matchAt_join hkw o hv
    rw [if_pos ⟨hp, hne⟩] at this
    simpa [join] using this
  conv_lhs => rw [et]
  rw [take_matched]
  unfold suffixCallback fixName
  rw [hself, hpre]
  by_cases hs : suffix.isSuffixOf m.name = true
  · simp [hs]
  · simp [hs]

theorem replaceAll_of_match {kw : Text} (hkw : ∀ c ∈ kw, isQuote c = false) {o : Bool}
    (suffix : Text) {t : Text} {m : Match} (h : matchAt kw o t = some m) :
    replaceAll kw o suffix t
      = m.pre ++ fixName suffix m.name ++ [m.close] ++ replaceAll kw o suffix m.rest := by
  have hlt := matchAt_rest_lt h
  unfold replaceAll
  cases hl : t.length with
  | zero => omega
  | succ k =>
    simp only [replaceAllAux, h]
    rw [replaceAllAux_fuel kw o suffix k m.rest.length m.rest (by omega) (Nat.le_refl _),
      suffixCallback_eq hkw suffix h]

theorem replaceAll_cons_of_none {kw : Text} {o : Bool} (suffix : Text) {c : Char} {cs : Text}
    (h : matchAt kw o (c :: cs) = none) :
    replaceAll kw o suffix (c :: cs) = c :: replaceAll kw o suffix cs := by
  unfold replaceAll
  simp only [List.length_cons, replaceAllAux, h]

theorem join_cons (c : Char) (g : Text) (l : List (Char × Text)) :
    join (c :: g) l = c :: join g l := by
  cases l <;> simp [join]

theorem pfx_nil (kw : Text) (o : Bool) : pfx kw o [] = none := by
  cases h : pfx kw o [] with
  | none => rfl
  | some r =>
    obtain ⟨w, e, hm, -⟩ := pfx_eq_some h
    have : w = [] := (List.append_eq_nil.1 e.symm).1
    subst this
    simp at hm

theorem replaceAll_noQuote (kw : Text) (o : Bool) (suffix : Text) {g : Text}
    (h : ∀ c ∈ g, isQuote c = false) : replaceAll kw o suffix g = g := by
  induction g with
  | nil => rfl
  | cons c cs ih =>
    rw [replaceAll_cons_of_none suffix (matchAt_noQuote kw o h),
      ih (fun x hx => h x (List.mem_cons_of_mem _ hx))]

theorem valid_tail {c : Char} {g : Text} {l : List (Char × Text)} (h : Valid (c :: g) l) :
    Valid g l := by
  cases l with
  | nil => exact fun x hx => h x (List.mem_cons_of_mem _ hx)
  | cons p tl => exact ⟨fun x hx => h.1 x (List.mem_cons_of_mem _ hx), h.2⟩

theorem replaceAll_join_aux {kw : Text} (hkw : ∀ c ∈ kw, isQuote c = false) (o : Bool)
    (suffix : Text) :
    ∀ (n : Nat) (l : List (Char × Text)), l.length ≤ n → ∀ g0, Valid g0 l →
      replaceAll kw o suffix (join g0 l) = join g0 (segPass (hasPre kw o) suffix false g0 l) := by
  intro n
  induction n with
  | zero =>
    intro l hl g0 hv
    have : l = [] := List.length_eq_zero.1 (Nat.le_zero.1 hl)
    subst this
    simpa [join, segPass] using replaceAll_noQuote kw o suffix hv
  | succ n ih =>
    intro l hl g0 hv
    cases l with
    | nil => simpa [join, segPass] using replaceAll_noQuote kw o suffix hv
    | cons p tl =>
      simp only [List.length_cons] at hl
      have htl : tl.length ≤ n := by omega
      induction g0 with
      | nil =>
        have hm : matchAt kw o (join [] (p :: tl)) = none := by
          rw [matchAt_join hkw o hv, pfx_nil]
          simp
        simp only [join, List.nil_append] at hm ⊢
        rw [replaceAll_cons_of_none suffix hm, ih tl htl p.2 hv.2.2]
      | cons c cs ihg =>
        have hmj := matchAt_join hkw o hv
        by_cases hA : pfx kw o (c :: cs) = some [] ∧ p.2 ≠ []
        · rw [if_pos hA] at hmj
          cases tl with
          | nil =>
            simp only at hmj
            rw [join_cons] at hmj ⊢
            rw [replaceAll_cons_of_none suffix hmj, ihg (valid_tail hv)]
            simp [segPass, join_cons]
          | cons p2 tl2 =>
            simp only at hmj
            simp only [List.length_cons] at htl
            rw [replaceAll_of_match hkw suffix hmj,
              ih tl2 (by omega) p2.2 hv.2.2.2.2]
            have hne : p.2.isEmpty = false := by
              cases hp2 : p.2 with
              | nil => exact absurd hp2 hA.2
              | cons _ _ => rfl
            simp [segPass, hasPre, hA.1, hne, join]
        · rw [if_neg hA] at hmj
          rw [join_cons] at hmj ⊢
          rw [replaceAll_cons_of_none suffix hmj, ihg (valid_tail hv)]
          have hseg : segPass (hasPre kw o) suffix false (c :: cs) (p :: tl)
              = segPass (hasPre kw o) suffix false cs (p :: tl) := by
            by_cases h1 : pfx kw o (c :: cs) = some []
            · have h2 : p.2 = [] := by
                by_contra h2
                exact hA ⟨h1, h2⟩
              simp [segPass, h2]
            · have h3 : hasPre kw o (c :: cs) = hasPre kw o cs := by
                simp [hasPre, h1]
              simp only [segPass, h3]
          rw [hseg, join_cons]

/-- A replacement pass acts on the segments of a text as `segPass` says. -/
theorem replaceAll_join {kw : Text} (hkw : ∀ c ∈ kw, isQuote c = false) (o : Bool)
    (suffix : Text) {g0 : Text} {l : List (Char × Text)} (hv : Valid g0 l) :
    replaceAll kw o suffix (join g0 l) = join g0 (segPass (hasPre kw o) suffix false g0 l) :=
  replaceAll_join_aux hkw o suffix l.length l (Nat.le_refl _) g0 hv

/-! ## Segments: validity and stability -/

theorem exists_segs (t : Text) : ∃ g0 l, Valid g0 l ∧ join g0 l = t := by
  induction t with
  | nil => exact ⟨[], [], fun c hc => by simp at hc, rfl⟩
  | cons c cs ih =>
    obtain ⟨g0, l, hv, hj⟩ := ih
    by_cases hc : isQuote c = true
    · refine ⟨[], (c, g0) :: l, ⟨fun x hx => by simp at hx, hc, hv⟩, ?_⟩
      simp [join, hj]
    · refine ⟨c :: g0, l, ?_, ?_⟩
      · have hh : ∀ x ∈ c :: g0, isQuote x = false := by
          intro x hx
          rcases List.mem_cons.1 hx with hx | hx
          · subst hx
            simpa using hc
          · exact valid_head hv x hx
        cases l with
        | nil => exact hh
        | cons p tl => exact ⟨hh, hv.2⟩
      · rw [join_cons, hj]

theorem valid_iff (g0 : Text) (l : List (Char × Text)) :
    Valid g0 l ↔ (∀ c ∈ g0, isQuote c = false) ∧
      ∀ p ∈ l, isQuote p.1 = true ∧ ∀ c ∈ p.2, isQuote c = false := by
  induction l generalizing g0 with
  | nil => simp [Valid]
  | cons p tl ih =>
    simp only [Valid, ih, List.mem_cons, forall_eq_or_imp]
    tauto

theorem fixName_noQuote {suffix g : Text} (hs : ∀ c ∈ suffix, isQuote c = false)
    (hg : ∀ c ∈ g, isQuote c = false) : ∀ c ∈ fixName suffix g, isQuote c = false := by
  unfold fixName
  split
  · exact hg
  · intro c hc
    rcases List.mem_append.1 hc with h | h
    · exact hg c h
    · exact hs c h

theorem suffix_fixName (suffix g : Text) : suffix <:+ fixName suffix g := by
  unfold fixName
  split
  · rename_i h
    exact List.isSuffixOf_iff_suffix.1 h
  · exact List.suffix_append _ _

theorem fixName_of_suffix {suffix g : Text} (h : suffix <:+ g) : fixName suffix g = g := by
  unfold fixName
  rw [if_pos (List.isSuffixOf_iff_suffix.2 h)]

theorem segPass_mem (hp : Text → Bool) (suffix : Text) :
    ∀ (l : List (Char × Text)) (skip : Bool) (g0 : Text) (x : Char × Text),
      x ∈ segPass hp suffix skip g0 l →
      ∃ p ∈ l, x.1 = p.1 ∧ (x.2 = p.2 ∨ x.2 = fixName suffix p.2) := by
  intro l
  induction l with
  | nil => intro skip g0 x hx; simp [segPass] at hx
  | cons p tl ih =>
    intro skip g0 x hx
    simp only [segPass] at hx
    split at hx
    · rcases List.mem_cons.1 hx with h | h
      · exact ⟨p, List.mem_cons_self _ _, by rw [h], Or.inr (by rw [h])⟩
      · obtain ⟨y, hy, h1⟩ := ih _ _ x h
        exact ⟨y, List.mem_cons_of_mem _ hy, h1⟩
    · rcases List.mem_cons.1 hx with h | h
      · exact ⟨p, List.mem_cons_self _ _, by rw [h], Or.inl (by rw [h])⟩
      · obtain ⟨y, hy, h1⟩ := ih _ _ x h
        exact ⟨y, List.mem_cons_of_mem _ hy, h1⟩

theorem valid_segPass (hp : Text → Bool) {suffix : Text}
    (hs : ∀ c ∈ suffix, isQuote c = false) {g0 : Text} {l : List (Char × Text)}
    (hv : Valid g0 l) (skip : Bool) (g : Text) : Valid g0 (segPass hp suffix skip g l) := by
  rw [valid_iff] at hv ⊢
  refine ⟨hv.1, ?_⟩
  intro x hx
  obtain ⟨p, hp1, h1, h2⟩ := segPass_mem hp suffix l skip g x hx
  refine ⟨by rw [h1]; exact (hv.2 p hp1).1, ?_⟩
  rcases h2 with h2 | h2
  · rw [h2]
    exact (hv.2 p hp1).2
  · rw [h2]
    exact fixName_noQuote hs (hv.2 p hp1).2

theorem segPass_of_stable (hp : Text → Bool) (suffix : Text) :
    ∀ (l : List (Char × Text)) (skip : Bool) (g0 g : Text),
      Stable hp suffix g0 l → (skip = false → g = g0) → segPass hp suffix skip g l = l := by
  intro l
  induction l with
  | nil => intro skip g0 g _ _; rfl
  | cons p tl ih =>
    intro skip g0 g hst hg
    simp only [segPass]
    split
    · rename_i hc
      simp only [Bool.and_eq_true, Bool.not_eq_true', List.isEmpty_eq_true] at hc
      obtain ⟨⟨⟨h1, h2⟩, h3⟩, h4⟩ := hc
      have hg0 : g = g0 := hg h1
      subst hg0
      have hsuf : suffix <:+ p.2 := by
        refine hst.1 ?_ h2 ?_
        · intro h
          subst h
          simp at h4
        · intro h
          rw [h] at h3
          simp at h3
      rw [fixName_of_suffix hsuf]
      rw [ih true p.2 p.2 hst.2 (fun _ => rfl)]
    · rw [ih false p.2 p.2 hst.2 (fun _ => rfl)]

theorem stable_segPass_self {hp : Text → Bool} {suffix : Text}
    (hh : ∀ x, suffix <:+ x → hp x = false) :
    ∀ (l : List (Char × Text)) (skip : Bool) (g g0 : Text),
      (skip = true → hp g0 = false) → (skip = false → g0 = g) →
      Stable hp suffix g0 (segPass hp suffix skip g l) := by
  intro l
  induction l with
  | nil => intro skip g g0 _ _; simp [segPass, Stable]
  | cons p tl ih =>
    intro skip g g0 h1 h2
    simp only [segPass]
    split
    · refine ⟨fun _ _ _ => suffix_fixName _ _, ?_⟩
      exact ih true _ _ (fun _ => hh _ (suffix_fixName _ _)) (fun h => by simp at h)
    · rename_i hc
      refine ⟨?_, ih false _ _ (fun h => by simp at h) (fun _ => rfl)⟩
      intro hne hg hp2
      exfalso
      apply hc
      cases skip with
      | true => rw [h1 rfl] at hg; exact Bool.noConfusion hg
      | false =>
        rw [h2 rfl] at hg
        have htl : tl ≠ [] := by
          intro h
          subst h
          simp [segPass] at hne
        have e1 : p.2.isEmpty = false := by
          cases hp3 : p.2 with
          | nil => exact absurd hp3 hp2
          | cons _ _ => rfl
        have e2 : tl.isEmpty = false := by
          cases htl2 : tl with
          | nil => exact absurd htl2 htl
          | cons _ _ => rfl
        simp [hg, e1, e2]

theorem stable_segPass_other (hp : Text → Bool) {hq : Text → Bool} {suffix : Text}
    (hh : ∀ x, suffix <:+ x → hq x = false) :
    ∀ (l : List (Char × Text)) (skip : Bool) (g g0 g1 : Text),
      (g1 = g0 ∨ hq g1 = false) → Stable hq suffix g0 l →
      Stable hq suffix g1 (segPass hp suffix skip g l) := by
  intro l
  induction l with
  | nil => intro skip g g0 g1 _ _; simp [segPass, Stable]
  | cons p tl ih =>
    intro skip g g0 g1 h1 hst
    simp only [segPass]
    split
    · refine ⟨fun _ _ _ => suffix_fixName _ _, ?_⟩
      exact ih true _ p.2 _ (Or.inr (hh _ (suffix_fixName _ _))) hst.2
    · refine ⟨?_, ih false _ p.2 _ (Or.inl rfl) hst.2⟩
      intro hne hg hp2
      rcases h1 with h1 | h1
      · subst h1
        refine hst.1 ?_ hg hp2
        intro h
        subst h
        simp [segPass] at hne
      · rw [h1] at hg
        exact Bool.noConfusion hg

theorem hasPre_iff (kw : Text) (o : Bool) (x : Text) :
    hasPre kw o x = true ↔ ∃ u, u <:+ x ∧ pfx kw o u = some [] := by
  induction x with
  | nil =>
    simp only [hasPre, Bool.false_eq_true, false_iff]
    rintro ⟨u, hu, h⟩
    have : u = [] := List.suffix_nil.1 hu
    subst this
    rw [pfx_nil] at h
    exact Option.noConfusion h
  | cons c cs ih =>
    simp only [hasPre, Bool.or_eq_true, beq_iff_eq, ih]
    constructor
    · rintro (h | ⟨u, hu, h⟩)
      · exact ⟨_, List.suffix_refl _, h⟩
      · exact ⟨u, hu.trans (List.suffix_cons _ _), h⟩
    · rintro ⟨u, hu, h⟩
      rcases List.suffix_cons_iff.1 hu with e | hu2
      · subst e
        exact Or.inl h
      · exact Or.inr ⟨u, hu2, h⟩

/-- A segment that ends with a suffix `-τ`, where `τ` has no `(`, does not end
with a pattern prefix. -/
theorem hasPre_of_suffix {kw : Text} (hkw : '-' ∉ kw) (o : Bool) {tau : Text}
    (htau : '(' ∉ tau) {x : Text} (hx : ('-' :: tau) <:+ x) : hasPre kw o x = false := by
  cases hp : hasPre kw o x with
  | false => rfl
  | true =>
    exfalso
    obtain ⟨u, hu, h⟩ := (hasPre_iff kw o x).1 hp
    obtain ⟨w, e, hm, hall⟩ := pfx_eq_some h
    simp only [List.append_nil] at e
    subst e
    have hdash : '-' ∉ u := by
      intro hd
      rcases hall _ hd with h1 | h1 | h1
      · exact hkw h1
      · exact absurd h1 (by decide)
      · exact absurd h1 (by decide)
    rcases List.suffix_or_suffix_of_suffix hu hx with h1 | h1
    · rcases List.suffix_cons_iff.1 h1 with e | h2
      · rw [e] at hdash
        exact hdash (List.mem_cons_self _ _)
      · exact htau (h2.mem hm)
    · exact hdash (h1.mem (List.mem_cons_self _ _))

/-! ## The three passes together -/

theorem appKw_noQuote : ∀ c ∈ appKw, isQuote c = false := by decide

theorem volumeKw_noQuote : ∀ c ∈ volumeKw, isQuote c = false := by decide

theorem secretKw_noQuote : ∀ c ∈ secretKw, isQuote c = false := by decide

theorem rewriteWith_join {suffix : Text} (hs : ∀ c ∈ suffix, isQuote c = false)
    {g0 : Text} {l : List (Char × Text)} (hv : Valid g0 l) :
    rewriteWith suffix (join g0 l) =
      join g0 (segPass (hasPre secretKw false) suffix false g0
        (segPass (hasPre volumeKw false) suffix false g0
          (segPass (hasPre appKw true) suffix false g0 l))) := by
  unfold rewriteWith
  have h1 := valid_segPass (hasPre appKw true) hs hv false g0
  have h2 := valid_segPass (hasPre volumeKw false) hs h1 false g0
  rw [replaceAll_join appKw_noQuote true suffix hv,
    replaceAll_join volumeKw_noQuote false suffix h1,
    replaceAll_join secretKw_noQuote false suffix h2]

theorem rewriteWith_of_stable {suffix : Text} (hs : ∀ c ∈ suffix, isQuote c = false)
    {g0 : Text} {l : List (Char × Text)} (hv : Valid g0 l)
    (hA : Stable (hasPre appKw true) suffix g0 l)
    (hV : Stable (hasPre volumeKw false) suffix g0 l)
    (hS : Stable (hasPre secretKw false) suffix g0 l) :
    rewriteWith suffix (join g0 l) = join g0 l := by
  rw [rewriteWith_join hs hv,
    segPass_of_stable _ _ l false g0 g0 hA (fun _ => rfl),
    segPass_of_stable _ _ l false g0 g0 hV (fun _ => rfl),
    segPass_of_stable _ _ l false g0 g0 hS (fun _ => rfl)]

/-- With a suffix `-τ` whose `τ` has neither a quote nor a `(`, the three passes
reach a fixed point at once. -/
theorem rewriteWith_idem {tau : Text} (hq : ∀ c ∈ tau, isQuote c = false)
    (hp : '(' ∉ tau) (t : Text) :
    rewriteWith ('-' :: tau) (rewriteWith ('-' :: tau) t) = rewriteWith ('-' :: tau) t := by
  have hs : ∀ c ∈ '-' :: tau, isQuote c = false := by
    intro c hc
    rcases List.mem_cons.1 hc with h | h
    · subst h
      decide
    · exact hq c h
  have fA : ∀ x, ('-' :: tau) <:+ x → hasPre appKw true x = false :=
    fun x hx => hasPre_of_suffix (by decide) true hp hx
  have fV : ∀ x, ('-' :: tau) <:+ x → hasPre volumeKw false x = false :=
    fun x hx => hasPre_of_suffix (by decide) false hp hx
  have fS : ∀ x, ('-' :: tau) <:+ x → hasPre secretKw false x = false :=
    fun x hx => hasPre_of_suffix (by decide) false hp hx
  obtain ⟨g0, l, hv, hj⟩ := exists_segs t
  subst hj
  rw [rewriteWith_join hs hv]
  have v1 := valid_segPass (hasPre appKw true) hs hv false g0
  have v2 := valid_segPass (hasPre volumeKw false) hs v1 false g0
  have v3 := valid_segPass (hasPre secretKw false) hs v2 false g0
  have a1 := stable_segPass_self fA l false g0 g0 (fun h => by simp at h) (fun _ => rfl)
  have a2 := stable_segPass_other (hasPre volumeKw false) fA _ false g0 g0 g0 (Or.inl rfl) a1
  have a3 := stable_segPass_other (hasPre secretKw false) fA _ false g0 g0 g0 (Or.inl rfl) a2
  have b2 := stable_segPass_self fV (segPass (hasPre appKw true) ('-' :: tau) false g0 l)
    false g0 g0 (fun h => by simp at h) (fun _ => rfl)
  have b3 := stable_segPass_other (hasPre secretKw false) fV _ false g0 g0 g0 (Or.inl rfl) b2
  have c3 := stable_segPass_self fS
    (segPass (hasPre volumeKw false) ('-' :: tau) false g0
      (segPass (hasPre appKw true) ('-' :: tau) false g0 l))
    false g0 g0 (fun h => by simp at h) (fun _ => rfl)
  exact rewriteWith_of_stable hs v3 a3 b3 c3

theorem normalizeSuffix_shape {s : Text} (hne : s ≠ [])
    (hs : ∀ c ∈ s, isQuote c = false ∧ c ≠ '(') :
    ∃ tau, normalizeSuffix s = '-' :: tau ∧ (∀ c ∈ tau, isQuote c = false) ∧ '(' ∉ tau := by
  cases s with
  | nil => exact absurd rfl hne
  | cons c cs =>
    by_cases hc : c = '-'
    · subst hc
      refine ⟨cs, by simp [normalizeSuffix], ?_, ?_⟩
      · exact fun x hx => (hs x (List.mem_cons_of_mem _ hx)).1
      · exact fun hx => (hs _ (List.mem_cons_of_mem _ hx)).2 rfl
    · refine ⟨c :: cs, ?_, fun x hx => (hs x hx).1, fun hx => (hs _ hx).2 rfl⟩
      have : ('-' == c) = false := by
        simp only [beq_eq_false_iff_ne, ne_eq]
        exact fun h => hc h.symm
      simp [normalizeSuffix, List.isPrefixOf, this]

/-! ## Claims about `modifyScriptForEnvironment` -/

/-- C1, as stated, fails: with the suffix `modal.App(` the second run rewrites a
literal that the first run left alone (the Volume literal of the first run ends
with a new `modal.App(` prefix), and with a suffix that holds a quote the
literal is cut at that quote and suffixed again. -/
theorem modifyScriptForEnvironment_not_idempotent :
    modifyScriptForEnvironment
        (modifyScriptForEnvironment "x = modal.Volume.from_name(\"a\") + \"b\"".toList
          "modal.App(".toList) "modal.App(".toList
      ≠ modifyScriptForEnvironment "x = modal.Volume.from_name(\"a\") + \"b\"".toList
          "modal.App(".toList
    ∧ modifyScriptForEnvironment
        (modifyScriptForEnvironment "modal.App(\"a\")".toList [dquote]) [dquote]
      ≠ modifyScriptForEnvironment "modal.App(\"a\")".toList [dquote] := by
  decide

/-- C1 (amended): for every source text and every suffix that contains neither a
quote character nor `(`, rewriting twice with the suffix gives the same text as
rewriting once. -/
theorem modifyScriptForEnvironment_idempotent (t s : Text)
    (hs : ∀ c ∈ s, isQuote c = false ∧ c ≠ '(') :
    modifyScriptForEnvironment (modifyScriptForEnvironment t s) s
      = modifyScriptForEnvironment t s := by
  by_cases hne : s = []
  · simp [modifyScriptForEnvironment, hne]
  · obtain ⟨tau, e, hq, hp⟩ := normalizeSuffix_shape hne hs
    simp only [modifyScriptForEnvironment, hne, if_false, e]
    exact rewriteWith_idem hq hp t

/-- Witness of C1 (amended): a two-line script and the suffix `test`. -/
theorem modifyScriptForEnvironment_idempotent_witness :
    (∀ c ∈ "test".toList, isQuote c = false ∧ c ≠ '(') ∧
    modifyScriptForEnvironment
        (modifyScriptForEnvironment "a = modal.App(\"x\")\nb = modal.Secret.from_name(\"y\")".toList
          "test".toList) "test".toList
      = modifyScriptForEnvironment "a = modal.App(\"x\")\nb = modal.Secret.from_name(\"y\")".toList
          "test".toList :=
  ⟨by decide, modifyScriptForEnvironment_idempotent _ _ (by decide)⟩

/-- C2: with the empty suffix `modifyScriptForEnvironment` returns its input. -/
theorem modifyScriptForEnvironment_empty_suffix (t : Text) :
    modifyScriptForEnvironment t [] = t := by
  simp [modifyScriptForEnvironment]

/-- C3: a non-empty suffix that does not begin with `-` is used as `-` followed by
the suffix, and a suffix that begins with `-` is used as given: the passes run
with exactly that suffix. -/
theorem modifyScriptForEnvironment_normalizes (t s : Text) (hne : s ≠ [])
    (hd : s.head? ≠ some '-') :
    modifyScriptForEnvironment t s = modifyScriptForEnvironment t ('-' :: s)
    ∧ ∀ r, modifyScriptForEnvironment t ('-' :: r) = rewriteWith ('-' :: r) t := by
  have h2 : ∀ r, modifyScriptForEnvironment t ('-' :: r) = rewriteWith ('-' :: r) t := by
    intro r
    simp [modifyScriptForEnvironment, normalizeSuffix]
  refine ⟨?_, h2⟩
  rw [h2]
  cases s with
  | nil => exact absurd rfl hne
  | cons c cs =>
    have hc : ('-' == c) = false := by
      simp only [beq_eq_false_iff_ne, ne_eq]
      intro h
      apply hd
      simp [← h]
    simp [modifyScriptForEnvironment, normalizeSuffix, List.isPrefixOf, hc]

/-- Witness of C3: the suffix `test`. -/
theorem modifyScriptForEnvironment_normalizes_witness :
    modifyScriptForEnvironment "modal.App(\"a\")".toList "test".toList
      = modifyScriptForEnvironment "modal.App(\"a\")".toList "-test".toList
    ∧ ∀ r, modifyScriptForEnvironment "modal.App(\"a\")".toList ('-' :: r)
        = rewriteWith ('-' :: r) "modal.App(\"a\")".toList :=
  modifyScriptForEnvironment_normalizes _ "test".toList (by decide) (by decide)

theorem fixName_not_suffix {suffix g : Text} (h : ¬ suffix <:+ g) :
    fixName suffix g = g ++ suffix := by
  unfold fixName
  rw [if_neg (fun hh => h (List.isSuffixOf_iff_suffix.1 hh))]

/-- A text with one quoted literal, after a quote-free head in which one of the
three pattern prefixes ends. -/
theorem rewriteWith_one_literal {suffix : Text} (hs : ∀ c ∈ suffix, isQuote c = false)
    {g0 n tail : Text} {q : Char} (hg0 : ∀ c ∈ g0, isQuote c = false)
    (hn : ∀ c ∈ n, isQuote c = false) (hne : n ≠ [])
    (htail : ∀ c ∈ tail, isQuote c = false) (hq : isQuote q = true)
    (hnot : ¬ suffix <:+ n)
    (hpre : (hasPre appKw true g0 || hasPre volumeKw false g0 || hasPre secretKw false g0) = true) :
    rewriteWith suffix (g0 ++ q :: (n ++ q :: tail)) = g0 ++ q :: ((n ++ suffix) ++ q :: tail) := by
  have hv : Valid g0 [(q, n), (q, tail)] := ⟨hg0, hq, hn, hq, htail⟩
  have hj : g0 ++ q :: (n ++ q :: tail) = join g0 [(q, n), (q, tail)] := by simp [join]
  have e1 : n.isEmpty = false := by
    cases hn2 : n with
    | nil => exact absurd hn2 hne
    | cons _ _ => rfl
  have e2 : (n ++ suffix).isEmpty = false := by
    cases hn2 : n with
    | nil => exact absurd hn2 hne
    | cons _ _ => rfl
  have f1 := fixName_not_suffix hnot
  have f2 : fixName suffix (n ++ suffix) = n ++ suffix :=
    fixName_of_suffix (List.suffix_append _ _)
  rw [hj, rewriteWith_join hs hv]
  cases hA : hasPre appKw true g0 <;> cases hV : hasPre volumeKw false g0 <;>
    cases hS : hasPre secretKw false g0 <;>
    simp [hA, hV, hS] at hpre <;>
    simp [segPass, join, hA, hV, hS, e1, e2, f1, f2]

/-- C4: in a text made of one declaration `modal.App(q n q)`, `modal.App(name=q n q)`,
`modal.Volume.from_name(q n q)` or `modal.Secret.from_name(q n q)`, with a
non-empty quote-free name `n` that does not end with the normalized suffix, the
name is replaced by `n` followed by the normalized suffix and the rest of the
text, both quotes included, stays as it is. -/
theorem modifyScriptForEnvironment_one_declaration (n s : Text) (q : Char)
    (hn : ∀ c ∈ n, isQuote c = false) (hne : n ≠ []) (hq : isQuote q = true)
    (hs : ∀ c ∈ s, isQuote c = false) (hsne : s ≠ [])
    (hnot : ¬ normalizeSuffix s <:+ n) :
    modifyScriptForEnvironment ("modal.App(".toList ++ q :: (n ++ q :: [')'])) s
        = "modal.App(".toList ++ q :: ((n ++ normalizeSuffix s) ++ q :: [')'])
    ∧ modifyScriptForEnvironment ("modal.App(name=".toList ++ q :: (n ++ q :: [')'])) s
        = "modal.App(name=".toList ++ q :: ((n ++ normalizeSuffix s) ++ q :: [')'])
    ∧ modifyScriptForEnvironment ("modal.Volume.from_name(".toList ++ q :: (n ++ q :: [')'])) s
        = "modal.Volume.from_name(".toList ++ q :: ((n ++ normalizeSuffix s) ++ q :: [')'])
    ∧ modifyScriptForEnvironment ("modal.Secret.from_name(".toList ++ q :: (n ++ q :: [')'])) s
        = "modal.Secret.from_name(".toList ++ q :: ((n ++ normalizeSuffix s) ++ q :: [')']) := by
  have hs2 : ∀ c ∈ normalizeSuffix s, isQuote c = false := by
    unfold normalizeSuffix
    split
    · exact hs
    · intro c hc
      rcases List.mem_cons.1 hc with h | h
      · subst h
        decide
      · exact hs c h
  have ht : ∀ c ∈ [')'], isQuote c = false := by decide
  simp only [modifyScriptForEnvironment, hsne, if_false]
  exact ⟨rewriteWith_one_literal hs2 (by decide) hn hne ht hq hnot (by decide),
    rewriteWith_one_literal hs2 (by decide) hn hne ht hq hnot (by decide),
    rewriteWith_one_literal hs2 (by decide) hn hne ht hq hnot (by decide),
    rewriteWith_one_literal hs2 (by decide) hn hne ht hq hnot (by decide)⟩

/-- Witness of C4: the name `data`, the double quote and the suffix `prod`. -/
theorem modifyScriptForEnvironment_one_declaration_witness :
    modifyScriptForEnvironment "modal.App(\"data\")".toList "prod".toList
        = "modal.App(\"data-prod\")".toList
    ∧ modifyScriptForEnvironment "modal.App(name=\"data\")".toList "prod".toList
        = "modal.App(name=\"data-prod\")".toList
    ∧ modifyScriptForEnvironment "modal.Volume.from_name(\"data\")".toList "prod".toList
        = "modal.Volume.from_name(\"data-prod\")".toList
    ∧ modifyScriptForEnvironment "modal.Secret.from_name(\"data\")".toList "prod".toList
        = "modal.Secret.from_name(\"data-prod\")".toList :=
  modifyScriptForEnvironment_one_declaration "data".toList "prod".toList dquote
    (by decide) (by decide) (by decide) (by decide) (by decide) (by decide)

/-- C5: however many times (at least once) the script with the literals `foo` and
`bar` is rewritten with the suffix `-test`, the result is the script with the
literals `foo-test` and `bar-test`. -/
theorem modifyScriptForEnvironment_fooBar (n : Nat) (hn : 1 ≤ n) :
    (fun t => modifyScriptForEnvironment t "-test".toList)^[n] fooBarScript
      = fooBarScriptTest := by
  induction n with
  | zero => omega
  | succ k ih =>
    rw [Function.iterate_succ_apply']
    cases k with
    | zero => decide
    | succ j =>
      rw [ih (by omega)]
      decide

/-- Witness of C5: three runs. -/
theorem modifyScriptForEnvironment_fooBar_witness :
    (fun t => modifyScriptForEnvironment t "-test".toList)^[3] fooBarScript
      = fooBarScriptTest :=
  modifyScriptForEnvironment_fooBar 3 (by decide)

/-! ## Claims about the command builder and the synchronous runner -/

theorem tokenEnv_eq_claimedEnv (environ : List Text) (tokenId tokenSecret : Text) :
    tokenEnv environ tokenId tokenSecret = claimedEnv environ tokenId tokenSecret := by
  unfold tokenEnv claimedEnv
  by_cases h : tokenId ≠ [] ∧ tokenSecret ≠ []
  · simp only [if_pos h, List.append_assoc, List.singleton_append]
  · simp only [if_neg h, List.append_nil]

/-- C6: `RunModalCommandWithEnv`, `RunModalCommandAsync` and
`RunModalCommandAsyncWithLog` hand the operating system one and the same command:
the arguments are the subcommand followed by the given arguments, and the
environment is the inherited one, then `MODAL_TOKEN_ID` and `MODAL_TOKEN_SECRET`
exactly when both the id and the secret are non-empty, then
`PYTHONIOENCODING=utf-8`. -/
theorem runners_build_invocation (h : Host) (command : Text) (args : List Text)
    (workDir tokenId tokenSecret logID : Text) :
    (∀ c ∈ [RunModalCommandWithEnv_cmd h command args workDir tokenId tokenSecret,
            RunModalCommandAsync_cmd h command args workDir tokenId tokenSecret,
            RunModalCommandAsyncWithLog_cmd h command args workDir tokenId tokenSecret],
        c.args = command :: args ∧ c.env = claimedEnv h.environ tokenId tokenSecret)
    ∧ (∀ os, RunModalCommandWithEnv h os command args workDir tokenId tokenSecret
        = RunModalCommandWithEnv h
            (fun _ => os ⟨h.modalPath, command :: args, cmdDir h workDir,
              claimedEnv h.environ tokenId tokenSecret⟩)
            command args workDir tokenId tokenSecret)
    ∧ (∀ os, RunModalCommandAsync h os command args workDir tokenId tokenSecret
        = RunModalCommandAsync h
            (fun _ => os ⟨h.modalPath, command :: args, cmdDir h workDir,
              claimedEnv h.environ tokenId tokenSecret⟩)
            command args workDir tokenId tokenSecret)
    ∧ (∀ os, RunModalCommandAsyncWithLog h os command args workDir tokenId tokenSecret logID
        = RunModalCommandAsyncWithLog h
            (fun _ => os ⟨h.modalPath, command :: args, cmdDir h workDir,
              claimedEnv h.environ tokenId tokenSecret⟩)
            command args workDir tokenId tokenSecret logID) := by
  refine ⟨?_, ?_, ?_, ?_⟩
  · intro c hc
    simp only [List.mem_cons, List.mem_singleton, List.not_mem_nil, or_false] at hc
    rcases hc with hc | hc | hc <;> subst hc <;>
      exact ⟨rfl, tokenEnv_eq_claimedEnv _ _ _⟩
  · intro os
    simp only [RunModalCommandWithEnv, RunModalCommandWithEnv_cmd, tokenEnv_eq_claimedEnv,
      List.singleton_append]
  · intro os
    simp only [RunModalCommandAsync, RunModalCommandAsync_cmd, tokenEnv_eq_claimedEnv,
      List.singleton_append]
  · intro os
    simp only [RunModalCommandAsyncWithLog, RunModalCommandAsyncWithLog_cmd,
      tokenEnv_eq_claimedEnv, List.singleton_append]

theorem execError_ne_nil (e : ExecError) : e.Error ≠ [] := by
  cases e <;> simp [ExecError.Error]

theorem syncResult_spec (o : ProcOutcome) :
    ((syncResult o).Success = true ↔ ∃ output, o = .exited 0 output)
    ∧ (syncResult o).Output = o.output
    ∧ ((syncResult o).Success = false → (syncResult o).Error ≠ []) := by
  cases o with
  | notStarted e =>
    refine ⟨?_, rfl, fun _ => ?_⟩
    · simp [syncResult, ProcOutcome.err]
    · simpa [syncResult, ProcOutcome.err] using execError_ne_nil e
  | exited code output =>
    cases code with
    | zero =>
      refine ⟨?_, rfl, ?_⟩
      · simp [syncResult, ProcOutcome.err]
      · simp [syncResult, ProcOutcome.err]
    | succ n =>
      refine ⟨?_, rfl, fun _ => ?_⟩
      · simp [syncResult, ProcOutcome.err]
      · simpa [syncResult, ProcOutcome.err] using execError_ne_nil (.exitStatus (n + 1))
  | signaled name output =>
    refine ⟨?_, rfl, fun _ => ?_⟩
    · simp [syncResult, ProcOutcome.err]
    · simpa [syncResult, ProcOutcome.err] using execError_ne_nil (.signal name)

/-- C7: the result of `RunModalCommand` and of `RunModalCommandWithEnv` has
`Success` exactly when the process ran and exited with status 0, its `Output` is
the whole combined output of the process in every case, and its `Error` is not
empty whenever `Success` is false. -/
theorem sync_runner_result (h : Host) (os : Invocation → ProcOutcome) (command : Text)
    (args : List Text) (workDir tokenId tokenSecret : Text) :
    (((RunModalCommand h os command args workDir).2.Success = true
        ↔ ∃ output, os (RunModalCommand_cmd h command args workDir) = .exited 0 output)
      ∧ (RunModalCommand h os command args workDir).2.Output
          = (os (RunModalCommand_cmd h command args workDir)).output
      ∧ ((RunModalCommand h os command args workDir).2.Success = false
          → (RunModalCommand h os command args workDir).2.Error ≠ []))
    ∧ (((RunModalCommandWithEnv h os command args workDir tokenId tokenSecret).2.Success = true
        ↔ ∃ output, os (RunModalCommandWithEnv_cmd h command args workDir tokenId tokenSecret)
            = .exited 0 output)
      ∧ (RunModalCommandWithEnv h os command args workDir tokenId tokenSecret).2.Output
          = (os (RunModalCommandWithEnv_cmd h command args workDir tokenId tokenSecret)).output
      ∧ ((RunModalCommandWithEnv h os command args workDir tokenId tokenSecret).2.Success = false
          → (RunModalCommandWithEnv h os command args workDir tokenId tokenSecret).2.Error ≠ [])) :=
  ⟨syncResult_spec _, syncResult_spec _⟩

/-! ## The scanner -/

theorem rawLinesAux_head (data : Text) :
    ∀ cur : Text, cur ≠ [] →
      ∃ l rest, rawLinesAux cur data = l :: rest ∧ cur.length ≤ l.length := by
  induction data with
  | nil =>
    intro cur hc
    exact ⟨cur, [], by simp [rawLinesAux, hc], Nat.le_refl _⟩
  | cons c cs ih =>
    intro cur hc
    simp only [rawLinesAux]
    split
    · exact ⟨cur, _, rfl, Nat.le_refl _⟩
    · obtain ⟨l, rest, e, hl⟩ := ih (cur ++ [c]) (by simp)
      refine ⟨l, rest, e, ?_⟩
      simp only [List.length_append, List.length_singleton] at hl
      omega

/-- The scanner delivers the lines up to the first one that does not fit. -/
theorem scanLinesAux_eq (max : Nat) (data : Text) :
    ∀ cur : Text, cur.length < max →
      scanLinesAux max cur data
        = ((rawLinesAux cur data).takeWhile (fun l => decide (l.length < max))).map dropCR := by
  induction data with
  | nil =>
    intro cur hc
    simp only [scanLinesAux, rawLinesAux]
    split
    · rfl
    · simp [List.takeWhile, hc]
  | cons c cs ih =>
    intro cur hc
    simp only [scanLinesAux, rawLinesAux]
    split
    · rw [ih [] (by simpa using Nat.lt_of_le_of_lt (Nat.zero_le _) hc)]
      simp [List.takeWhile, hc]
    · split
      · rename_i hmax
        obtain ⟨l, rest, e, hl⟩ := rawLinesAux_head cs (cur ++ [c]) (by simp)
        simp only [List.length_append, List.length_singleton] at hl
        have : ¬ l.length < max := by omega
        rw [e]
        simp [List.takeWhile, this]
      · rename_i hmax
        exact ih (cur ++ [c]) (by simp only [List.length_append, List.length_singleton]; omega)

theorem scanLines_eq {max : Nat} (hmax : 0 < max) (data : Text) :
    scanLines max data
      = ((rawLines data).takeWhile (fun l => decide (l.length < max))).map dropCR :=
  scanLinesAux_eq max data [] hmax

theorem rawLinesAux_line (line rest : Text) (hl : ∀ c ∈ line, c ≠ Char.ofNat 10) :
    ∀ cur : Text, rawLinesAux cur (line ++ Char.ofNat 10 :: rest)
      = (cur ++ line) :: rawLinesAux [] rest := by
  induction line with
  | nil => intro cur; simp [rawLinesAux]
  | cons c cs ih =>
    intro cur
    have hc : c ≠ Char.ofNat 10 := hl c (List.mem_cons_self _ _)
    simp only [List.cons_append, rawLinesAux, hc, if_false, List.append_eq]
    rw [ih (fun x hx => hl x (List.mem_cons_of_mem _ hx))]
    simp

/-- A line that fills the buffer stops the scanner: it and all that follows are
not delivered. -/
theorem scanLines_tooLong {max : Nat} (hmax : 0 < max) (line rest : Text)
    (hl : ∀ c ∈ line, c ≠ Char.ofNat 10) (hlen : max ≤ line.length) :
    scanLines max (line ++ Char.ofNat 10 :: rest) = [] := by
  rw [scanLines_eq hmax, rawLines, rawLinesAux_line line rest hl]
  have : ¬ line.length < max := by omega
  simp [List.takeWhile, this]

theorem rawLinesAux_append (a b : Text) :
    ∀ cur : Text, rawLinesAux cur (a ++ Char.ofNat 10 :: b)
      = rawLinesAux cur (a ++ [Char.ofNat 10]) ++ rawLinesAux [] b := by
  induction a with
  | nil => intro cur; simp [rawLinesAux]
  | cons c cs ih =>
    intro cur
    simp only [List.cons_append, rawLinesAux, List.append_eq]
    split
    · rw [ih []]
      simp
    · exact ih _

theorem rawLines_append {out : Text} (h : out = [] ∨ ∃ a, out = a ++ [Char.ofNat 10])
    (err : Text) : rawLines (out ++ err) = rawLines out ++ rawLines err := by
  rcases h with h | ⟨a, h⟩
  · subst h
    simp [rawLines, rawLinesAux]
  · subst h
    unfold rawLines
    rw [List.append_assoc, List.singleton_append, rawLinesAux_append]

/-! ## The asynchronous runners -/

theorem scanLoopWithLog_aux (lines : List Text) :
    ∀ st : List Action × Text,
      lines.foldl
        (fun st line =>
          (st.1 ++ [Action.emit (.output line)], st.2 ++ (line ++ [Char.ofNat 10]))) st
      = (st.1 ++ lines.map (fun line => Action.emit (.output line)),
         st.2 ++ lines.flatMap (fun line => line ++ [Char.ofNat 10])) := by
  induction lines with
  | nil => intro st; simp
  | cons l ls ih =>
    intro st
    simp only [List.foldl_cons, ih, List.map_cons, List.flatMap_cons, List.append_assoc,
      List.singleton_append]

theorem scanLoopWithLog_eq (lines : List Text) :
    scanLoopWithLog lines
      = (lines.map (fun line => Action.emit (.output line)),
         lines.flatMap (fun line => line ++ [Char.ofNat 10])) := by
  unfold scanLoopWithLog
  rw [scanLoopWithLog_aux]
  simp

theorem deliveredLines_append (a b : List Action) :
    deliveredLines (a ++ b) = deliveredLines a ++ deliveredLines b := by
  simp [deliveredLines, List.filterMap_append]

theorem deliveredLines_outputs (lines : List Text) :
    deliveredLines (lines.map (fun line => Action.emit (.output line))) = lines := by
  induction lines with
  | nil => rfl
  | cons l ls ih =>
    simp only [List.map_cons, deliveredLines, List.filterMap_cons] at ih ⊢
    rw [ih]

theorem completions_append (a b : List Action) :
    completions (a ++ b) = completions a ++ completions b := by
  simp [completions, List.filterMap_append]

theorem completions_outputs (lines : List Text) :
    completions (lines.map (fun line => Action.emit (.output line))) = [] := by
  induction lines with
  | nil => rfl
  | cons l ls ih =>
    simp only [List.map_cons, completions, List.filterMap_cons] at ih ⊢
    rw [ih]

theorem async_trace_started (h : Host) (os : Invocation → Spawn) (command : Text)
    (args : List Text) (workDir tokenId tokenSecret : Text)
    (hs : (os (RunModalCommandAsync_cmd h command args workDir tokenId tokenSecret)).started) :
    RunModalCommandAsync h os command args workDir tokenId tokenSecret
      = Action.emit (.start command) ::
          ([Action.setRunning]
            ++ (mergedLines (os (RunModalCommandAsync_cmd h command args workDir tokenId
                  tokenSecret))).map (fun line => Action.emit (.output line))
            ++ [Action.clearRunning,
                Action.emit (.complete
                  ⟨(os (RunModalCommandAsync_cmd h command args workDir tokenId
                      tokenSecret)).wait.isNone, [],
                   errorText (os (RunModalCommandAsync_cmd h command args workDir tokenId
                      tokenSecret)).wait⟩)]) := by
  obtain ⟨h1, h2, h3⟩ := hs
  simp only [RunModalCommandAsync, h1, h2, h3]

theorem asyncWithLog_trace_started (h : Host) (os : Invocation → Spawn) (command : Text)
    (args : List Text) (workDir tokenId tokenSecret logID : Text)
    (hs : (os (RunModalCommandAsyncWithLog_cmd h command args workDir tokenId
      tokenSecret)).started) :
    RunModalCommandAsyncWithLog h os command args workDir tokenId tokenSecret logID
      = Action.emit (.start command) ::
          ([Action.setRunning]
            ++ (mergedLines (os (RunModalCommandAsyncWithLog_cmd h command args workDir tokenId
                  tokenSecret))).map (fun line => Action.emit (.output line))
            ++ [Action.clearRunning]
            ++ (if logID ≠ [] then
                  [Action.updateLog logID
                    (if (os (RunModalCommandAsyncWithLog_cmd h command args workDir tokenId
                        tokenSecret)).wait.isNone then "success".toList else "failed".toList)
                    (logOutput ((mergedLines (os (RunModalCommandAsyncWithLog_cmd h command args
                      workDir tokenId tokenSecret))).flatMap
                        (fun line => line ++ [Char.ofNat 10])))]
                else [])
            ++ [Action.emit (.complete
                  ⟨(os (RunModalCommandAsyncWithLog_cmd h command args workDir tokenId
                      tokenSecret)).wait.isNone,
                   (mergedLines (os (RunModalCommandAsyncWithLog_cmd h command args workDir
                      tokenId tokenSecret))).flatMap (fun line => line ++ [Char.ofNat 10]),
                   errorText (os (RunModalCommandAsyncWithLog_cmd h command args workDir tokenId
                      tokenSecret)).wait⟩)]) := by
  obtain ⟨h1, h2, h3⟩ := hs
  simp only [RunModalCommandAsyncWithLog, h1, h2, h3, scanLoopWithLog_eq]

theorem async_delivered (h : Host) (os : Invocation → Spawn) (command : Text)
    (args : List Text) (workDir tokenId tokenSecret : Text)
    (hs : (os (RunModalCommandAsync_cmd h command args workDir tokenId tokenSecret)).started) :
    deliveredLines (RunModalCommandAsync h os command args workDir tokenId tokenSecret)
      = mergedLines (os (RunModalCommandAsync_cmd h command args workDir tokenId tokenSecret)) := by
  rw [async_trace_started h os command args workDir tokenId tokenSecret hs]
  rw [← List.singleton_append, deliveredLines_append, deliveredLines_append,
    deliveredLines_append, deliveredLines_outputs]
  simp [deliveredLines]

theorem asyncWithLog_delivered (h : Host) (os : Invocation → Spawn) (command : Text)
    (args : List Text) (workDir tokenId tokenSecret logID : Text)
    (hs : (os (RunModalCommandAsyncWithLog_cmd h command args workDir tokenId
      tokenSecret)).started) :
    deliveredLines (RunModalCommandAsyncWithLog h os command args workDir tokenId tokenSecret logID)
      = mergedLines (os (RunModalCommandAsyncWithLog_cmd h command args workDir tokenId
          tokenSecret)) := by
  rw [asyncWithLog_trace_started h os command args workDir tokenId tokenSecret logID hs]
  rw [← List.singleton_append, deliveredLines_append, deliveredLines_append,
    deliveredLines_append, deliveredLines_append, deliveredLines_append, deliveredLines_outputs]
  by_cases hl : logID = [] <;> simp [deliveredLines, hl]

theorem async_completions (h : Host) (os : Invocation → Spawn) (command : Text)
    (args : List Text) (workDir tokenId tokenSecret : Text)
    (hs : (os (RunModalCommandAsync_cmd h command args workDir tokenId tokenSecret)).started) :
    completions (RunModalCommandAsync h os command args workDir tokenId tokenSecret)
      = [⟨(os (RunModalCommandAsync_cmd h command args workDir tokenId tokenSecret)).wait.isNone,
          [],
          errorText (os (RunModalCommandAsync_cmd h command args workDir tokenId
            tokenSecret)).wait⟩] := by
  rw [async_trace_started h os command args workDir tokenId tokenSecret hs]
  rw [← List.singleton_append, completions_append, completions_append,
    completions_append, completions_outputs]
  simp [completions]

theorem asyncWithLog_completions (h : Host) (os : Invocation → Spawn) (command : Text)
    (args : List Text) (workDir tokenId tokenSecret logID : Text)
    (hs : (os (RunModalCommandAsyncWithLog_cmd h command args workDir tokenId
      tokenSecret)).started) :
    completions (RunModalCommandAsyncWithLog h os command args workDir tokenId tokenSecret logID)
      = [⟨(os (RunModalCommandAsyncWithLog_cmd h command args workDir tokenId
            tokenSecret)).wait.isNone,
          (mergedLines (os (RunModalCommandAsyncWithLog_cmd h command args workDir
            tokenId tokenSecret))).flatMap (fun line => line ++ [Char.ofNat 10]),
          errorText (os (RunModalCommandAsyncWithLog_cmd h command args workDir tokenId
            tokenSecret)).wait⟩] := by
  rw [asyncWithLog_trace_started h os command args workDir tokenId tokenSecret logID hs]
  rw [← List.singleton_append, completions_append, completions_append,
    completions_append, completions_append, completions_append, completions_outputs]
  by_cases hl : logID = [] <;> simp [completions, hl]

/-! ## Claims about the asynchronous runners -/

/-- C8, as stated, fails for `RunModalCommandAsync`: a process that writes the line
`x` has this line delivered, and the result of the completion event has an
empty `Output`. -/
theorem async_output_not_accumulated :
    (completions (RunModalCommandAsync demoHost (fun _ => demoSpawn "x\n".toList [])
        "run".toList ["a.py".toList] [] [] [])).map CommandResult.Output
      ≠ [(deliveredLines (RunModalCommandAsync demoHost (fun _ => demoSpawn "x\n".toList [])
          "run".toList ["a.py".toList] [] [] [])).flatMap (fun line => line ++ [Char.ofNat 10])] := by
  decide

/-- C8 (amended): when the process starts, `RunModalCommandAsyncWithLog` emits one
completion event and the `Output` of its result is the delivered lines, in the
order of delivery, each followed by a newline; `RunModalCommandAsync` emits one
completion event and the `Output` of its result is empty. -/
theorem async_output_accumulated (h : Host) (os : Invocation → Spawn) (command : Text)
    (args : List Text) (workDir tokenId tokenSecret logID : Text)
    (hs : (os (RunModalCommandAsyncWithLog_cmd h command args workDir tokenId
      tokenSecret)).started) :
    (∃ r, completions
          (RunModalCommandAsyncWithLog h os command args workDir tokenId tokenSecret logID) = [r]
        ∧ r.Output = (deliveredLines
            (RunModalCommandAsyncWithLog h os command args workDir tokenId tokenSecret
              logID)).flatMap (fun line => line ++ [Char.ofNat 10]))
    ∧ (∃ r, completions (RunModalCommandAsync h os command args workDir tokenId tokenSecret) = [r]
        ∧ r.Output = []) := by
  refine ⟨⟨_, asyncWithLog_completions h os command args workDir tokenId tokenSecret logID hs, ?_⟩,
    ⟨_, async_completions h os command args workDir tokenId tokenSecret hs, rfl⟩⟩
  rw [asyncWithLog_delivered h os command args workDir tokenId tokenSecret logID hs]

/-- Witness of C8 (amended): a process that writes two lines to stdout and one to
stderr. -/
theorem async_output_accumulated_witness :
    (∃ r, completions
          (RunModalCommandAsyncWithLog demoHost (fun _ => demoSpawn "a\nb\n".toList "c\n".toList)
            "run".toList ["a.py".toList] [] [] [] "log1".toList) = [r]
        ∧ r.Output = (deliveredLines
            (RunModalCommandAsyncWithLog demoHost
              (fun _ => demoSpawn "a\nb\n".toList "c\n".toList)
              "run".toList ["a.py".toList] [] [] [] "log1".toList)).flatMap
                (fun line => line ++ [Char.ofNat 10]))
    ∧ (∃ r, completions (RunModalCommandAsync demoHost
          (fun _ => demoSpawn "a\nb\n".toList "c\n".toList)
          "run".toList ["a.py".toList] [] [] []) = [r]
        ∧ r.Output = []) :=
  async_output_accumulated demoHost (fun _ => demoSpawn "a\nb\n".toList "c\n".toList)
    "run".toList ["a.py".toList] [] [] [] "log1".toList ⟨rfl, rfl, rfl⟩

/-- C9 at its input: when the process writes one line of `2*1024*1024` bytes `a`
and a newline, neither runner delivers any line. -/
theorem long_line_not_delivered (h : Host) (command : Text) (args : List Text)
    (workDir tokenId tokenSecret logID : Text) (wait : Option ExecError) :
    deliveredLines (RunModalCommandAsync h
        (fun _ => ⟨none, none, none, List.replicate (2 * 1024 * 1024) 'a' ++ [Char.ofNat 10], [],
          wait⟩)
        command args workDir tokenId tokenSecret) = []
    ∧ deliveredLines (RunModalCommandAsyncWithLog h
        (fun _ => ⟨none, none, none, List.replicate (2 * 1024 * 1024) 'a' ++ [Char.ofNat 10], [],
          wait⟩)
        command args workDir tokenId tokenSecret logID) = [] := by
  have key : mergedLines
      ⟨none, none, none, List.replicate (2 * 1024 * 1024) 'a' ++ [Char.ofNat 10], [], wait⟩
      = [] := by
    show scanLines (1024 * 1024)
      ((List.replicate (2 * 1024 * 1024) 'a' ++ [Char.ofNat 10]) ++ []) = []
    rw [List.append_nil]
    refine scanLines_tooLong (by norm_num) _ [] ?_ ?_
    · intro c hc
      rw [List.eq_of_mem_replicate hc]
      decide
    · rw [List.length_replicate]
      norm_num
  constructor
  · rw [async_delivered h _ command args workDir tokenId tokenSecret ⟨rfl, rfl, rfl⟩]
    exact key
  · rw [asyncWithLog_delivered h _ command args workDir tokenId tokenSecret logID ⟨rfl, rfl, rfl⟩]
    exact key

theorem complete_split_unique {A B before after : List Action} {r r0 : CommandResult}
    (hA : ∀ a ∈ A, a.isComplete = false) (hB : ∀ a ∈ B, a.isComplete = false)
    (h : before ++ Action.emit (.complete r) :: after = A ++ Action.emit (.complete r0) :: B) :
    before = A ∧ after = B := by
  induction A generalizing before with
  | nil =>
    cases before with
    | nil =>
      simp only [List.nil_append, List.cons.injEq] at h
      exact ⟨rfl, h.2⟩
    | cons b bs =>
      simp only [List.cons_append, List.nil_append, List.cons.injEq] at h
      have hm : Action.emit (.complete r) ∈ B := by
        rw [← h.2]
        simp
      have := hB _ hm
      simp [Action.isComplete] at this
  | cons a as ih =>
    cases before with
    | nil =>
      simp only [List.nil_append, List.cons_append, List.cons.injEq] at h
      have := hA a (List.mem_cons_self _ _)
      rw [← h.1] at this
      simp [Action.isComplete] at this
    | cons b bs =>
      simp only [List.cons_append, List.cons.injEq] at h
      obtain ⟨e1, e2⟩ := ih (fun x hx => hA x (List.mem_cons_of_mem _ hx)) h.2
      exact ⟨by rw [h.1, e1], e2⟩

theorem handleAfter_append (p : Bool) (a b : List Action) :
    handleAfter p (a ++ b) = handleAfter (handleAfter p a) b := by
  simp [handleAfter, List.foldl_append]

theorem handleAfter_neutral (l : List Action)
    (hl : ∀ a ∈ l, a ≠ Action.setRunning ∧ a ≠ Action.clearRunning) (p : Bool) :
    handleAfter p l = p := by
  induction l generalizing p with
  | nil => rfl
  | cons a as ih =>
    have ha := hl a (List.mem_cons_self _ _)
    have hs : handleStep p a = p := by
      cases a with
      | emit e => rfl
      | setRunning => exact absurd rfl ha.1
      | clearRunning => exact absurd rfl ha.2
      | updateLog i st o => rfl
    show handleAfter (handleStep p a) as = p
    rw [hs]
    exact ih (fun x hx => hl x (List.mem_cons_of_mem _ hx)) p

theorem outputs_neutral (lines : List Text) :
    ∀ a ∈ lines.map (fun line => Action.emit (.output line)),
      a ≠ Action.setRunning ∧ a ≠ Action.clearRunning ∧ a.isStart = false
        ∧ a.isComplete = false := by
  intro a ha
  obtain ⟨l, -, rfl⟩ := List.mem_map.1 ha
  exact ⟨by simp, by simp, rfl, rfl⟩

/-- The trace of a run whose process starts, with the calls of `UpdateExecutionLog`
in `upd`. -/
theorem lifecycle_of_started (command : Text) (lines : List Text) (upd : List Action)
    (r : CommandResult)
    (hupd : ∀ a ∈ upd, a ≠ Action.setRunning ∧ a ≠ Action.clearRunning ∧ a.isComplete = false) :
    HandleLifecycle (Action.emit (.start command) ::
      ([Action.setRunning] ++ lines.map (fun line => Action.emit (.output line))
        ++ [Action.clearRunning] ++ upd ++ [Action.emit (.complete r)])) := by
  have hout := outputs_neutral lines
  have hA : ∀ a ∈ Action.emit (.start command) ::
      ([Action.setRunning] ++ lines.map (fun line => Action.emit (.output line))
        ++ [Action.clearRunning] ++ upd), a.isComplete = false := by
    intro a ha
    simp only [List.mem_cons, List.mem_append, List.mem_singleton, List.not_mem_nil,
      or_false] at ha
    rcases ha with ha | ((ha | ha) | ha) | ha
    · subst ha; rfl
    · subst ha; rfl
    · exact (hout a ha).2.2.2
    · subst ha; rfl
    · exact (hupd a ha).2.2
  have hstate : handleAfter false (Action.emit (.start command) ::
      ([Action.setRunning] ++ lines.map (fun line => Action.emit (.output line))
        ++ [Action.clearRunning] ++ upd)) = false := by
    rw [← List.singleton_append, handleAfter_append, handleAfter_append, handleAfter_append,
      handleAfter_append,
      handleAfter_neutral upd (fun a ha => ⟨(hupd a ha).1, (hupd a ha).2.1⟩)]
    rfl
  refine ⟨⟨[Action.emit (.start command)], _, rfl, rfl, rfl⟩, ?_, ?_, ?_⟩
  · have e : Action.emit (.start command) ::
        ([Action.setRunning] ++ lines.map (fun line => Action.emit (.output line))
          ++ [Action.clearRunning] ++ upd ++ [Action.emit (.complete r)])
        = (Action.emit (.start command) ::
          ([Action.setRunning] ++ lines.map (fun line => Action.emit (.output line))
            ++ [Action.clearRunning] ++ upd)) ++ [Action.emit (.complete r)] := by simp
    rw [e, List.filter_append, List.filter_eq_nil_iff.2 (fun a ha => by simp [hA a ha])]
    rfl
  · intro before after r2 h
    have e : before ++ Action.emit (.complete r2) :: after
        = (Action.emit (.start command) ::
          ([Action.setRunning] ++ lines.map (fun line => Action.emit (.output line))
            ++ [Action.clearRunning] ++ upd)) ++ Action.emit (.complete r) :: [] := by
      rw [← h]
      simp
    obtain ⟨e1, -⟩ := complete_split_unique hA (fun a ha => by simp at ha) e
    subst e1
    exact ⟨by simp, hstate⟩
  · have e : Action.emit (.start command) ::
        ([Action.setRunning] ++ lines.map (fun line => Action.emit (.output line))
          ++ [Action.clearRunning] ++ upd ++ [Action.emit (.complete r)])
        = (Action.emit (.start command) ::
          ([Action.setRunning] ++ lines.map (fun line => Action.emit (.output line))
            ++ [Action.clearRunning] ++ upd)) ++ [Action.emit (.complete r)] := by simp
    rw [e, handleAfter_append, hstate]
    rfl

theorem started_or_failure (w : Spawn) : w.started ∨ ∃ e, w.failure = some e := by
  unfold Spawn.started Spawn.failure
  cases h1 : w.stdoutPipe with
  | some e => exact Or.inr ⟨e, rfl⟩
  | none =>
    cases h2 : w.stderrPipe with
    | some e => exact Or.inr ⟨e, rfl⟩
    | none =>
      cases h3 : w.start with
      | some e => exact Or.inr ⟨e, rfl⟩
      | none => exact Or.inl ⟨rfl, rfl, rfl⟩

theorem async_trace_failed (h : Host) (os : Invocation → Spawn) (command : Text)
    (args : List Text) (workDir tokenId tokenSecret : Text) {e : ExecError}
    (hf : (os (RunModalCommandAsync_cmd h command args workDir tokenId tokenSecret)).failure
      = some e) :
    ∃ msg : Text, RunModalCommandAsync h os command args workDir tokenId tokenSecret
      = [Action.emit (.start command), Action.emit (.output (msg ++ e.Error)),
         Action.emit (.complete ⟨false, [], e.Error⟩)] := by
  unfold Spawn.failure at hf
  cases h1 : (os (RunModalCommandAsync_cmd h command args workDir tokenId tokenSecret)).stdoutPipe with
  | some e1 =>
    rw [h1] at hf
    simp only [Option.some.injEq] at hf
    subst hf
    exact ⟨goStr "创建stdout管道失败: ", by simp only [RunModalCommandAsync, h1, asyncFailure]⟩
  | none =>
    rw [h1] at hf
    cases h2 : (os (RunModalCommandAsync_cmd h command args workDir tokenId
        tokenSecret)).stderrPipe with
    | some e2 =>
      rw [h2] at hf
      simp only [Option.some.injEq] at hf
      subst hf
      exact ⟨goStr "创建stderr管道失败: ", by simp only [RunModalCommandAsync, h1, h2, asyncFailure]⟩
    | none =>
      rw [h2] at hf
      simp only at hf
      exact ⟨goStr "启动命令失败: ", by simp only [RunModalCommandAsync, h1, h2, hf, asyncFailure]⟩

theorem asyncWithLog_trace_failed (h : Host) (os : Invocation → Spawn) (command : Text)
    (args : List Text) (workDir tokenId tokenSecret logID : Text) {e : ExecError}
    (hf : (os (RunModalCommandAsyncWithLog_cmd h command args workDir tokenId
      tokenSecret)).failure = some e) :
    ∃ msg : Text,
      RunModalCommandAsyncWithLog h os command args workDir tokenId tokenSecret logID
      = [Action.emit (.start command), Action.emit (.output (msg ++ e.Error)),
         Action.emit (.complete ⟨false, [], e.Error⟩)]
        ++ (if logID ≠ [] then [Action.updateLog logID "failed".toList (msg ++ e.Error)]
            else []) := by
  unfold Spawn.failure at hf
  cases h1 : (os (RunModalCommandAsyncWithLog_cmd h command args workDir tokenId
      tokenSecret)).stdoutPipe with
  | some e1 =>
    rw [h1] at hf
    simp only [Option.some.injEq] at hf
    subst hf
    exact ⟨goStr "创建stdout管道失败: ", by simp only [RunModalCommandAsyncWithLog, h1, asyncFailureWithLog,
      List.cons_append, List.nil_append]⟩
  | none =>
    rw [h1] at hf
    cases h2 : (os (RunModalCommandAsyncWithLog_cmd h command args workDir tokenId
        tokenSecret)).stderrPipe with
    | some e2 =>
      rw [h2] at hf
      simp only [Option.some.injEq] at hf
      subst hf
      exact ⟨goStr "创建stderr管道失败: ", by simp only [RunModalCommandAsyncWithLog, h1, h2, asyncFailureWithLog,
        List.cons_append, List.nil_append]⟩
    | none =>
      rw [h2] at hf
      simp only at hf
      exact ⟨goStr "启动命令失败: ", by simp only [RunModalCommandAsyncWithLog, h1, h2, hf, asyncFailureWithLog,
        List.cons_append, List.nil_append]⟩

/-- C11: in a run of either asynchronous runner whose process starts, with the
handle absent before and no other invocation writing it, the handle goes from
absent to present when the command is registered, it is cleared before the
completion event whatever `cmd.Wait()` returns, and it is absent after the
completion event. -/
theorem async_handle_lifecycle (h : Host) (os : Invocation → Spawn) (command : Text)
    (args : List Text) (workDir tokenId tokenSecret logID : Text)
    (hs : (os (RunModalCommandAsync_cmd h command args workDir tokenId tokenSecret)).started) :
    HandleLifecycle (RunModalCommandAsync h os command args workDir tokenId tokenSecret)
    ∧ HandleLifecycle
        (RunModalCommandAsyncWithLog h os command args workDir tokenId tokenSecret logID) := by
  constructor
  · rw [async_trace_started h os command args workDir tokenId tokenSecret hs]
    have := lifecycle_of_started command
      (mergedLines (os (RunModalCommandAsync_cmd h command args workDir tokenId tokenSecret)))
      []
      ⟨(os (RunModalCommandAsync_cmd h command args workDir tokenId tokenSecret)).wait.isNone, [],
        errorText (os (RunModalCommandAsync_cmd h command args workDir tokenId tokenSecret)).wait⟩
      (fun a ha => by simp at ha)
    simpa using this
  · rw [asyncWithLog_trace_started h os command args workDir tokenId tokenSecret logID hs]
    refine lifecycle_of_started command _ _ _ ?_
    intro a ha
    by_cases hl : logID = []
    · simp [hl] at ha
    · simp only [ne_eq, hl, not_false_eq_true, if_true, List.mem_singleton] at ha
      subst ha
      exact ⟨by simp, by simp, rfl⟩

/-- Witness of C11: a process that writes two lines and exits with status 3. -/
theorem async_handle_lifecycle_witness :
    HandleLifecycle (RunModalCommandAsync demoHost
        (fun _ => ⟨none, none, none, "a\nb\n".toList, [], some (.exitStatus 3)⟩)
        "run".toList ["a.py".toList] [] [] [])
    ∧ HandleLifecycle (RunModalCommandAsyncWithLog demoHost
        (fun _ => ⟨none, none, none, "a\nb\n".toList, [], some (.exitStatus 3)⟩)
        "run".toList ["a.py".toList] [] [] [] "log1".toList) :=
  async_handle_lifecycle demoHost
    (fun _ => ⟨none, none, none, "a\nb\n".toList, [], some (.exitStatus 3)⟩)
    "run".toList ["a.py".toList] [] [] [] "log1".toList ⟨rfl, rfl, rfl⟩

/-! ## The JSON encoding of texts: what comes back -/

theorem validSeq_length {s : Text} (h : validSeq s = true) : 1 ≤ s.length ∧ s.length ≤ 4 := by
  match s with
  | [] => simp [validSeq] at h
  | [_] => simp
  | [_, _] => simp
  | [_, _, _] => simp
  | [_, _, _, _] => simp
  | _ :: _ :: _ :: _ :: _ :: _ => simp [validSeq] at h

theorem jsonStringAux_copy (t : Text) :
    ∀ k, jsonStringAux k t = t.take k ++ jsonStringAux 0 (t.drop k) := by
  induction t with
  | nil => intro k; cases k <;> simp [jsonStringAux]
  | cons b rest ih =>
    intro k
    cases k with
    | zero => simp
    | succ k => simp [jsonStringAux, ih k]

theorem utf8Len_valid {t : Text} (h : utf8Len t ≠ 0) : validSeq (t.take (utf8Len t)) = true := by
  unfold utf8Len at h ⊢
  split
  · assumption
  · split
    · assumption
    · split
      · assumption
      · split
        · assumption
        · simp_all

theorem utf8Len_le (t : Text) : utf8Len t ≤ t.length := by
  by_cases h : utf8Len t = 0
  · omega
  · have hv := utf8Len_valid h
    by_contra hlt
    have hl : (t.take (utf8Len t)) = t := List.take_of_length_le (by omega)
    rw [hl] at hv
    unfold utf8Len at hlt h
    have h4 := validSeq_length hv
    split at hlt
    · omega
    · split at hlt
      · rename_i h1 h2
        have : t.take 2 = t := List.take_of_length_le (by omega)
        have : t.take 1 = t := List.take_of_length_le (by omega)
        simp_all
      · split at hlt
        · rename_i h1 h2 h3
          have e3 : t.take 3 = t := List.take_of_length_le (by omega)
          by_cases hl2 : t.length ≤ 1
          · have : t.take 1 = t := List.take_of_length_le (by omega)
            simp_all
          · have hl3 : t.length = 2 := by omega
            have : t.take 2 = t := List.take_of_length_le (by omega)
            simp_all
        · split at hlt
          · rename_i h1 h2 h3 h4
            by_cases hl1 : t.length ≤ 1
            · have : t.take 1 = t := List.take_of_length_le (by omega)
              simp_all
            · by_cases hl2 : t.length ≤ 2
              · have : t.take 2 = t := List.take_of_length_le (by omega)
                simp_all
              · have : t.take 3 = t := List.take_of_length_le (by omega)
                simp_all
          · omega

theorem jsonString_nil : jsonString [] = [] := rfl

/-- One step of the encoding: U+FFFD for a byte at which no valid sequence
starts, and else the valid sequence as it is. -/
theorem jsonString_unfold {t : Text} (ht : t ≠ []) :
    jsonString t =
      if utf8Len t = 0 then replacementChar ++ jsonString t.tail
      else t.take (utf8Len t) ++ jsonString (t.drop (utf8Len t)) := by
  cases t with
  | nil => exact absurd rfl ht
  | cons b rest =>
    unfold jsonString
    simp only [jsonStringAux]
    cases hn : utf8Len (b :: rest) with
    | zero => simp
    | succ n => simp [jsonStringAux_copy rest n]

theorem utf8Len_local {t : Text} (h : utf8Len t ≠ 0) (X : Text) :
    utf8Len (t.take (utf8Len t) ++ X) = utf8Len t := by
  have hle := utf8Len_le t
  have key : ∀ j, j ≤ utf8Len t → (t.take (utf8Len t) ++ X).take j = t.take j := by
    intro j hj
    rw [List.take_append_of_le_length (by rw [List.length_take]; omega), List.take_take,
      min_eq_left hj]
  generalize hn : utf8Len t = n at key h hle
  unfold utf8Len at hn ⊢
  split at hn
  · subst hn
    rw [key 1 (le_refl _), if_pos (by assumption)]
  · split at hn
    · subst hn
      rw [key 1 (by omega), key 2 (le_refl _), if_neg (by assumption), if_pos (by assumption)]
    · split at hn
      · subst hn
        rw [key 1 (by omega), key 2 (by omega), key 3 (le_refl _), if_neg (by assumption),
          if_neg (by assumption), if_pos (by assumption)]
      · split at hn
        · subst hn
          rw [key 1 (by omega), key 2 (by omega), key 3 (by omega), key 4 (le_refl _),
            if_neg (by assumption), if_neg (by assumption), if_neg (by assumption),
            if_pos (by assumption)]
        · exact absurd hn.symm h

theorem utf8Len_replacement (X : Text) : utf8Len (replacementChar ++ X) = 3 := by
  simp [utf8Len, replacementChar, validSeq, byteIn]

theorem jsonString_replacement (X : Text) :
    jsonString (replacementChar ++ X) = replacementChar ++ jsonString X := by
  rw [jsonString_unfold (by simp [replacementChar]), utf8Len_replacement]
  simp [replacementChar]

theorem jsonString_seq {t : Text} (h : utf8Len t ≠ 0) (X : Text) :
    jsonString (t.take (utf8Len t) ++ X) = t.take (utf8Len t) ++ jsonString X := by
  have hle := utf8Len_le t
  have hne : t.take (utf8Len t) ++ X ≠ [] := by
    obtain ⟨m, hm⟩ := Nat.exists_eq_succ_of_ne_zero h
    cases t with
    | nil => simp [utf8Len, validSeq] at h
    | cons b rest =>
      rw [hm]
      simp
  rw [jsonString_unfold hne, utf8Len_local h, if_neg h]
  rw [List.take_append_of_le_length (by rw [List.length_take]; omega), List.take_take,
    min_self]
  congr 1
  rw [List.drop_append_of_le_length (by rw [List.length_take]; omega)]
  have : (t.take (utf8Len t)).drop (utf8Len t) = [] := by
    apply List.drop_eq_nil_of_le
    rw [List.length_take]
    omega
  rw [this, List.nil_append]

theorem jsonString_idem_aux :
    ∀ (n : Nat) (t : Text), t.length = n → jsonString (jsonString t) = jsonString t := by
  intro n
  induction n using Nat.strong_induction_on with
  | _ n ih =>
    intro t hn
    by_cases ht : t = []
    · subst ht
      rfl
    · rw [jsonString_unfold ht]
      have hpos : 0 < t.length := List.length_pos.2 ht
      have hle := utf8Len_le t
      split
      · rw [jsonString_replacement, ih t.tail.length (by rw [List.length_tail]; omega) _ rfl]
      · rename_i h
        rw [jsonString_seq h, ih (t.drop (utf8Len t)).length
          (by rw [List.length_drop]; omega) _ rfl]

/-- A text that came back from the file comes back as it is. -/
theorem jsonString_idem (t : Text) : jsonString (jsonString t) = jsonString t :=
  jsonString_idem_aux t.length t rfl

/-- An ASCII text comes back as it is. -/
theorem jsonString_ascii : ∀ t : Text, (∀ c ∈ t, c.toNat < 128) → jsonString t = t := by
  intro t
  induction t with
  | nil => intro _; rfl
  | cons b rest ih =>
    intro h
    have hb : b.toNat < 128 := h b (List.mem_cons_self _ _)
    have hl : utf8Len (b :: rest) = 1 := by
      simp [utf8Len, validSeq, hb]
    rw [jsonString_unfold (by simp), hl]
    simp only [one_ne_zero, if_false, List.take_succ_cons, List.take_zero, List.drop_succ_cons,
      List.drop_zero, List.singleton_append]
    rw [ih (fun c hc => h c (List.mem_cons_of_mem _ hc))]

theorem utf8Len_of_validSeq {t : Text} {k : Nat} (hk : k ≤ t.length)
    (hv : validSeq (t.take k) = true) : utf8Len t = k := by
  have hl := validSeq_length hv
  rw [List.length_take, min_eq_left hk] at hl
  obtain ⟨h1, h4⟩ := hl
  interval_cases k
  · simp [utf8Len, hv]
  · match t, hk, hv with
    | b0 :: b1 :: r, _, hv =>
      simp only [List.take_succ_cons, List.take_zero, validSeq, byteIn, Bool.and_eq_true,
        decide_eq_true_eq] at hv
      have h0 : ¬ b0.toNat < 128 := by omega
      simp [utf8Len, validSeq, byteIn, hv, h0]
  · match t, hk, hv with
    | b0 :: b1 :: b2 :: r, _, hv =>
      simp only [List.take_succ_cons, List.take_zero, validSeq, byteIn, Bool.and_eq_true,
        decide_eq_true_eq] at hv
      have h0 : ¬ b0.toNat < 128 := by omega
      have h00 : ¬ b0.toNat ≤ 0xDF := by omega
      simp [utf8Len, validSeq, byteIn, hv, h0, h00]
  · match t, hk, hv with
    | b0 :: b1 :: b2 :: b3 :: r, _, hv =>
      simp only [List.take_succ_cons, List.take_zero, validSeq, byteIn, Bool.and_eq_true,
        decide_eq_true_eq] at hv
      have h0 : ¬ b0.toNat < 128 := by omega
      have h00 : ¬ b0.toNat ≤ 0xDF := by omega
      have h000 : ¬ b0.toNat ≤ 0xEF := by omega
      simp [utf8Len, validSeq, byteIn, hv, h0, h00, h000]

theorem jsonString_append_validAux (X : Text) :
    ∀ (fuel : Nat) (s : Text), validUTF8Aux fuel s = true →
      jsonString (s ++ X) = s ++ jsonString X := by
  intro fuel
  induction fuel with
  | zero =>
    intro s hs
    cases s with
    | nil => rfl
    | cons b rest => simp [validUTF8Aux] at hs
  | succ fuel ih =>
    intro s hs
    cases s with
    | nil => rfl
    | cons b rest =>
      simp only [validUTF8Aux, List.any_eq_true, Bool.and_eq_true, decide_eq_true_eq] at hs
      obtain ⟨k, -, ⟨hk, hv⟩, hrest⟩ := hs
      have hlen : utf8Len (b :: rest) = k := utf8Len_of_validSeq hk hv
      have h0 : utf8Len (b :: rest) ≠ 0 := by
        rw [hlen]
        have := (validSeq_length hv).1
        rw [List.length_take, min_eq_left hk] at this
        omega
      have e : b :: rest = (b :: rest).take (utf8Len (b :: rest))
          ++ (b :: rest).drop (utf8Len (b :: rest)) := (List.take_append_drop _ _).symm
      conv_lhs => rw [e, List.append_assoc]
      rw [jsonString_seq h0, hlen, ih _ hrest, ← List.append_assoc, List.take_append_drop]

/-- A valid UTF-8 text in front of a text comes back as it is. -/
theorem jsonString_append_valid {s : Text} (hs : validUTF8 s = true) (X : Text) :
    jsonString (s ++ X) = s ++ jsonString X :=
  jsonString_append_validAux X s.length s hs

/-- A valid UTF-8 text comes back as it is. -/
theorem jsonString_valid {t : Text} (ht : validUTF8 t = true) : jsonString t = t := by
  have := jsonString_append_valid ht []
  simpa [jsonString_nil] using this

/-- A byte that starts no valid sequence comes back as U+FFFD. -/
theorem jsonString_cont (b : Char) (X : Text) (hb : 0x80 ≤ b.toNat ∧ b.toNat < 0xC2) :
    jsonString (b :: X) = replacementChar ++ jsonString X := by
  have hl : utf8Len (b :: X) = 0 := by
    obtain ⟨h1, h2⟩ := hb
    have a1 : ¬ b.toNat < 128 := by omega
    have a2 : ¬ 0xC2 ≤ b.toNat := by omega
    have a3 : ¬ 0xE0 ≤ b.toNat := by omega
    have a4 : ¬ 0xF0 ≤ b.toNat := by omega
    unfold utf8Len
    cases X with
    | nil => simp [validSeq, byteIn, a1]
    | cons x1 X1 =>
      cases X1 with
      | nil => simp [validSeq, byteIn, a1, a2]
      | cons x2 X2 =>
        cases X2 with
        | nil => simp [validSeq, byteIn, a1, a2, a3]
        | cons x3 X3 => simp [validSeq, byteIn, a1, a2, a3, a4]
  rw [jsonString_unfold (by simp), hl]
  simp

theorem jsonString_length_le_aux :
    ∀ (n : Nat) (t : Text), t.length = n → (jsonString t).length ≤ 3 * t.length := by
  intro n
  induction n using Nat.strong_induction_on with
  | _ n ih =>
    intro t hn
    by_cases ht : t = []
    · subst ht
      simp [jsonString_nil]
    · rw [jsonString_unfold ht]
      have hpos : 0 < t.length := List.length_pos.2 ht
      have hle := utf8Len_le t
      split
      · have := ih t.tail.length (by rw [List.length_tail]; omega) _ rfl
        rw [List.length_append, List.length_tail] at *
        simp only [replacementChar, List.length_cons, List.length_nil]
        omega
      · rename_i h
        have := ih (t.drop (utf8Len t)).length (by rw [List.length_drop]; omega) _ rfl
        rw [List.length_append, List.length_take, List.length_drop] at *
        omega

/-- A text comes back at most three times as long. -/
theorem jsonString_length_le (t : Text) : (jsonString t).length ≤ 3 * t.length :=
  jsonString_length_le_aux t.length t rfl

theorem digitChar_ascii : ∀ d < 10, (Nat.digitChar d).toNat < 128 := by decide

theorem toDigitsCore_ascii : ∀ (fuel n : Nat) (ds : List Char), (∀ c ∈ ds, c.toNat < 128) →
    ∀ c ∈ Nat.toDigitsCore 10 fuel n ds, c.toNat < 128 := by
  intro fuel
  induction fuel with
  | zero => intro n ds h; simpa [Nat.toDigitsCore] using h
  | succ fuel ih =>
    intro n ds h
    have hds : ∀ c ∈ Nat.digitChar (n % 10) :: ds, c.toNat < 128 := by
      intro c hc
      rcases List.mem_cons.1 hc with e | hm
      · rw [e]
        exact digitChar_ascii _ (Nat.mod_lt _ (by decide))
      · exact h c hm
    simp only [Nat.toDigitsCore]
    split
    · exact hds
    · exact ih _ _ hds

theorem natRepr_ascii (n : Nat) : ∀ c ∈ (toString n).toList, c.toNat < 128 := by
  show ∀ c ∈ (Nat.repr n).toList, c.toNat < 128
  unfold Nat.repr Nat.toDigits
  exact toDigitsCore_ascii _ _ _ (by simp)

/-- The id `fmt.Sprintf("%d", nano)` is an ASCII text. -/
theorem intRepr_ascii (nano : Int) : ∀ c ∈ (toString nano).toList, c.toNat < 128 := by
  cases nano with
  | ofNat m => exact natRepr_ascii m
  | negSucc m =>
    show ∀ c ∈ ("-" ++ toString (Nat.succ m)).toList, c.toNat < 128
    intro c hc
    have hc2 : c ∈ "-".toList ++ (toString (Nat.succ m)).toList := by
      simpa [String.toList] using hc
    rw [List.mem_append] at hc2
    rcases hc2 with h | h
    · have : c = Char.ofNat 45 := by simpa using h
      rw [this]
      decide
    · exact natRepr_ascii _ c h

theorem jsonString_id (nano : Int) : jsonString (toString nano).toList = (toString nano).toList :=
  jsonString_ascii _ (intRepr_ascii nano)

/-! ## The JSON encoding of maps and entries -/

theorem keepLast_subset : ∀ (l : List (Text × Text)), ∀ p ∈ keepLast l, p ∈ l := by
  intro l
  induction l with
  | nil => intro p hp; simp [keepLast] at hp
  | cons x xs ih =>
    intro p hp
    simp only [keepLast] at hp
    split at hp
    · exact List.mem_cons_of_mem _ (ih p hp)
    · rcases List.mem_cons.1 hp with e | hm
      · rw [e]
        exact List.mem_cons_self _ _
      · exact List.mem_cons_of_mem _ (ih p hm)

theorem keepLast_of_nodup : ∀ (l : List (Text × Text)), (l.map Prod.fst).Nodup →
    keepLast l = l := by
  intro l
  induction l with
  | nil => intro _; rfl
  | cons x xs ih =>
    intro h
    rw [List.map_cons, List.nodup_cons] at h
    have hx : xs.any (fun q => q.1 = x.1) = false := by
      rw [List.any_eq_false]
      intro q hq
      have : q.1 ≠ x.1 := fun e => h.1 (e ▸ List.mem_map_of_mem Prod.fst hq)
      simpa using this
    simp only [keepLast, hx, Bool.false_eq_true, if_false]
    rw [ih h.2]

theorem keepLast_keys_nodup : ∀ (l : List (Text × Text)), ((keepLast l).map Prod.fst).Nodup := by
  intro l
  induction l with
  | nil => simp [keepLast]
  | cons x xs ih =>
    simp only [keepLast]
    split
    · exact ih
    · rename_i hx
      rw [List.map_cons, List.nodup_cons]
      refine ⟨?_, ih⟩
      intro hm
      obtain ⟨q, hq, e⟩ := List.mem_map.1 hm
      apply hx
      rw [List.any_eq_true]
      exact ⟨q, keepLast_subset xs q hq, by simpa using e⟩

/-- A map that came back from the file comes back as it is. -/
theorem jsonVars_idem (vars : List (Text × Text)) : jsonVars (jsonVars vars) = jsonVars vars := by
  unfold jsonVars
  have hfix : (keepLast (vars.map fun p => (jsonString p.1, jsonString p.2))).map
      (fun p => (jsonString p.1, jsonString p.2))
      = keepLast (vars.map fun p => (jsonString p.1, jsonString p.2)) := by
    conv_rhs => rw [← List.map_id (keepLast (vars.map fun p => (jsonString p.1, jsonString p.2)))]
    apply List.map_congr_left
    intro p hp
    obtain ⟨q, -, e⟩ := List.mem_map.1 (keepLast_subset _ p hp)
    rw [← e]
    simp [jsonString_idem]
  rw [hfix]
  exact keepLast_of_nodup _ (keepLast_keys_nodup _)

/-- A map of valid UTF-8 texts with distinct keys comes back as it is. -/
theorem jsonVars_valid (vars : List (Text × Text)) (hk : (vars.map Prod.fst).Nodup)
    (ha : ∀ p ∈ vars, validUTF8 p.1 = true ∧ validUTF8 p.2 = true) :
    jsonVars vars = vars := by
  unfold jsonVars
  have hfix : vars.map (fun p => (jsonString p.1, jsonString p.2)) = vars := by
    conv_rhs => rw [← List.map_id vars]
    apply List.map_congr_left
    intro p hp
    simp [jsonString_valid (ha p hp).1, jsonString_valid (ha p hp).2]
  rw [hfix]
  exact keepLast_of_nodup _ hk

/-- An entry that came back from the file comes back as it is. -/
theorem jsonLog_idem (l : ExecutionLog) : jsonLog (jsonLog l) = jsonLog l := by
  simp [jsonLog, jsonString_idem, jsonVars_idem]

theorem map_jsonLog_idem (logs : List ExecutionLog) :
    (logs.map jsonLog).map jsonLog = logs.map jsonLog := by
  rw [List.map_map]
  apply List.map_congr_left
  intro l _
  exact jsonLog_idem l

/-- The entries `loadExecutionLogs` gives come back from the file as they are. -/
theorem loaded_stable {file : LogFile} {logs : List ExecutionLog}
    (h : loadExecutionLogs file = .ok logs) : logs.map jsonLog = logs := by
  cases file with
  | missing =>
    simp only [loadExecutionLogs, Except.ok.injEq] at h
    subst h
    rfl
  | unreadable msg => simp [loadExecutionLogs] at h
  | corrupt msg => simp [loadExecutionLogs] at h
  | stored raw =>
    simp only [loadExecutionLogs, Except.ok.injEq] at h
    subst h
    exact map_jsonLog_idem raw

theorem loaded_mem_stable {file : LogFile} {logs : List ExecutionLog}
    (h : loadExecutionLogs file = .ok logs) : ∀ l ∈ logs, jsonLog l = l := by
  have hs := loaded_stable h
  intro l hl
  have := List.map_eq_map_iff.1 (hs.trans (List.map_id logs).symm) l hl
  simpa using this

theorem entries_stable (file : LogFile) : file.entries.map jsonLog = file.entries := by
  cases file with
  | stored raw => exact map_jsonLog_idem raw
  | _ => rfl

/-! ## The execution log: reading after writing -/

theorem find_updateLoop (logID status output : Text) (unix : Int) :
    ∀ logs : List ExecutionLog, (∃ l ∈ logs, l.ID = logID) →
      ∃ l, (updateLoop logID status output unix logs).find? (fun log => log.ID = logID) = some l
        ∧ l.Status = status ∧ l.Output = output ∧ l.EndTime = unix := by
  intro logs
  induction logs with
  | nil => rintro ⟨l, hl, -⟩; simp at hl
  | cons x xs ih =>
    rintro ⟨l, hl, hid⟩
    by_cases hx : x.ID = logID
    · refine ⟨{ x with Status := status, Output := output, EndTime := unix }, ?_, rfl, rfl, rfl⟩
      simp [updateLoop, hx, List.find?]
    · have hxs : ∃ l ∈ xs, l.ID = logID := by
        rcases List.mem_cons.1 hl with e | hm
        · subst e
          exact absurd hid hx
        · exact ⟨l, hm, hid⟩
      obtain ⟨y, hy, h1⟩ := ih hxs
      refine ⟨y, ?_, h1⟩
      simp only [updateLoop, hx, if_false, List.find?, decide_False]
      exact hy

theorem entries_of_load {file : LogFile} {logs : List ExecutionLog}
    (h : loadExecutionLogs file = .ok logs) : file.entries = logs := by
  cases file with
  | missing =>
    simp only [loadExecutionLogs, Except.ok.injEq] at h
    rw [← h]
    rfl
  | unreadable m => simp [loadExecutionLogs] at h
  | corrupt m => simp [loadExecutionLogs] at h
  | stored l =>
    simp only [loadExecutionLogs, Except.ok.injEq] at h
    rw [← h]
    rfl

theorem load_of_mem_entries {file : LogFile} {l : ExecutionLog} (h : l ∈ file.entries) :
    loadExecutionLogs file = .ok file.entries := by
  cases file with
  | stored raw => rfl
  | missing => rfl
  | unreadable m => simp [LogFile.entries] at h
  | corrupt m => simp [LogFile.entries] at h

/-- A list of entries that came back from the file is stored as it is. -/
theorem save_done_stable {logs : List ExecutionLog} (h : ∀ l ∈ logs, jsonLog l = l) :
    saveExecutionLogs .done logs = (.stored logs, none) := by
  have e : logs.map jsonLog = logs := by
    conv_rhs => rw [← List.map_id logs]
    apply List.map_congr_left
    intro l hl
    simpa using h l hl
  simp only [saveExecutionLogs, e]

theorem entries_stored_stable {logs : List ExecutionLog} (h : ∀ l ∈ logs, jsonLog l = l) :
    (LogFile.stored logs).entries = logs := by
  conv_rhs => rw [← List.map_id logs]
  apply List.map_congr_left
  intro l hl
  simpa using h l hl

/-- The loop of the update on entries that came back from the file: what the file
spells afterwards is the loop with the status and the output as stored. -/
theorem updateLoop_map_jsonLog (logID status output : Text) (unix : Int) :
    ∀ logs : List ExecutionLog, (∀ l ∈ logs, jsonLog l = l) →
      (updateLoop logID status output unix logs).map jsonLog
        = updateLoop logID (jsonString status) (jsonString output) unix logs := by
  intro logs
  induction logs with
  | nil => intro _; rfl
  | cons x xs ih =>
    intro h
    have hx : jsonLog x = x := h x (List.mem_cons_self _ _)
    have hxs : ∀ l ∈ xs, jsonLog l = l := fun l hl => h l (List.mem_cons_of_mem _ hl)
    have exs : xs.map jsonLog = xs := by
      conv_rhs => rw [← List.map_id xs]
      apply List.map_congr_left
      intro l hl
      simpa using hxs l hl
    by_cases hid : x.ID = logID
    · rw [updateLoop, updateLoop, if_pos hid, if_pos hid, List.map_cons, exs]
      congr 1
      cases x
      simp only [jsonLog, ExecutionLog.mk.injEq] at hx
      obtain ⟨h1, h2, h3, h4, h5, h6, h7, h8, h9, -, -, -, -⟩ := hx
      simp only [jsonLog, h1, h2, h3, h4, h5, h6, h7, h8, h9]
    · simp only [updateLoop, hid, if_false, List.map_cons, hx, ih hxs]

theorem updateLoop_stable (logID status output : Text) (unix : Int)
    {logs : List ExecutionLog} (h : ∀ l ∈ logs, jsonLog l = l) :
    ∀ l ∈ updateLoop logID (jsonString status) (jsonString output) unix logs, jsonLog l = l := by
  have e := updateLoop_map_jsonLog logID (jsonString status) (jsonString output) unix logs h
  rw [jsonString_idem, jsonString_idem] at e
  intro l hl
  have := List.map_eq_map_iff.1 (e.trans (List.map_id _).symm) l hl
  simpa using this

/-- An update that is written, on a file that can be read: the file then spells
the entries read with the first entry of the id changed. -/
theorem update_done {file : LogFile} {logs : List ExecutionLog} (unix : Int)
    (logID status output : Text) (hload : loadExecutionLogs file = .ok logs) :
    UpdateExecutionLog file unix .done logID status output
        = (.stored (updateLoop logID (jsonString status) (jsonString output) unix logs), none)
      ∧ (LogFile.stored
          (updateLoop logID (jsonString status) (jsonString output) unix logs)).entries
        = updateLoop logID (jsonString status) (jsonString output) unix logs := by
  have hst := loaded_mem_stable hload
  refine ⟨?_, entries_stored_stable (updateLoop_stable logID status output unix hst)⟩
  simp only [UpdateExecutionLog, hload, saveExecutionLogs,
    updateLoop_map_jsonLog logID status output unix logs hst]

/-- After an update that is written, the entry read back under the id has the
status and the output of the update, as the file spells them, and its end
time. -/
theorem get_after_update (file : LogFile) (unix : Int) (logID status output : Text)
    (hex : ∃ l ∈ file.entries, l.ID = logID) :
    ∃ l, GetExecutionLogDetail
          (UpdateExecutionLog file unix .done logID status output).1 logID = .ok l
      ∧ l.Status = jsonString status ∧ l.Output = jsonString output ∧ l.EndTime = unix := by
  obtain ⟨l0, hl0, hid⟩ := hex
  have hload := load_of_mem_entries hl0
  obtain ⟨hu, he⟩ := update_done unix logID status output hload
  obtain ⟨l, hl, h1⟩ := find_updateLoop logID (jsonString status) (jsonString output) unix
    file.entries ⟨l0, hl0, hid⟩
  refine ⟨l, ?_, h1⟩
  rw [hu]
  have hl2 : loadExecutionLogs (LogFile.stored
      (updateLoop logID (jsonString status) (jsonString output) unix file.entries))
      = .ok (updateLoop logID (jsonString status) (jsonString output) unix file.entries) := by
    show Except.ok (LogFile.stored _).entries = _
    rw [he]
  simp only [GetExecutionLogDetail, hl2, hl]

/-! ## Claims about failures, cancellation and events -/

/-- C12: when creating a pipe or starting the process fails with the error `e`,
neither asynchronous runner registers a handle (the handle is after the run
what it was before), and the one completion event carries `Success = false`
and the message of `e`; `RunModalCommandAsyncWithLog` with a non-empty log id
calls `UpdateExecutionLog` once, with the status `failed`, which sets the
status of the entry of a readable store to `failed`. -/
theorem async_failure_no_handle (h : Host) (os : Invocation → Spawn) (command : Text)
    (args : List Text) (workDir tokenId tokenSecret logID : Text) (e : ExecError)
    (hf : (os (RunModalCommandAsync_cmd h command args workDir tokenId tokenSecret)).failure
      = some e) :
    (Action.setRunning ∉ RunModalCommandAsync h os command args workDir tokenId tokenSecret
      ∧ (∀ p, handleAfter p
          (RunModalCommandAsync h os command args workDir tokenId tokenSecret) = p)
      ∧ completions (RunModalCommandAsync h os command args workDir tokenId tokenSecret)
          = [⟨false, [], e.Error⟩])
    ∧ (Action.setRunning ∉
          RunModalCommandAsyncWithLog h os command args workDir tokenId tokenSecret logID
      ∧ (∀ p, handleAfter p
          (RunModalCommandAsyncWithLog h os command args workDir tokenId tokenSecret logID) = p)
      ∧ completions
          (RunModalCommandAsyncWithLog h os command args workDir tokenId tokenSecret logID)
          = [⟨false, [], e.Error⟩]
      ∧ (logID ≠ [] → ∃ errMsg,
          logUpdates
            (RunModalCommandAsyncWithLog h os command args workDir tokenId tokenSecret logID)
            = [(logID, "failed".toList, errMsg)]
          ∧ ∀ logs unix, (∃ l ∈ (LogFile.stored logs).entries, l.ID = logID) →
              ∃ l, GetExecutionLogDetail
                  (UpdateExecutionLog (.stored logs) unix .done logID "failed".toList errMsg).1
                  logID = .ok l
                ∧ l.Status = "failed".toList)) := by
  obtain ⟨m1, h1⟩ := async_trace_failed h os command args workDir tokenId tokenSecret hf
  obtain ⟨m2, h2⟩ :=
    asyncWithLog_trace_failed h os command args workDir tokenId tokenSecret logID hf
  rw [h1, h2]
  refine ⟨⟨by simp, fun p => rfl, rfl⟩, ?_, ?_, ?_, ?_⟩
  · by_cases hl : logID = [] <;> simp [hl]
  · intro p
    by_cases hl : logID = [] <;> simp [hl, handleAfter, handleStep]
  · by_cases hl : logID = [] <;> simp [hl, completions]
  · intro hl
    refine ⟨m2 ++ e.Error, by simp [hl, logUpdates], ?_⟩
    intro logs unix hex
    obtain ⟨l, hg, hst, -⟩ :=
      get_after_update (.stored logs) unix logID "failed".toList (m2 ++ e.Error) hex
    exact ⟨l, hg, hst.trans (by decide)⟩

/-- Witness of C12: `cmd.Start()` fails because the program is not found. -/
theorem async_failure_no_handle_witness :
    (Action.setRunning ∉ RunModalCommandAsync demoHost
        (fun _ => ⟨none, none, some (.lookPath "modal".toList "not found".toList), [], [], none⟩)
        "run".toList ["a.py".toList] [] [] []
      ∧ (∀ p, handleAfter p (RunModalCommandAsync demoHost
          (fun _ => ⟨none, none, some (.lookPath "modal".toList "not found".toList), [], [], none⟩)
          "run".toList ["a.py".toList] [] [] []) = p)
      ∧ completions (RunModalCommandAsync demoHost
          (fun _ => ⟨none, none, some (.lookPath "modal".toList "not found".toList), [], [], none⟩)
          "run".toList ["a.py".toList] [] [] [])
          = [⟨false, [], (ExecError.lookPath "modal".toList "not found".toList).Error⟩])
    ∧ (Action.setRunning ∉ RunModalCommandAsyncWithLog demoHost
        (fun _ => ⟨none, none, some (.lookPath "modal".toList "not found".toList), [], [], none⟩)
        "run".toList ["a.py".toList] [] [] [] "log1".toList
      ∧ (∀ p, handleAfter p (RunModalCommandAsyncWithLog demoHost
          (fun _ => ⟨none, none, some (.lookPath "modal".toList "not found".toList), [], [], none⟩)
          "run".toList ["a.py".toList] [] [] [] "log1".toList) = p)
      ∧ completions (RunModalCommandAsyncWithLog demoHost
          (fun _ => ⟨none, none, some (.lookPath "modal".toList "not found".toList), [], [], none⟩)
          "run".toList ["a.py".toList] [] [] [] "log1".toList)
          = [⟨false, [], (ExecError.lookPath "modal".toList "not found".toList).Error⟩]
      ∧ ("log1".toList ≠ [] → ∃ errMsg,
          logUpdates (RunModalCommandAsyncWithLog demoHost
            (fun _ => ⟨none, none, some (.lookPath "modal".toList "not found".toList), [], [],
              none⟩)
            "run".toList ["a.py".toList] [] [] [] "log1".toList)
            = [("log1".toList, "failed".toList, errMsg)]
          ∧ ∀ logs unix, (∃ l ∈ (LogFile.stored logs).entries, l.ID = "log1".toList) →
              ∃ l, GetExecutionLogDetail
                  (UpdateExecutionLog (.stored logs) unix .done "log1".toList "failed".toList
                    errMsg).1 "log1".toList = .ok l
                ∧ l.Status = "failed".toList)) :=
  async_failure_no_handle demoHost
    (fun _ => ⟨none, none, some (.lookPath "modal".toList "not found".toList), [], [], none⟩)
    "run".toList ["a.py".toList] [] [] [] "log1".toList
    (.lookPath "modal".toList "not found".toList) rfl

/-- C13: with no command registered `CancelRunningCommand` returns false, emits
nothing and leaves the handle absent, and so does every further call. -/
theorem cancel_without_handle (n : Nat) :
    CancelRunningCommand none = (false, [], none)
    ∧ (fun st => (CancelRunningCommand st).2.2)^[n] none = none
    ∧ CancelRunningCommand ((fun st => (CancelRunningCommand st).2.2)^[n] none)
        = (false, [], none) := by
  have hfix : (fun st => (CancelRunningCommand st).2.2)^[n] none = none :=
    Function.iterate_fixed rfl n
  exact ⟨rfl, hfix, by rw [hfix]; rfl⟩

theorem startCompleteOnce_of_shape (command : Text) (A B : List Action) (r : CommandResult)
    (hA : ∀ a ∈ A, a.isStart = false ∧ a.isComplete = false)
    (hB : ∀ a ∈ B, a.isStart = false ∧ a.isComplete = false ∧ a.isOutput = false) :
    StartCompleteOnce command
      (Action.emit (.start command) :: (A ++ Action.emit (.complete r) :: B)) := by
  have fA1 : A.filter Action.isStart = [] :=
    List.filter_eq_nil_iff.2 (fun a ha => by simp [(hA a ha).1])
  have fA2 : A.filter Action.isComplete = [] :=
    List.filter_eq_nil_iff.2 (fun a ha => by simp [(hA a ha).2])
  have fB1 : B.filter Action.isStart = [] :=
    List.filter_eq_nil_iff.2 (fun a ha => by simp [(hB a ha).1])
  have fB2 : B.filter Action.isComplete = [] :=
    List.filter_eq_nil_iff.2 (fun a ha => by simp [(hB a ha).2.1])
  refine ⟨rfl, ?_, ?_, ?_⟩
  · simp [List.filter_cons, List.filter_append, Action.isStart, fA1, fB1]
  · simp [List.filter_cons, List.filter_append, Action.isComplete, fA2, fB2]
  · intro before after r2 h
    have hA2 : ∀ a ∈ Action.emit (.start command) :: A, a.isComplete = false := by
      intro a ha
      rcases List.mem_cons.1 ha with ha | ha
      · subst ha; rfl
      · exact (hA a ha).2
    have e : before ++ Action.emit (.complete r2) :: after
        = (Action.emit (.start command) :: A) ++ Action.emit (.complete r) :: B := by
      rw [← h]
      simp
    obtain ⟨-, e2⟩ := complete_split_unique hA2 (fun a ha => (hB a ha).2.1) e
    subst e2
    exact fun a ha => (hB a ha).2.2

/-- C14: on every path each asynchronous runner emits the `command:start` event
first and only once, emits exactly one `command:complete` event, and emits
no `command:output` event after it. -/
theorem async_events_once (h : Host) (os : Invocation → Spawn) (command : Text)
    (args : List Text) (workDir tokenId tokenSecret logID : Text) :
    StartCompleteOnce command
      (RunModalCommandAsync h os command args workDir tokenId tokenSecret)
    ∧ StartCompleteOnce command
      (RunModalCommandAsyncWithLog h os command args workDir tokenId tokenSecret logID) := by
  have hupd : ∀ (st out : Text) (a : Action),
      a ∈ (if logID ≠ [] then [Action.updateLog logID st out] else []) →
        a.isStart = false ∧ a.isComplete = false ∧ a.isOutput = false := by
    intro st out a ha
    by_cases hl : logID = []
    · simp [hl] at ha
    · simp only [ne_eq, hl, not_false_eq_true, if_true, List.mem_singleton] at ha
      subst ha
      exact ⟨rfl, rfl, rfl⟩
  rcases started_or_failure
    (os (RunModalCommandAsync_cmd h command args workDir tokenId tokenSecret)) with hs | ⟨e, hf⟩
  · constructor
    · rw [async_trace_started h os command args workDir tokenId tokenSecret hs]
      have := startCompleteOnce_of_shape command
        ([Action.setRunning]
          ++ (mergedLines (os (RunModalCommandAsync_cmd h command args workDir tokenId
              tokenSecret))).map (fun line => Action.emit (.output line))
          ++ [Action.clearRunning]) []
        ⟨(os (RunModalCommandAsync_cmd h command args workDir tokenId tokenSecret)).wait.isNone,
          [],
          errorText (os (RunModalCommandAsync_cmd h command args workDir tokenId
            tokenSecret)).wait⟩
        (by
          intro a ha
          simp only [List.mem_append, List.mem_singleton] at ha
          rcases ha with (ha | ha) | ha
          · subst ha; exact ⟨rfl, rfl⟩
          · exact ⟨(outputs_neutral _ a ha).2.2.1, (outputs_neutral _ a ha).2.2.2⟩
          · subst ha; exact ⟨rfl, rfl⟩)
        (fun a ha => by simp at ha)
      simpa using this
    · rw [asyncWithLog_trace_started h os command args workDir tokenId tokenSecret logID hs]
      have := startCompleteOnce_of_shape command
        ([Action.setRunning]
          ++ (mergedLines (os (RunModalCommandAsyncWithLog_cmd h command args workDir tokenId
              tokenSecret))).map (fun line => Action.emit (.output line))
          ++ [Action.clearRunning]
          ++ (if logID ≠ [] then
                [Action.updateLog logID
                  (if (os (RunModalCommandAsyncWithLog_cmd h command args workDir tokenId
                      tokenSecret)).wait.isNone then "success".toList else "failed".toList)
                  (logOutput ((mergedLines (os (RunModalCommandAsyncWithLog_cmd h command args
                    workDir tokenId tokenSecret))).flatMap
                      (fun line => line ++ [Char.ofNat 10])))]
              else [])) []
        ⟨(os (RunModalCommandAsyncWithLog_cmd h command args workDir tokenId
            tokenSecret)).wait.isNone,
          (mergedLines (os (RunModalCommandAsyncWithLog_cmd h command args workDir
            tokenId tokenSecret))).flatMap (fun line => line ++ [Char.ofNat 10]),
          errorText (os (RunModalCommandAsyncWithLog_cmd h command args workDir tokenId
            tokenSecret)).wait⟩
        (by
          intro a ha
          simp only [List.mem_append, List.mem_singleton] at ha
          rcases ha with ((ha | ha) | ha) | ha
          · subst ha; exact ⟨rfl, rfl⟩
          · exact ⟨(outputs_neutral _ a ha).2.2.1, (outputs_neutral _ a ha).2.2.2⟩
          · subst ha; exact ⟨rfl, rfl⟩
          · exact ⟨(hupd _ _ a ha).1, (hupd _ _ a ha).2.1⟩)
        (fun a ha => by simp at ha)
      simpa using this
  · obtain ⟨m1, h1⟩ := async_trace_failed h os command args workDir tokenId tokenSecret hf
    obtain ⟨m2, h2⟩ :=
      asyncWithLog_trace_failed h os command args workDir tokenId tokenSecret logID hf
    rw [h1, h2]
    constructor
    · exact startCompleteOnce_of_shape command [Action.emit (.output (m1 ++ e.Error))] []
        ⟨false, [], e.Error⟩
        (fun a ha => by
          simp only [List.mem_singleton] at ha
          subst ha
          exact ⟨rfl, rfl⟩)
        (fun a ha => by simp at ha)
    · exact startCompleteOnce_of_shape command [Action.emit (.output (m2 ++ e.Error))]
        (if logID ≠ [] then [Action.updateLog logID "failed".toList (m2 ++ e.Error)] else [])
        ⟨false, [], e.Error⟩
        (fun a ha => by
          simp only [List.mem_singleton] at ha
          subst ha
          exact ⟨rfl, rfl⟩)
        (fun a ha => hupd _ _ a ha)

/-! ## Claims about the execution log -/

theorem loaded_eq_entries (file : LogFile) :
    (match loadExecutionLogs file with
      | .ok logs => logs
      | .error _ => []) = file.entries := by
  cases file <;> rfl

theorem take_cap (l : List ExecutionLog) :
    (if l.length > 500 then l.take 500 else l) = l.take 500 := by
  split
  · rfl
  · rename_i h
    exact (List.take_of_length_le (by omega)).symm

theorem entries_mem_stable (file : LogFile) : ∀ l ∈ file.entries, jsonLog l = l := by
  intro l hl
  have := List.map_eq_map_iff.1 ((entries_stable file).trans (List.map_id _).symm) l hl
  simpa using this

theorem created_stable (file : LogFile) (x : ExecutionLog) :
    ∀ l ∈ (jsonLog x :: file.entries).take 500, jsonLog l = l := by
  intro l hl
  rcases List.mem_cons.1 (List.mem_of_mem_take hl) with e | hm
  · rw [e]
    exact jsonLog_idem x
  · exact entries_mem_stable file l hm

/-- A create whose write succeeds stores the new entry, as the file spells it, in
front of the entries read, cut to 500, and returns the id of the new entry. -/
theorem create_done (file : LogFile) (nano unix : Int)
    (projectID projectName scriptName scriptPath scriptContent command : Text)
    (vars : List (Text × Text)) :
    CreateExecutionLog file nano unix .done projectID projectName scriptName scriptPath
        scriptContent command vars
      = (.stored ((jsonLog (newExecutionLog nano unix projectID projectName scriptName scriptPath
            scriptContent command vars) :: file.entries).take 500),
         .ok (toString nano).toList) := by
  simp only [CreateExecutionLog, loaded_eq_entries, take_cap, saveExecutionLogs,
    List.singleton_append, List.map_take, List.map_cons, entries_stable]
  rfl

/-- A create whose write fails returns the error of the write. -/
theorem create_failed (file : LogFile) (nano unix : Int) (msg : Text) (left : LogFile)
    (projectID projectName scriptName scriptPath scriptContent command : Text)
    (vars : List (Text × Text)) :
    CreateExecutionLog file nano unix (.failed msg left) projectID projectName scriptName
        scriptPath scriptContent command vars
      = (left, .error (goStr "写入执行日志文件失败: " ++ msg)) := by
  simp only [CreateExecutionLog, saveExecutionLogs]

theorem create_ok_inv {file : LogFile} {nano unix : Int} {w : WriteOutcome}
    {projectID projectName scriptName scriptPath scriptContent command : Text}
    {vars : List (Text × Text)} {id : Text} {after : LogFile}
    (hok : CreateExecutionLog file nano unix w projectID projectName scriptName scriptPath
      scriptContent command vars = (after, .ok id)) :
    after = .stored ((jsonLog (newExecutionLog nano unix projectID projectName scriptName
        scriptPath scriptContent command vars) :: file.entries).take 500)
      ∧ id = (toString nano).toList
      ∧ after.entries = (jsonLog (newExecutionLog nano unix projectID projectName scriptName
        scriptPath scriptContent command vars) :: file.entries).take 500 := by
  cases w with
  | done =>
    rw [create_done] at hok
    simp only [Prod.mk.injEq, Except.ok.injEq] at hok
    refine ⟨hok.1.symm, hok.2.symm, ?_⟩
    rw [← hok.1]
    exact entries_stored_stable (created_stable file _)
  | failed msg left =>
    rw [create_failed] at hok
    simp only [Prod.mk.injEq] at hok
    exact absurd hok.2 (by simp)

/-- C15, as stated, fails: a script content of the one byte `0xFF`, which is not
valid UTF-8, is given to `CreateExecutionLog` on a store that does not exist
yet.  The create succeeds and returns the id `7`, and
`GetExecutionLogDetail("7")` on the store it leaves returns an entry whose
script content is the three bytes of U+FFFD, not the argument. -/
theorem create_then_get_replaces_invalid_bytes :
    (CreateExecutionLog .missing 7 2 .done "p1".toList [] [] [] [Char.ofNat 255] "run".toList
        []).2 = .ok "7".toList
    ∧ ∃ l, GetExecutionLogDetail
          (CreateExecutionLog .missing 7 2 .done "p1".toList [] [] [] [Char.ofNat 255]
            "run".toList []).1 "7".toList = .ok l
        ∧ l.ScriptContent = [Char.ofNat 0xEF, Char.ofNat 0xBF, Char.ofNat 0xBD]
        ∧ l.ScriptContent ≠ [Char.ofNat 255] := by
  refine ⟨rfl, _, rfl, rfl, ?_⟩
  decide

/-- C15 (amended): when `CreateExecutionLog` succeeds and returns `id`, from whatever
state of the store, `GetExecutionLogDetail(id)` on the store it leaves returns
an entry with the status `running`, the end time 0, an empty output, and the
project id, project name, script name, script path, script content, command
and variables given to `CreateExecutionLog` as the JSON file spells them:
every byte that is not part of a valid UTF-8 sequence is U+FFFD, so a text
that is valid UTF-8 is the text given, and so are variables whose names and
values are valid UTF-8. -/
theorem create_then_get (file : LogFile) (nano unix : Int) (w : WriteOutcome)
    (projectID projectName scriptName scriptPath scriptContent command : Text)
    (vars : List (Text × Text)) (id : Text) (after : LogFile)
    (hok : CreateExecutionLog file nano unix w projectID projectName scriptName scriptPath
      scriptContent command vars = (after, .ok id)) :
    ∃ l, GetExecutionLogDetail after id = .ok l
      ∧ l.Status = "running".toList ∧ l.EndTime = 0 ∧ l.Output = []
      ∧ l.ProjectID = jsonString projectID ∧ l.ProjectName = jsonString projectName
      ∧ l.ScriptName = jsonString scriptName ∧ l.ScriptPath = jsonString scriptPath
      ∧ l.ScriptContent = jsonString scriptContent ∧ l.Command = jsonString command
      ∧ l.Variables = jsonVars vars
      ∧ (validUTF8 projectID = true → l.ProjectID = projectID)
      ∧ (validUTF8 projectName = true → l.ProjectName = projectName)
      ∧ (validUTF8 scriptName = true → l.ScriptName = scriptName)
      ∧ (validUTF8 scriptPath = true → l.ScriptPath = scriptPath)
      ∧ (validUTF8 scriptContent = true → l.ScriptContent = scriptContent)
      ∧ (validUTF8 command = true → l.Command = command)
      ∧ ((vars.map Prod.fst).Nodup
          → (∀ p ∈ vars, validUTF8 p.1 = true ∧ validUTF8 p.2 = true) → l.Variables = vars) := by
  obtain ⟨-, e2, e3⟩ := create_ok_inv hok
  subst e2
  have hload : loadExecutionLogs after = .ok after.entries :=
    load_of_mem_entries (l := jsonLog (newExecutionLog nano unix projectID projectName
      scriptName scriptPath scriptContent command vars)) (by rw [e3]; simp [List.take])
  refine ⟨jsonLog (newExecutionLog nano unix projectID projectName scriptName scriptPath
    scriptContent command vars), ?_, ?_, rfl, rfl, rfl, rfl, rfl, rfl, rfl, rfl, rfl,
    fun h => jsonString_valid h, fun h => jsonString_valid h, fun h => jsonString_valid h,
    fun h => jsonString_valid h, fun h => jsonString_valid h, fun h => jsonString_valid h,
    fun hk hv => jsonVars_valid vars hk hv⟩
  · have hid : jsonString (toString nano).data = (toString nano).data := jsonString_id nano
    simp only [GetExecutionLogDetail, hload, e3]
    simp [List.take, List.find?, newExecutionLog, jsonLog, hid]
  · show jsonString "running".toList = "running".toList
    decide

/-- Witness of C15 (amended): a create on a store that does not exist yet, with a
script content that has a character of three bytes. -/
theorem create_then_get_witness :
    ∃ l, GetExecutionLogDetail
        (CreateExecutionLog .missing 1700000000000000000 1700000000 .done "p1".toList
          "demo".toList "a.py".toList "a.py".toList (goStr "print('好')") "run".toList
          [("K".toList, "v".toList)]).1 "1700000000000000000".toList = .ok l
      ∧ l.Status = "running".toList ∧ l.EndTime = 0 ∧ l.Output = []
      ∧ l.ProjectID = "p1".toList ∧ l.ProjectName = "demo".toList
      ∧ l.ScriptName = "a.py".toList ∧ l.ScriptPath = "a.py".toList
      ∧ l.ScriptContent = goStr "print('好')" ∧ l.Command = "run".toList
      ∧ l.Variables = [("K".toList, "v".toList)] := by
  obtain ⟨l, hg, h1, h2, h3, -, -, -, -, -, -, -, v1, v2, v3, v4, v5, v6, v7⟩ :=
    create_then_get .missing 1700000000000000000 1700000000 .done "p1".toList
      "demo".toList "a.py".toList "a.py".toList (goStr "print('好')") "run".toList
      [("K".toList, "v".toList)] "1700000000000000000".toList _ rfl
  exact ⟨l, hg, h1, h2, h3, v1 (by decide), v2 (by decide), v3 (by decide), v4 (by decide),
    v5 (by decide), v6 (by decide), v7 (by decide) (by decide)⟩

/-- C16: when the store holds an entry with the id `i` and
`UpdateExecutionLog(i, "success", "X")` succeeds at a time after the epoch,
`GetExecutionLogDetail(i)` on the store it leaves returns an entry with the
status `success`, the output `X` and an end time greater than 0. -/
theorem update_then_get (file : LogFile) (unix : Int) (w : WriteOutcome) (i : Text)
    (after : LogFile) (hex : ∃ l ∈ file.entries, l.ID = i) (hnow : 0 < unix)
    (hok : UpdateExecutionLog file unix w i "success".toList "X".toList = (after, none)) :
    ∃ l, GetExecutionLogDetail after i = .ok l
      ∧ l.Status = "success".toList ∧ l.Output = "X".toList ∧ 0 < l.EndTime := by
  obtain ⟨l0, hl0, hid⟩ := hex
  have hload := load_of_mem_entries hl0
  cases w with
  | failed msg left =>
    simp [UpdateExecutionLog, hload, saveExecutionLogs] at hok
  | done =>
    obtain ⟨l, hg, h1, h2, h3⟩ :=
      get_after_update file unix i "success".toList "X".toList ⟨l0, hl0, hid⟩
    rw [hok] at hg
    exact ⟨l, hg, h1.trans (by decide), h2.trans (by decide), by rw [h3]; exact hnow⟩

/-- Witness of C16: the entry created in the witness of C15 is updated. -/
theorem update_then_get_witness :
    ∃ l, GetExecutionLogDetail
        (UpdateExecutionLog
          (.stored [newExecutionLog 1700000000000000000 1700000000 "p1".toList "demo".toList
            "a.py".toList "a.py".toList "print(1)".toList "run".toList []])
          1700000060 .done "1700000000000000000".toList "success".toList "X".toList).1
        "1700000000000000000".toList = .ok l
      ∧ l.Status = "success".toList ∧ l.Output = "X".toList ∧ 0 < l.EndTime :=
  update_then_get
    (.stored [newExecutionLog 1700000000000000000 1700000000 "p1".toList "demo".toList
      "a.py".toList "a.py".toList "print(1)".toList "run".toList []])
    1700000060 .done "1700000000000000000".toList _
    ⟨_, List.mem_singleton.2 rfl, rfl⟩ (by decide) rfl

/-- C17: after a successful `CreateExecutionLog` on a store of `n` entries the store
holds `min (n + 1) 500` entries, so 500 when it held 500, and after a
successful create on any store, readable or not, it holds at most 500. -/
theorem create_caps_store (logs : List ExecutionLog) (nano unix : Int) (w : WriteOutcome)
    (projectID projectName scriptName scriptPath scriptContent command : Text)
    (vars : List (Text × Text)) (id : Text) (after : LogFile)
    (hok : CreateExecutionLog (.stored logs) nano unix w projectID projectName scriptName
      scriptPath scriptContent command vars = (after, .ok id)) :
    (∃ l, after = .stored l ∧ l.length = min (logs.length + 1) 500)
    ∧ (logs.length = 500 → after.entries.length = 500)
    ∧ ∀ (file : LogFile) (w2 : WriteOutcome) (id2 : Text) (after2 : LogFile),
        CreateExecutionLog file nano unix w2 projectID projectName scriptName scriptPath
          scriptContent command vars = (after2, .ok id2) →
        after2.entries.length ≤ 500 := by
  obtain ⟨e1, -, e3⟩ := create_ok_inv hok
  refine ⟨⟨_, e1, ?_⟩, ?_, ?_⟩
  · simp only [LogFile.entries, List.length_take, List.length_cons, List.length_map]
    omega
  · intro hn
    rw [e3]
    simp only [LogFile.entries, List.length_take, List.length_cons, List.length_map]
    omega
  · intro file w2 id2 after2 h2
    obtain ⟨-, -, e4⟩ := create_ok_inv h2
    rw [e4]
    simp only [List.length_take]
    omega

/-- Witness of C17: a create on a store of one entry. -/
theorem create_caps_store_witness :
    (∃ l, (CreateExecutionLog
          (.stored [newExecutionLog 5 1 "p1".toList [] [] [] [] "run".toList []])
          7 2 .done "p1".toList [] [] [] [] "run".toList []).1 = .stored l
        ∧ l.length = min ([newExecutionLog 5 1 "p1".toList [] [] [] [] "run".toList []].length + 1)
            500)
    ∧ ([newExecutionLog 5 1 "p1".toList [] [] [] [] "run".toList []].length = 500 →
        (CreateExecutionLog
          (.stored [newExecutionLog 5 1 "p1".toList [] [] [] [] "run".toList []])
          7 2 .done "p1".toList [] [] [] [] "run".toList []).1.entries.length = 500)
    ∧ ∀ (file : LogFile) (w2 : WriteOutcome) (id2 : Text) (after2 : LogFile),
        CreateExecutionLog file 7 2 w2 "p1".toList [] [] [] [] "run".toList []
          = (after2, .ok id2) →
        after2.entries.length ≤ 500 :=
  create_caps_store [newExecutionLog 5 1 "p1".toList [] [] [] [] "run".toList []] 7 2 .done
    "p1".toList [] [] [] [] "run".toList [] "7".toList _ rfl

/-- C18: after a successful `CreateExecutionLog` the store is the first 500
elements of the new entry, as the file spells it, followed by the old store:
the new entry is first, and the rest is the old store in its order, cut at
the end only. -/
theorem create_prepends (logs : List ExecutionLog) (nano unix : Int) (w : WriteOutcome)
    (projectID projectName scriptName scriptPath scriptContent command : Text)
    (vars : List (Text × Text)) (id : Text) (after : LogFile)
    (hok : CreateExecutionLog (.stored logs) nano unix w projectID projectName scriptName
      scriptPath scriptContent command vars = (after, .ok id)) :
    after = .stored ((jsonLog (newExecutionLog nano unix projectID projectName scriptName
        scriptPath scriptContent command vars) :: (LogFile.stored logs).entries).take 500)
    ∧ after.entries = (jsonLog (newExecutionLog nano unix projectID projectName scriptName
        scriptPath scriptContent command vars) :: (LogFile.stored logs).entries).take 500
    ∧ after.entries.head? = some (jsonLog (newExecutionLog nano unix projectID projectName
        scriptName scriptPath scriptContent command vars))
    ∧ after.entries.tail = (LogFile.stored logs).entries.take 499
    ∧ after.entries.tail <+: (LogFile.stored logs).entries := by
  obtain ⟨e1, -, e3⟩ := create_ok_inv hok
  refine ⟨e1, e3, ?_, ?_, ?_⟩
  · rw [e3]
    rfl
  · rw [e3]
    rfl
  · rw [e3]
    show (LogFile.stored logs).entries.take 499 <+: (LogFile.stored logs).entries
    exact List.take_prefix _ _

/-- Witness of C18: a create on a store of one entry. -/
theorem create_prepends_witness :
    (CreateExecutionLog (.stored [newExecutionLog 5 1 "p1".toList [] [] [] [] "run".toList []])
        7 2 .done "p1".toList [] [] [] [] "run".toList []).1
      = .stored [newExecutionLog 7 2 "p1".toList [] [] [] [] "run".toList [],
          newExecutionLog 5 1 "p1".toList [] [] [] [] "run".toList []]
    ∧ (CreateExecutionLog (.stored [newExecutionLog 5 1 "p1".toList [] [] [] [] "run".toList []])
        7 2 .done "p1".toList [] [] [] [] "run".toList []).1.entries
      = [newExecutionLog 7 2 "p1".toList [] [] [] [] "run".toList [],
          newExecutionLog 5 1 "p1".toList [] [] [] [] "run".toList []]
    ∧ (CreateExecutionLog (.stored [newExecutionLog 5 1 "p1".toList [] [] [] [] "run".toList []])
        7 2 .done "p1".toList [] [] [] [] "run".toList []).1.entries.head?
      = some (newExecutionLog 7 2 "p1".toList [] [] [] [] "run".toList [])
    ∧ (CreateExecutionLog (.stored [newExecutionLog 5 1 "p1".toList [] [] [] [] "run".toList []])
        7 2 .done "p1".toList [] [] [] [] "run".toList []).1.entries.tail
      = [newExecutionLog 5 1 "p1".toList [] [] [] [] "run".toList []]
    ∧ (CreateExecutionLog (.stored [newExecutionLog 5 1 "p1".toList [] [] [] [] "run".toList []])
        7 2 .done "p1".toList [] [] [] [] "run".toList []).1.entries.tail
      <+: [newExecutionLog 5 1 "p1".toList [] [] [] [] "run".toList []] :=
  create_prepends [newExecutionLog 5 1 "p1".toList [] [] [] [] "run".toList []] 7 2 .done
    "p1".toList [] [] [] [] "run".toList [] "7".toList _ rfl

/-- C19, as stated, fails: on a store that cannot be parsed `CreateExecutionLog`
returns the new id and no error, and it writes the store, which then holds
the new entry alone. -/
theorem create_on_corrupt_store_succeeds :
    (CreateExecutionLog (.corrupt "unexpected end of JSON input".toList) 7 2 .done "p1".toList
        [] [] [] [] "run".toList []).2 = .ok "7".toList
    ∧ (CreateExecutionLog (.corrupt "unexpected end of JSON input".toList) 7 2 .done "p1".toList
        [] [] [] [] "run".toList []).1
      = .stored [newExecutionLog 7 2 "p1".toList [] [] [] [] "run".toList []]
    ∧ (CreateExecutionLog (.corrupt "unexpected end of JSON input".toList) 7 2 .done "p1".toList
        [] [] [] [] "run".toList []).1
      ≠ .corrupt "unexpected end of JSON input".toList := by
  refine ⟨rfl, rfl, ?_⟩
  decide

/-- C19 (amended): when reading or parsing the store fails, `CreateExecutionLog`
does not surface that failure: it goes on with an empty list, and when the
write succeeds it returns the new id and the store holds the new entry, as
the file spells it, alone;
it returns an error only when the write fails, and that error is the one of
the write. -/
theorem create_on_unreadable_store (file : LogFile) (err : Text) (nano unix : Int)
    (projectID projectName scriptName scriptPath scriptContent command : Text)
    (vars : List (Text × Text)) (hload : loadExecutionLogs file = .error err) :
    CreateExecutionLog file nano unix .done projectID projectName scriptName scriptPath
        scriptContent command vars
      = (.stored [jsonLog (newExecutionLog nano unix projectID projectName scriptName
            scriptPath scriptContent command vars)],
         .ok (newExecutionLog nano unix projectID projectName scriptName scriptPath
            scriptContent command vars).ID)
    ∧ ∀ msg left,
        CreateExecutionLog file nano unix (.failed msg left) projectID projectName scriptName
            scriptPath scriptContent command vars
          = (left, .error (goStr "写入执行日志文件失败: " ++ msg)) := by
  refine ⟨?_, fun msg left => create_failed _ _ _ _ _ _ _ _ _ _ _ _⟩
  rw [create_done]
  cases file with
  | missing => simp [loadExecutionLogs] at hload
  | unreadable m => rfl
  | corrupt m => rfl
  | stored logs => simp [loadExecutionLogs] at hload

/-- Witness of C19 (amended): a store whose file cannot be read. -/
theorem create_on_unreadable_store_witness :
    CreateExecutionLog (.unreadable "permission denied".toList) 7 2 .done "p1".toList
        [] [] [] [] "run".toList []
      = (.stored [newExecutionLog 7 2 "p1".toList [] [] [] [] "run".toList []],
         .ok (newExecutionLog 7 2 "p1".toList [] [] [] [] "run".toList []).ID)
    ∧ ∀ msg left,
        CreateExecutionLog (.unreadable "permission denied".toList) 7 2 (.failed msg left)
            "p1".toList [] [] [] [] "run".toList []
          = (left, .error (goStr "写入执行日志文件失败: " ++ msg)) :=
  create_on_unreadable_store (.unreadable "permission denied".toList)
    (goStr "读取执行日志文件失败: " ++ "permission denied".toList) 7 2 "p1".toList
    [] [] [] [] "run".toList [] rfl

/-- C20 at its input: two calls of `CreateExecutionLog` that read the same
nanosecond from the clock, the first on a store that does not exist yet.
Both succeed and return the same id, and the store then holds two entries
with that id, though the ids of the store before the second call were
pairwise distinct. -/
theorem create_same_clock_reading_duplicates_id :
    (CreateExecutionLog .missing 1700000000000000000 1700000000 .done "p1".toList
        "demo".toList "a.py".toList "a.py".toList [] "run".toList []).2
      = .ok "1700000000000000000".toList
    ∧ ((CreateExecutionLog .missing 1700000000000000000 1700000000 .done "p1".toList
        "demo".toList "a.py".toList "a.py".toList [] "run".toList []).1.entries.map
          ExecutionLog.ID).Nodup
    ∧ (CreateExecutionLog
        (CreateExecutionLog .missing 1700000000000000000 1700000000 .done "p1".toList
          "demo".toList "a.py".toList "a.py".toList [] "run".toList []).1
        1700000000000000000 1700000000 .done "p1".toList
        "demo".toList "b.py".toList "b.py".toList [] "run".toList []).2
      = .ok "1700000000000000000".toList
    ∧ ¬ ((CreateExecutionLog
        (CreateExecutionLog .missing 1700000000000000000 1700000000 .done "p1".toList
          "demo".toList "a.py".toList "a.py".toList [] "run".toList []).1
        1700000000000000000 1700000000 .done "p1".toList
        "demo".toList "b.py".toList "b.py".toList [] "run".toList []).1.entries.map
          ExecutionLog.ID).Nodup := by
  refine ⟨rfl, ?_, rfl, ?_⟩
  · simp only [create_done]
    decide
  · simp only [create_done]
    decide

/-! ## Further claims about `modifyScriptForEnvironment` -/

theorem isSuffixChar_safe {c : Char} (h : isSuffixChar c = true) :
    isQuote c = false ∧ c ≠ '(' := by
  constructor
  · cases hq : isQuote c with
    | false => rfl
    | true =>
      exfalso
      simp only [isQuote, Bool.or_eq_true, beq_iff_eq] at hq
      rcases hq with e | e
      · subst e
        revert h
        decide
      · subst e
        revert h
        decide
  · intro e
    subst e
    revert h
    decide

/-- C24: for every source text and every suffix made of ASCII letters, digits, `-`
and `_` only, rewriting twice with the suffix gives what rewriting once gives,
whatever the literals of the text contain. -/
theorem modifyScriptForEnvironment_idempotent_plain_suffix (t s : Text)
    (hs : ∀ c ∈ s, isSuffixChar c = true) :
    modifyScriptForEnvironment (modifyScriptForEnvironment t s) s
      = modifyScriptForEnvironment t s := by
  by_cases hne : s = []
  · simp [modifyScriptForEnvironment, hne]
  · obtain ⟨tau, e, hq, hp⟩ := normalizeSuffix_shape hne (fun c hc => isSuffixChar_safe (hs c hc))
    simp only [modifyScriptForEnvironment, hne, if_false, e]
    exact rewriteWith_idem hq hp t

/-- Witness of C24: a Volume name that ends with `modal.App(`, and the suffix
`test_1`. -/
theorem modifyScriptForEnvironment_idempotent_plain_suffix_witness :
    (∀ c ∈ "test_1".toList, isSuffixChar c = true)
    ∧ modifyScriptForEnvironment
        (modifyScriptForEnvironment "v = modal.Volume.from_name(\"modal.App(\") + \"b\"".toList
          "test_1".toList) "test_1".toList
      = modifyScriptForEnvironment "v = modal.Volume.from_name(\"modal.App(\") + \"b\"".toList
          "test_1".toList :=
  ⟨by decide, modifyScriptForEnvironment_idempotent_plain_suffix _ _ (by decide)⟩

theorem matchAt_starts_with_kw {kw : Text} {o : Bool} {t : Text} {m : Match}
    (h : matchAt kw o t = some m) : kw <+: t := by
  simp only [matchAt, Option.bind_eq_some] at h
  obtain ⟨r1, h1, -⟩ := h
  exact ⟨r1, (stripLit_eq_some h1).symm⟩

/-- A pass leaves a text alone in which the keyword of its pattern does not occur. -/
theorem replaceAll_of_kw_absent (kw : Text) (o : Bool) (suffix : Text) :
    ∀ t : Text, ¬ kw <:+: t → replaceAll kw o suffix t = t := by
  intro t
  induction t with
  | nil => intro _; rfl
  | cons c cs ih =>
    intro hn
    have hm : matchAt kw o (c :: cs) = none := by
      cases hmt : matchAt kw o (c :: cs) with
      | none => rfl
      | some m => exact absurd (matchAt_starts_with_kw hmt).isInfix hn
    rw [replaceAll_cons_of_none suffix hm,
      ih (fun hc => hn (hc.trans (List.suffix_cons c cs).isInfix))]

/-- C25: a source text in which none of `modal.App`, `modal.Volume.from_name` and
`modal.Secret.from_name` occurs is returned unchanged, for every suffix. -/
theorem modifyScriptForEnvironment_frame (t s : Text)
    (hA : ¬ "modal.App".toList <:+: t)
    (hV : ¬ "modal.Volume.from_name".toList <:+: t)
    (hS : ¬ "modal.Secret.from_name".toList <:+: t) :
    modifyScriptForEnvironment t s = t := by
  unfold modifyScriptForEnvironment
  split
  · rfl
  · unfold rewriteWith
    rw [replaceAll_of_kw_absent appKw true _ t hA,
      replaceAll_of_kw_absent volumeKw false _ t hV,
      replaceAll_of_kw_absent secretKw false _ t hS]

/-- Witness of C25: a script with a quoted literal and no declaration, and a
suffix that holds a quote. -/
theorem modifyScriptForEnvironment_frame_witness :
    modifyScriptForEnvironment "import modal\nprint(\"modal.app\")".toList "-x\"".toList
      = "import modal\nprint(\"modal.app\")".toList :=
  modifyScriptForEnvironment_frame _ _ (by decide) (by decide) (by decide)

/-! ## Further claims about the asynchronous runners and the cancellation -/

theorem logUpdates_append (a b : List Action) :
    logUpdates (a ++ b) = logUpdates a ++ logUpdates b := by
  simp [logUpdates, List.filterMap_append]

theorem logUpdates_outputs (lines : List Text) :
    logUpdates (lines.map (fun line => Action.emit (.output line))) = [] := by
  induction lines with
  | nil => rfl
  | cons l ls ih =>
    simp only [List.map_cons, logUpdates, List.filterMap_cons] at ih ⊢
    rw [ih]

theorem not_started_of_failure {w : Spawn} {e : ExecError} (hf : w.failure = some e) :
    ¬ w.started := by
  rintro ⟨h1, h2, h3⟩
  simp [Spawn.failure, h1, h2, h3] at hf

theorem asyncWithLog_logUpdates_started (h : Host) (os : Invocation → Spawn) (command : Text)
    (args : List Text) (workDir tokenId tokenSecret logID : Text) (hl : logID ≠ [])
    (hs : (os (RunModalCommandAsyncWithLog_cmd h command args workDir tokenId
      tokenSecret)).started) :
    logUpdates (RunModalCommandAsyncWithLog h os command args workDir tokenId tokenSecret logID)
      = [(logID,
          if (os (RunModalCommandAsyncWithLog_cmd h command args workDir tokenId
              tokenSecret)).wait.isNone then "success".toList else "failed".toList,
          logOutput ((mergedLines (os (RunModalCommandAsyncWithLog_cmd h command args workDir
            tokenId tokenSecret))).flatMap (fun line => line ++ [Char.ofNat 10])))] := by
  rw [asyncWithLog_trace_started h os command args workDir tokenId tokenSecret logID hs]
  rw [← List.singleton_append, logUpdates_append, logUpdates_append, logUpdates_append,
    logUpdates_append, logUpdates_append, logUpdates_outputs]
  simp [logUpdates, hl]

/-- C21: with a non-empty log id `RunModalCommandAsyncWithLog` calls
`UpdateExecutionLog` exactly once on every path, for that id, with the status
`success` exactly when the process started and `cmd.Wait()` returned no error
(exit status 0), and with the status `failed` in every other case. -/
theorem asyncWithLog_updates_once (h : Host) (os : Invocation → Spawn) (command : Text)
    (args : List Text) (workDir tokenId tokenSecret logID : Text) (hl : logID ≠ []) :
    ∃ status output,
      logUpdates (RunModalCommandAsyncWithLog h os command args workDir tokenId tokenSecret logID)
        = [(logID, status, output)]
      ∧ (status = "success".toList ↔
          (os (RunModalCommandAsyncWithLog_cmd h command args workDir tokenId
            tokenSecret)).started
          ∧ (os (RunModalCommandAsyncWithLog_cmd h command args workDir tokenId
            tokenSecret)).wait = none)
      ∧ (status ≠ "success".toList → status = "failed".toList) := by
  rcases started_or_failure
    (os (RunModalCommandAsyncWithLog_cmd h command args workDir tokenId tokenSecret))
    with hs | ⟨e, hf⟩
  · refine ⟨_, _,
      asyncWithLog_logUpdates_started h os command args workDir tokenId tokenSecret logID hl hs,
      ?_, ?_⟩
    · cases hw : (os (RunModalCommandAsyncWithLog_cmd h command args workDir tokenId
          tokenSecret)).wait with
      | none => simp [hs]
      | some e2 =>
        have hne : "failed".toList ≠ "success".toList := by decide
        simp [hne]
    · intro hne
      cases hw : (os (RunModalCommandAsyncWithLog_cmd h command args workDir tokenId
          tokenSecret)).wait with
      | none => simp [hw] at hne
      | some e2 => simp
  · obtain ⟨m2, h2⟩ :=
      asyncWithLog_trace_failed h os command args workDir tokenId tokenSecret logID hf
    refine ⟨"failed".toList, m2 ++ e.Error, ?_, ?_, fun _ => rfl⟩
    · rw [h2]
      simp [logUpdates, hl]
    · have hne : "failed".toList ≠ "success".toList := by decide
      constructor
      · intro hc
        exact absurd hc hne
      · intro hc
        exact absurd hc.1 (not_started_of_failure hf)

/-- Witness of C21: a process that starts and exits with status 1. -/
theorem asyncWithLog_updates_once_witness :
    ∃ status output,
      logUpdates (RunModalCommandAsyncWithLog demoHost
          (fun _ => ⟨none, none, none, "a\n".toList, [], some (.exitStatus 1)⟩)
          "run".toList ["a.py".toList] [] [] [] "log1".toList)
        = [("log1".toList, status, output)]
      ∧ (status = "success".toList ↔
          (⟨none, none, none, "a\n".toList, [], some (.exitStatus 1)⟩ : Spawn).started
          ∧ (⟨none, none, none, "a\n".toList, [], some (.exitStatus 1)⟩ : Spawn).wait = none)
      ∧ (status ≠ "success".toList → status = "failed".toList) :=
  asyncWithLog_updates_once demoHost
    (fun _ => ⟨none, none, none, "a\n".toList, [], some (.exitStatus 1)⟩)
    "run".toList ["a.py".toList] [] [] [] "log1".toList (by decide)

/-- A started process that writes one line without a carriage return, shorter
than the limit of the scanner: the line is the one line read. -/
theorem mergedLines_one_line (w : Spawn) (line : Text)
    (hout : w.stdout = line ++ [Char.ofNat 10]) (herr : w.stderr = [])
    (hl : ∀ c ∈ line, c ≠ Char.ofNat 10) (hcr : ∀ c ∈ line, c ≠ Char.ofNat 13)
    (hlen : line.length < 1024 * 1024) : mergedLines w = [line] := by
  have hd : dropCR line = line := by
    unfold dropCR
    rw [if_neg]
    intro hc
    exact hcr _ (List.mem_of_getLast?_eq_some hc) rfl
  unfold mergedLines
  rw [scanLines_eq (by norm_num), hout, herr, List.append_nil, rawLines,
    rawLinesAux_line line [] hl]
  simp [rawLinesAux, List.takeWhile, hlen, hd]

/-- The text handed to `UpdateExecutionLog` when the cut of the output goes through
a character of two bytes: the marker, the second byte of the character and
the rest. -/
theorem logOutput_cut (b0 b1 : Char) (body : Text) (hn : body.length = 50 * 1024 - 1) :
    logOutput (b0 :: b1 :: body) = truncationMarker ++ b1 :: body := by
  unfold logOutput truncationMarker
  have hlen : (b0 :: b1 :: body).length = 50 * 1024 + 1 := by
    rw [List.length_cons, List.length_cons, hn]
  rw [if_pos (by rw [hlen]; norm_num), hlen]
  rfl

theorem validUTF8_truncationMarker : validUTF8 truncationMarker = true := by decide

theorem truncationMarker_length : truncationMarker.length = 33 := by decide

/-- The marker, a byte that starts no character and an ASCII text, as the file
spells them. -/
theorem jsonString_marker_cont (b : Char) (body : Text)
    (hb : 0x80 ≤ b.toNat ∧ b.toNat < 0xC2) (ha : ∀ c ∈ body, c.toNat < 128) :
    jsonString (truncationMarker ++ b :: body) = truncationMarker ++ (replacementChar ++ body) := by
  rw [jsonString_append_valid validUTF8_truncationMarker, jsonString_cont b body hb,
    jsonString_ascii body ha]

/-- A run whose output is `é`, an ASCII text and a newline, one byte longer than
`50*1024`, and the entry it leaves. -/
theorem log_entry_output_of_cut (body : Text)
    (ha : ∀ c ∈ body, c.toNat < 128 ∧ c ≠ Char.ofNat 10 ∧ c ≠ Char.ofNat 13)
    (hn : body.length + 2 = 50 * 1024) :
    ∃ r status l,
      completions (RunModalCommandAsyncWithLog demoHost
          (fun _ => demoSpawn
            (Char.ofNat 0xC3 :: Char.ofNat 0xA9 :: (body ++ [Char.ofNat 10])) [])
          "run".toList ["a.py".toList] [] [] [] "7".toList) = [r]
      ∧ r.Output = Char.ofNat 0xC3 :: Char.ofNat 0xA9 :: (body ++ [Char.ofNat 10])
      ∧ logUpdates (RunModalCommandAsyncWithLog demoHost
          (fun _ => demoSpawn
            (Char.ofNat 0xC3 :: Char.ofNat 0xA9 :: (body ++ [Char.ofNat 10])) [])
          "run".toList ["a.py".toList] [] [] [] "7".toList)
          = [("7".toList, status, logOutput r.Output)]
      ∧ GetExecutionLogDetail
          (UpdateExecutionLog
            (.stored [newExecutionLog 7 2 "p1".toList [] [] [] [] "run".toList []])
            9 .done "7".toList status (logOutput r.Output)).1 "7".toList = .ok l
      ∧ l.Output = truncationMarker ++ (replacementChar ++ (body ++ [Char.ofNat 10]))
      ∧ l.Output ≠ truncationMarker ++ r.Output.drop (r.Output.length - 50 * 1024)
      ∧ l.Output.length = body.length + 37
      ∧ 50 * 1024 + truncationMarker.length = 51233 := by
  have hs : ((fun _ => demoSpawn
      (Char.ofNat 0xC3 :: Char.ofNat 0xA9 :: (body ++ [Char.ofNat 10])) [])
      (RunModalCommandAsyncWithLog_cmd demoHost "run".toList ["a.py".toList] [] [] [])).started :=
    ⟨rfl, rfl, rfl⟩
  have hline : ∀ c ∈ Char.ofNat 0xC3 :: Char.ofNat 0xA9 :: body,
      c ≠ Char.ofNat 10 ∧ c ≠ Char.ofNat 13 := by
    intro c hc
    rcases List.mem_cons.1 hc with e | hc
    · rw [e]
      decide
    · rcases List.mem_cons.1 hc with e | hc
      · rw [e]
        decide
      · exact (ha c hc).2
  have hm : mergedLines ((fun _ => demoSpawn
      (Char.ofNat 0xC3 :: Char.ofNat 0xA9 :: (body ++ [Char.ofNat 10])) [])
      (RunModalCommandAsyncWithLog_cmd demoHost "run".toList ["a.py".toList] [] [] []))
      = [Char.ofNat 0xC3 :: Char.ofNat 0xA9 :: body] :=
    mergedLines_one_line _ _ rfl rfl (fun c hc => (hline c hc).1) (fun c hc => (hline c hc).2)
      (by rw [List.length_cons, List.length_cons]; omega)
  have hc := asyncWithLog_completions demoHost
    (fun _ => demoSpawn (Char.ofNat 0xC3 :: Char.ofNat 0xA9 :: (body ++ [Char.ofNat 10])) [])
    "run".toList ["a.py".toList] [] [] [] "7".toList hs
  have hu := asyncWithLog_logUpdates_started demoHost
    (fun _ => demoSpawn (Char.ofNat 0xC3 :: Char.ofNat 0xA9 :: (body ++ [Char.ofNat 10])) [])
    "run".toList ["a.py".toList] [] [] [] "7".toList (by decide) hs
  have hflat : [Char.ofNat 0xC3 :: Char.ofNat 0xA9 :: body].flatMap
      (fun line => line ++ [Char.ofNat 10])
      = Char.ofNat 0xC3 :: Char.ofNat 0xA9 :: (body ++ [Char.ofNat 10]) := by
    rw [List.flatMap_cons, List.flatMap_nil, List.append_nil]
    rfl
  rw [hm, hflat] at hc hu
  have hcut : logOutput (Char.ofNat 0xC3 :: Char.ofNat 0xA9 :: (body ++ [Char.ofNat 10]))
      = truncationMarker ++ Char.ofNat 0xA9 :: (body ++ [Char.ofNat 10]) :=
    logOutput_cut _ _ _ (by rw [List.length_append, List.length_singleton]; omega)
  have hjson : jsonString (truncationMarker ++ Char.ofNat 0xA9 :: (body ++ [Char.ofNat 10]))
      = truncationMarker ++ (replacementChar ++ (body ++ [Char.ofNat 10])) := by
    refine jsonString_marker_cont _ _ (by decide) ?_
    intro c hc
    rcases List.mem_append.1 hc with h | h
    · exact (ha c h).1
    · rw [List.mem_singleton.1 h]
      decide
  obtain ⟨l, hg, -, ho, -⟩ := get_after_update
    (.stored [newExecutionLog 7 2 "p1".toList [] [] [] [] "run".toList []]) 9 "7".toList
    (if ((fun _ => demoSpawn
      (Char.ofNat 0xC3 :: Char.ofNat 0xA9 :: (body ++ [Char.ofNat 10])) [])
      (RunModalCommandAsyncWithLog_cmd demoHost "run".toList ["a.py".toList] [] [] [])).wait.isNone
      then "success".toList else "failed".toList)
    (logOutput (Char.ofNat 0xC3 :: Char.ofNat 0xA9 :: (body ++ [Char.ofNat 10])))
    ⟨_, List.mem_singleton.2 rfl, rfl⟩
  rw [hcut, hjson] at ho
  have hlen : l.Output.length = body.length + 37 := by
    rw [ho, List.length_append, List.length_append, List.length_append,
      truncationMarker_length]
    simp only [replacementChar, List.length_cons, List.length_nil]
    omega
  refine ⟨_, _, l, hc, rfl, hu, hg, ho, ?_, hlen, ?_⟩
  · intro e
    have e2 := congrArg List.length e
    rw [hlen, List.length_append, List.length_drop, truncationMarker_length] at e2
    simp only [List.length_cons, List.length_append, List.length_nil] at e2
    omega
  · rw [truncationMarker_length]

/-- C22, as stated, fails: a process writes the line `é` followed by 51198 times
`a`, which is valid UTF-8 and, with its newline, one byte longer than
`50*1024`.  The cut goes through the `é`, the text handed to
`UpdateExecutionLog` starts, after the marker, with the second byte of the
`é`, and the log entry holds U+FFFD in the place of that byte: its output
has 51235 bytes, two more than `50*1024` plus the marker, and it is not the
marker followed by the last `50*1024` bytes of the accumulated output. -/
theorem log_entry_output_exceeds_bound :
    ∃ r status l,
      completions (RunModalCommandAsyncWithLog demoHost
          (fun _ => demoSpawn
            (Char.ofNat 0xC3 :: Char.ofNat 0xA9 :: (List.replicate 51198 'a' ++ [Char.ofNat 10]))
            [])
          "run".toList ["a.py".toList] [] [] [] "7".toList) = [r]
      ∧ r.Output
          = Char.ofNat 0xC3 :: Char.ofNat 0xA9 :: (List.replicate 51198 'a' ++ [Char.ofNat 10])
      ∧ logUpdates (RunModalCommandAsyncWithLog demoHost
          (fun _ => demoSpawn
            (Char.ofNat 0xC3 :: Char.ofNat 0xA9 :: (List.replicate 51198 'a' ++ [Char.ofNat 10]))
            [])
          "run".toList ["a.py".toList] [] [] [] "7".toList)
          = [("7".toList, status, logOutput r.Output)]
      ∧ GetExecutionLogDetail
          (UpdateExecutionLog
            (.stored [newExecutionLog 7 2 "p1".toList [] [] [] [] "run".toList []])
            9 .done "7".toList status (logOutput r.Output)).1 "7".toList = .ok l
      ∧ l.Output = truncationMarker
          ++ (replacementChar ++ (List.replicate 51198 'a' ++ [Char.ofNat 10]))
      ∧ l.Output ≠ truncationMarker ++ r.Output.drop (r.Output.length - 50 * 1024)
      ∧ l.Output.length = 51235
      ∧ 50 * 1024 + truncationMarker.length = 51233 := by
  have hbody : ∀ c ∈ List.replicate 51198 'a',
      c.toNat < 128 ∧ c ≠ Char.ofNat 10 ∧ c ≠ Char.ofNat 13 := by
    intro c hc
    rw [List.eq_of_mem_replicate hc]
    decide
  obtain ⟨r, status, l, h1, h2, h3, h4, h5, h6, h7, h8⟩ :=
    log_entry_output_of_cut (List.replicate 51198 'a') hbody
      (by rw [List.length_replicate])
  refine ⟨r, status, l, h1, h2, h3, h4, h5, h6, ?_, h8⟩
  rw [h7, List.length_replicate]

/-- C22 (amended): the output handed to `UpdateExecutionLog` is the accumulated
output itself when that has at most `50*1024` bytes, and otherwise the marker
line followed by exactly its last `50*1024` bytes; so it is never longer than
`50*1024` bytes plus the marker and it always ends with the end of the
accumulated output.  In a started run with a non-empty log id the one call
of `UpdateExecutionLog` gets the output made in this way from the `Output` of
the result, and the entry of a readable store that holds the id then has
that output as the JSON file spells it: every byte that is not part of a
valid UTF-8 sequence is U+FFFD.  So the output of the entry is the output
handed over when that is valid UTF-8, and it is at most three times as long
in every case. -/
theorem log_output_truncation (o : Text) :
    (o.length ≤ 50 * 1024 → logOutput o = o)
    ∧ (50 * 1024 < o.length →
        logOutput o = truncationMarker ++ o.drop (o.length - 50 * 1024)
        ∧ (o.drop (o.length - 50 * 1024)).length = 50 * 1024)
    ∧ (logOutput o).length ≤ 50 * 1024 + truncationMarker.length
    ∧ o.drop (o.length - 50 * 1024) <:+ logOutput o
    ∧ ∀ (h : Host) (os : Invocation → Spawn) (command : Text) (args : List Text)
        (workDir tokenId tokenSecret logID : Text) (file : LogFile) (unix : Int),
        logID ≠ [] →
        (os (RunModalCommandAsyncWithLog_cmd h command args workDir tokenId
          tokenSecret)).started →
        (∃ l ∈ file.entries, l.ID = logID) →
        ∃ status r l,
          completions
              (RunModalCommandAsyncWithLog h os command args workDir tokenId tokenSecret logID)
            = [r]
          ∧ logUpdates
              (RunModalCommandAsyncWithLog h os command args workDir tokenId tokenSecret logID)
            = [(logID, status, logOutput r.Output)]
          ∧ GetExecutionLogDetail
              (UpdateExecutionLog file unix .done logID status (logOutput r.Output)).1 logID
            = .ok l
          ∧ l.Output = jsonString (logOutput r.Output)
          ∧ (validUTF8 (logOutput r.Output) = true → l.Output = logOutput r.Output)
          ∧ l.Output.length ≤ 3 * (50 * 1024 + truncationMarker.length) := by
  have hbound : ∀ t : Text, (logOutput t).length ≤ 50 * 1024 + truncationMarker.length := by
    intro t
    unfold logOutput truncationMarker
    split
    · rw [List.length_append, List.length_drop]
      omega
    · omega
  refine ⟨?_, ?_, hbound o, ?_, ?_⟩
  · intro hle
    unfold logOutput
    rw [if_neg (by omega)]
  · intro hlt
    refine ⟨?_, ?_⟩
    · unfold logOutput truncationMarker
      rw [if_pos (by omega)]
    · rw [List.length_drop]
      omega
  · unfold logOutput
    split
    · exact List.suffix_append _ _
    · rename_i hle
      have : o.length - 50 * 1024 = 0 := by omega
      rw [this]
      exact List.suffix_refl _
  · intro h os command args workDir tokenId tokenSecret logID file unix hl hs hex
    obtain ⟨l, hg, -, ho, -⟩ := get_after_update file unix logID
      (if (os (RunModalCommandAsyncWithLog_cmd h command args workDir tokenId
          tokenSecret)).wait.isNone then "success".toList else "failed".toList)
      (logOutput ((mergedLines (os (RunModalCommandAsyncWithLog_cmd h command args workDir
        tokenId tokenSecret))).flatMap (fun line => line ++ [Char.ofNat 10]))) hex
    refine ⟨_, _, l,
      asyncWithLog_completions h os command args workDir tokenId tokenSecret logID hs,
      asyncWithLog_logUpdates_started h os command args workDir tokenId tokenSecret logID hl hs,
      hg, ho, fun hv => ho.trans (jsonString_valid hv), ?_⟩
    rw [ho]
    have h1 := jsonString_length_le (logOutput ((mergedLines (os
      (RunModalCommandAsyncWithLog_cmd h command args workDir tokenId tokenSecret))).flatMap
      (fun line => line ++ [Char.ofNat 10])))
    have h2 := hbound ((mergedLines (os
      (RunModalCommandAsyncWithLog_cmd h command args workDir tokenId tokenSecret))).flatMap
      (fun line => line ++ [Char.ofNat 10]))
    exact le_trans h1 (Nat.mul_le_mul_left 3 h2)

/-- Witness of C22 (amended): a process writes the line `好` and exits with status
0; the entry with the id `7` then has the output `好` and a newline. -/
theorem log_output_truncation_witness :
    logOutput (goStr "好\n") = goStr "好\n"
    ∧ ∃ l, GetExecutionLogDetail
          (UpdateExecutionLog
            (.stored [newExecutionLog 7 2 "p1".toList [] [] [] [] "run".toList []])
            9 .done "7".toList "success".toList (logOutput (goStr "好\n"))).1 "7".toList = .ok l
        ∧ l.Output = goStr "好\n" := by
  refine ⟨(log_output_truncation (goStr "好\n")).1 (by decide), ?_⟩
  obtain ⟨status, r, l, hc, hu, hg, -, hv, -⟩ :=
    (log_output_truncation (goStr "好\n")).2.2.2.2 demoHost
      (fun _ => demoSpawn (goStr "好\n") []) "run".toList ["a.py".toList] [] [] [] "7".toList
      (.stored [newExecutionLog 7 2 "p1".toList [] [] [] [] "run".toList []]) 9
      (by decide) ⟨rfl, rfl, rfl⟩ ⟨_, List.mem_singleton.2 rfl, rfl⟩
  have hc2 : completions (RunModalCommandAsyncWithLog demoHost
      (fun _ => demoSpawn (goStr "好\n") []) "run".toList ["a.py".toList] [] [] [] "7".toList)
      = [⟨true, goStr "好\n", []⟩] := by decide
  have hu2 : logUpdates (RunModalCommandAsyncWithLog demoHost
      (fun _ => demoSpawn (goStr "好\n") []) "run".toList ["a.py".toList] [] [] [] "7".toList)
      = [("7".toList, "success".toList, logOutput (goStr "好\n"))] := by decide
  have hr : r = ⟨true, goStr "好\n", []⟩ := by
    rw [hc] at hc2
    exact List.head_eq_of_cons_eq hc2
  subst hr
  have hst : status = "success".toList := by
    rw [hu] at hu2
    exact congrArg (fun x => x.2.1) (List.head_eq_of_cons_eq hu2)
  subst hst
  exact ⟨l, hg, hv (by decide)⟩

theorem mergedLines_eq_linesOf_merged (w : Spawn)
    (hlen : ∀ l ∈ rawLines (w.stdout ++ w.stderr), l.length < 1024 * 1024) :
    mergedLines w = linesOf (w.stdout ++ w.stderr) := by
  unfold mergedLines linesOf
  rw [scanLines_eq (by norm_num)]
  congr 1
  rw [List.takeWhile_eq_self_iff]
  intro l hl
  simpa using hlen l hl

/-- The lines of a merged stream in which stdout ends with bytes without a newline. -/
theorem linesOf_joined (a tail head rest : Text)
    (ha : a = [] ∨ ∃ b, a = b ++ [Char.ofNat 10])
    (htail : ∀ c ∈ tail, c ≠ Char.ofNat 10) (hhead : ∀ c ∈ head, c ≠ Char.ofNat 10) :
    linesOf ((a ++ tail) ++ (head ++ Char.ofNat 10 :: rest))
      = linesOf a ++ dropCR (tail ++ head) :: linesOf rest := by
  have e : (a ++ tail) ++ (head ++ Char.ofNat 10 :: rest)
      = a ++ ((tail ++ head) ++ Char.ofNat 10 :: rest) := by simp
  have hl : ∀ c ∈ tail ++ head, c ≠ Char.ofNat 10 := by
    intro c hc
    rcases List.mem_append.1 hc with h | h
    · exact htail c h
    · exact hhead c h
  unfold linesOf
  rw [e, rawLines_append ha, List.map_append]
  congr 1
  unfold rawLines
  rw [rawLinesAux_line _ _ hl]
  simp

/-- The function `dropCR` of `bufio` removes the carriage return at the end of a
piece, as the claims word it. -/
theorem dropCR_eq_withoutCR (line : Text) : dropCR line = withoutCR line := by
  rcases List.eq_nil_or_concat line with e | ⟨init, c, e⟩
  · subst e
    rfl
  · subst e
    by_cases hc : c = Char.ofNat 13
    · simp [dropCR, withoutCR, hc]
    · simp [dropCR, withoutCR, hc]

theorem linesOf_eq_claimedLines (data : Text) : linesOf data = claimedLines data := by
  unfold linesOf claimedLines
  apply List.map_congr_left
  intro l _
  exact dropCR_eq_withoutCR l

/-- A line of `n` bytes and a carriage return before its newline: the line of the
claims has `n` bytes, and the scanner reads `n + 1` bytes before the newline. -/
theorem claimedLines_crlf (n : Nat) :
    claimedLines (List.replicate n 'a' ++ [Char.ofNat 13, Char.ofNat 10])
      = [List.replicate n 'a'] := by
  have e : List.replicate n 'a' ++ [Char.ofNat 13, Char.ofNat 10]
      = (List.replicate n 'a' ++ [Char.ofNat 13]) ++ Char.ofNat 10 :: [] := by simp
  have hl : ∀ c ∈ List.replicate n 'a' ++ [Char.ofNat 13], c ≠ Char.ofNat 10 := by
    intro c hc
    rcases List.mem_append.1 hc with h | h
    · rw [List.eq_of_mem_replicate h]
      decide
    · rw [List.mem_singleton.1 h]
      decide
  unfold claimedLines rawLines
  rw [e, rawLinesAux_line _ [] hl]
  simp [rawLinesAux, withoutCR]

theorem mergedLines_crlf_tooLong (w : Spawn) (n : Nat) (hn : 1024 * 1024 ≤ n + 1)
    (hout : w.stdout = List.replicate n 'a' ++ [Char.ofNat 13, Char.ofNat 10])
    (herr : w.stderr = []) : mergedLines w = [] := by
  have e : List.replicate n 'a' ++ [Char.ofNat 13, Char.ofNat 10]
      = (List.replicate n 'a' ++ [Char.ofNat 13]) ++ Char.ofNat 10 :: [] := by simp
  unfold mergedLines
  rw [hout, herr, List.append_nil, e]
  refine scanLines_tooLong (by norm_num) _ [] ?_ ?_
  · intro c hc
    rcases List.mem_append.1 hc with h | h
    · rw [List.eq_of_mem_replicate h]
      decide
    · rw [List.mem_singleton.1 h]
      decide
  · rw [List.length_append, List.length_replicate, List.length_singleton]
    exact hn

/-- C28, as stated, fails: stdout is one line of `1024*1024 - 1` bytes `a` that ends
with a carriage return and a newline, and stderr is empty.  The line split
of the claim has this one line, without the carriage return, and it is
shorter than 1 MiB; but the scanner counts the carriage return, the line
fills its buffer, and neither runner delivers a line. -/
theorem async_lines_crlf_not_delivered :
    claimedLines
        ((List.replicate (1024 * 1024 - 1) 'a' ++ [Char.ofNat 13, Char.ofNat 10]) ++ [])
      = [List.replicate (1024 * 1024 - 1) 'a']
    ∧ (∀ l ∈ claimedLines
        ((List.replicate (1024 * 1024 - 1) 'a' ++ [Char.ofNat 13, Char.ofNat 10]) ++ []),
        l.length < 1024 * 1024)
    ∧ deliveredLines (RunModalCommandAsync demoHost
        (fun _ => demoSpawn
          (List.replicate (1024 * 1024 - 1) 'a' ++ [Char.ofNat 13, Char.ofNat 10]) [])
        "run".toList ["a.py".toList] [] [] []) = []
    ∧ deliveredLines (RunModalCommandAsyncWithLog demoHost
        (fun _ => demoSpawn
          (List.replicate (1024 * 1024 - 1) 'a' ++ [Char.ofNat 13, Char.ofNat 10]) [])
        "run".toList ["a.py".toList] [] [] [] "log1".toList) = [] := by
  have hcl := claimedLines_crlf (1024 * 1024 - 1)
  have key : ∀ cmd : Invocation, mergedLines ((fun _ => demoSpawn
      (List.replicate (1024 * 1024 - 1) 'a' ++ [Char.ofNat 13, Char.ofNat 10]) []) cmd)
      = [] :=
    fun _ => mergedLines_crlf_tooLong _ (1024 * 1024 - 1) (by norm_num) rfl rfl
  refine ⟨?_, ?_, ?_, ?_⟩
  · rw [List.append_nil]
    exact hcl
  · rw [List.append_nil, hcl]
    intro l hl
    rw [List.mem_singleton.1 hl, List.length_replicate]
    norm_num
  · rw [async_delivered demoHost _ "run".toList ["a.py".toList] [] [] [] ⟨rfl, rfl, rfl⟩]
    exact key (RunModalCommandAsync_cmd demoHost "run".toList ["a.py".toList] [] [] [])
  · rw [asyncWithLog_delivered demoHost _ "run".toList ["a.py".toList] [] [] [] "log1".toList
      ⟨rfl, rfl, rfl⟩]
    exact key (RunModalCommandAsyncWithLog_cmd demoHost "run".toList ["a.py".toList] [] [] [])

/-- C28 (amended): when the process starts and no line of the byte string stdout
followed by stderr, counted with the carriage return before its newline, has
`1024*1024` bytes or more, both runners deliver exactly the lines of that byte
string, each without its newline and without a carriage return before it.
In particular, when stdout is whole lines followed by bytes without a
newline, the lines of stdout come first, then those bytes joined with the
first line of stderr as one line, then the other lines of stderr. -/
theorem async_lines_of_merged_stream (h : Host) (os : Invocation → Spawn) (command : Text)
    (args : List Text) (workDir tokenId tokenSecret logID : Text)
    (hs : (os (RunModalCommandAsync_cmd h command args workDir tokenId tokenSecret)).started)
    (hlen : ∀ l ∈ rawLines
        ((os (RunModalCommandAsync_cmd h command args workDir tokenId tokenSecret)).stdout
          ++ (os (RunModalCommandAsync_cmd h command args workDir tokenId tokenSecret)).stderr),
      l.length < 1024 * 1024) :
    deliveredLines (RunModalCommandAsync h os command args workDir tokenId tokenSecret)
      = claimedLines
          ((os (RunModalCommandAsync_cmd h command args workDir tokenId tokenSecret)).stdout
          ++ (os (RunModalCommandAsync_cmd h command args workDir tokenId tokenSecret)).stderr)
    ∧ deliveredLines
        (RunModalCommandAsyncWithLog h os command args workDir tokenId tokenSecret logID)
      = claimedLines
          ((os (RunModalCommandAsync_cmd h command args workDir tokenId tokenSecret)).stdout
          ++ (os (RunModalCommandAsync_cmd h command args workDir tokenId tokenSecret)).stderr)
    ∧ ∀ a tail head rest : Text,
        (a = [] ∨ ∃ b, a = b ++ [Char.ofNat 10]) →
        (∀ c ∈ tail, c ≠ Char.ofNat 10) → (∀ c ∈ head, c ≠ Char.ofNat 10) →
        (os (RunModalCommandAsync_cmd h command args workDir tokenId tokenSecret)).stdout
          = a ++ tail →
        (os (RunModalCommandAsync_cmd h command args workDir tokenId tokenSecret)).stderr
          = head ++ Char.ofNat 10 :: rest →
        deliveredLines (RunModalCommandAsync h os command args workDir tokenId tokenSecret)
          = claimedLines a ++ withoutCR (tail ++ head) :: claimedLines rest := by
  have h1 : deliveredLines (RunModalCommandAsync h os command args workDir tokenId tokenSecret)
      = linesOf
          ((os (RunModalCommandAsync_cmd h command args workDir tokenId tokenSecret)).stdout
          ++ (os (RunModalCommandAsync_cmd h command args workDir tokenId tokenSecret)).stderr) := by
    rw [async_delivered h os command args workDir tokenId tokenSecret hs]
    exact mergedLines_eq_linesOf_merged _ hlen
  refine ⟨h1.trans (linesOf_eq_claimedLines _), ?_, ?_⟩
  · rw [asyncWithLog_delivered h os command args workDir tokenId tokenSecret logID hs]
    exact (mergedLines_eq_linesOf_merged _ hlen).trans (linesOf_eq_claimedLines _)
  · intro a tail head rest ha htail hhead e1 e2
    rw [h1, e1, e2, linesOf_joined a tail head rest ha htail hhead, linesOf_eq_claimedLines,
      linesOf_eq_claimedLines, dropCR_eq_withoutCR]

/-- Witness of C28 (amended): stdout is the line `a`, ended by a carriage return and
a newline, and then `b` without a newline, stderr is the line `c`, ended by
a carriage return and a newline, and the line `d`: the lines delivered are
`a`, `bc` and `d`, without carriage returns. -/
theorem async_lines_of_merged_stream_witness :
    deliveredLines (RunModalCommandAsync demoHost
        (fun _ => demoSpawn "a\r\nb".toList "c\r\nd\n".toList) "run".toList ["a.py".toList]
        [] [] [])
      = ["a".toList, "bc".toList, "d".toList]
    ∧ deliveredLines (RunModalCommandAsyncWithLog demoHost
        (fun _ => demoSpawn "a\r\nb".toList "c\r\nd\n".toList) "run".toList ["a.py".toList]
        [] [] [] "log1".toList)
      = ["a".toList, "bc".toList, "d".toList]
    ∧ claimedLines ("a\r\nb".toList ++ "c\r\nd\n".toList)
      = ["a".toList, "bc".toList, "d".toList]
    ∧ withoutCR "bc\r".toList = "bc".toList :=
  ⟨Eq.trans
      (async_lines_of_merged_stream demoHost
        (fun _ => demoSpawn "a\r\nb".toList "c\r\nd\n".toList)
        "run".toList ["a.py".toList] [] [] [] "log1".toList ⟨rfl, rfl, rfl⟩ (by decide)).1
      (by decide),
   Eq.trans
      (async_lines_of_merged_stream demoHost
        (fun _ => demoSpawn "a\r\nb".toList "c\r\nd\n".toList)
        "run".toList ["a.py".toList] [] [] [] "log1".toList ⟨rfl, rfl, rfl⟩ (by decide)).2.1
      (by decide),
   by decide, by decide⟩

/-- C29: `CancelRunningCommand` returns true exactly when a command with a started
process is registered and `Process.Kill()` returns no error, and then it emits
the abort notice as one output line; in every other case it emits nothing;
and in every case it leaves the handle as it was and clears nothing. -/
theorem cancel_result_and_frame (runningCmd : Option RunningCmd) :
    ((CancelRunningCommand runningCmd).1 = true ↔
        ∃ cmd, runningCmd = some cmd ∧ cmd.hasProcess = true ∧ cmd.killErr = none)
    ∧ ((CancelRunningCommand runningCmd).1 = true →
        (CancelRunningCommand runningCmd).2.1 = [Action.emit (.output abortNotice)])
    ∧ ((CancelRunningCommand runningCmd).1 = false → (CancelRunningCommand runningCmd).2.1 = [])
    ∧ (CancelRunningCommand runningCmd).2.2 = runningCmd
    ∧ Action.clearRunning ∉ (CancelRunningCommand runningCmd).2.1
    ∧ Action.setRunning ∉ (CancelRunningCommand runningCmd).2.1 := by
  cases runningCmd with
  | none => simp [CancelRunningCommand]
  | some cmd =>
    cases hp : cmd.hasProcess with
    | false => simp [CancelRunningCommand, hp]
    | true =>
      cases hk : cmd.killErr with
      | none => simp [CancelRunningCommand, hp, hk, abortNotice]
      | some e => simp [CancelRunningCommand, hp, hk]

/-! ## Further claims about the execution log -/

theorem filterLoop_aux (keep : ExecutionLog → Bool) (logs : List ExecutionLog) :
    ∀ acc : List ExecutionLog,
      logs.foldl (fun filtered log => if keep log then filtered ++ [log] else filtered) acc
        = acc ++ logs.filter keep := by
  induction logs with
  | nil => intro acc; simp
  | cons x xs ih =>
    intro acc
    simp only [List.foldl_cons, ih, List.filter_cons]
    cases keep x <;> simp

/-- The filtering loop keeps the entries that pass the test, in their order. -/
theorem filterLoop_eq (keep : ExecutionLog → Bool) (logs : List ExecutionLog) :
    filterLoop keep logs = logs.filter keep := by
  unfold filterLoop
  rw [filterLoop_aux]
  simp

theorem updateLoop_of_not_mem (logID status output : Text) (unix : Int) :
    ∀ logs : List ExecutionLog, (∀ l ∈ logs, l.ID ≠ logID) →
      updateLoop logID status output unix logs = logs := by
  intro logs
  induction logs with
  | nil => intro _; rfl
  | cons x xs ih =>
    intro hno
    have hx : x.ID ≠ logID := hno x (List.mem_cons_self _ _)
    simp only [updateLoop, hx, if_false]
    rw [ih (fun l hl => hno l (List.mem_cons_of_mem _ hl))]

theorem updateLoop_split (logID status output : Text) (unix : Int) :
    ∀ logs : List ExecutionLog,
      ((∀ l ∈ logs, l.ID ≠ logID) ∧ updateLoop logID status output unix logs = logs)
      ∨ ∃ pre x post, logs = pre ++ x :: post ∧ (∀ l ∈ pre, l.ID ≠ logID) ∧ x.ID = logID
          ∧ updateLoop logID status output unix logs
              = pre ++ { x with Status := status, Output := output, EndTime := unix } :: post := by
  intro logs
  induction logs with
  | nil => exact Or.inl ⟨fun l hl => by simp at hl, rfl⟩
  | cons y ys ih =>
    by_cases hy : y.ID = logID
    · refine Or.inr ⟨[], y, ys, rfl, fun l hl => by simp at hl, hy, ?_⟩
      simp [updateLoop, hy]
    · rcases ih with ⟨hno, he⟩ | ⟨pre, x, post, e, hpre, hx, he⟩
      · refine Or.inl ⟨?_, ?_⟩
        · intro l hl
          rcases List.mem_cons.1 hl with h | h
          · subst h
            exact hy
          · exact hno l h
        · simp only [updateLoop, hy, if_false]
          rw [he]
      · refine Or.inr ⟨y :: pre, x, post, by rw [e]; rfl, ?_, hx, ?_⟩
        · intro l hl
          rcases List.mem_cons.1 hl with h | h
          · subst h
            exact hy
          · exact hpre l h
        · simp only [updateLoop, hy, if_false]
          rw [he]
          rfl

theorem cut_eq (l : List ExecutionLog) (limit : Int) :
    (if limit > 0 ∧ (l.length : Int) > limit then l.take limit.toNat else l)
      = if 0 < limit then l.take limit.toNat else l := by
  by_cases h1 : 0 < limit
  · by_cases h2 : (l.length : Int) > limit
    · rw [if_pos ⟨h1, h2⟩, if_pos h1]
    · rw [if_neg (fun h => h2 h.2), if_pos h1]
      exact (List.take_of_length_le (by omega)).symm
  · rw [if_neg (fun h => h1 h.1), if_neg h1]

/-- C23: on a store that can be read `GetExecutionLogs(p, k)` returns the entries
whose `ProjectID` is `p`, or all entries when `p` is empty, in the order of
the store, cut to the first `k` when `k > 0` and whole when `k <= 0`; the
store is left as it was. -/
theorem get_logs_filtered (file : LogFile) (logs : List ExecutionLog) (p : Text) (k : Int)
    (hload : loadExecutionLogs file = .ok logs) :
    (GetExecutionLogs file p k).1 = file
    ∧ (GetExecutionLogs file p k).2
        = .ok (if 0 < k then
                (if p = [] then logs
                  else logs.filter (fun log => decide (log.ProjectID = p))).take k.toNat
               else
                (if p = [] then logs
                  else logs.filter (fun log => decide (log.ProjectID = p))))
    ∧ (if p = [] then logs
        else logs.filter (fun log => decide (log.ProjectID = p))).Sublist logs := by
  refine ⟨?_, ?_, ?_⟩
  · simp only [GetExecutionLogs, hload]
  · simp only [GetExecutionLogs, hload, filterLoop_eq, cut_eq]
    by_cases hp : p = [] <;> simp [hp]
  · by_cases hp : p = []
    · simp [hp]
    · simp only [hp, if_false]
      exact List.filter_sublist _

/-- Witness of C23: two of three entries belong to the project `p1`, and the limit
is 1. -/
theorem get_logs_filtered_witness :
    (GetExecutionLogs
        (.stored [newExecutionLog 9 3 "p1".toList [] [] [] [] "run".toList [],
          newExecutionLog 7 2 "p2".toList [] [] [] [] "run".toList [],
          newExecutionLog 5 1 "p1".toList [] [] [] [] "run".toList []]) "p1".toList 1).2
      = .ok [newExecutionLog 9 3 "p1".toList [] [] [] [] "run".toList []] :=
  (get_logs_filtered
    (.stored [newExecutionLog 9 3 "p1".toList [] [] [] [] "run".toList [],
      newExecutionLog 7 2 "p2".toList [] [] [] [] "run".toList [],
      newExecutionLog 5 1 "p1".toList [] [] [] [] "run".toList []])
    _ "p1".toList 1 rfl).2.1

/-- C26: on a store that can be read and in which no entry has the id,
`UpdateExecutionLog` does not reject the id: it writes the entries back as
they were and returns no error when the write succeeds, and the only error
it can return is the error of the write. -/
theorem update_unknown_id (file : LogFile) (logs : List ExecutionLog) (unix : Int)
    (i status output : Text) (hload : loadExecutionLogs file = .ok logs)
    (hno : ∀ l ∈ logs, l.ID ≠ i) :
    UpdateExecutionLog file unix .done i status output = (.stored logs, none)
    ∧ (UpdateExecutionLog file unix .done i status output).1.entries = file.entries
    ∧ ∀ msg left, UpdateExecutionLog file unix (.failed msg left) i status output
        = (left, some (goStr "写入执行日志文件失败: " ++ msg)) := by
  have he : file.entries = logs := entries_of_load hload
  have hst := loaded_mem_stable hload
  have h1 : UpdateExecutionLog file unix .done i status output = (.stored logs, none) := by
    simp only [UpdateExecutionLog, hload, updateLoop_of_not_mem i status output unix logs hno,
      save_done_stable hst]
  refine ⟨h1, ?_, ?_⟩
  · rw [h1, he]
    exact entries_stored_stable hst
  · intro msg left
    simp only [UpdateExecutionLog, hload, saveExecutionLogs]

/-- Witness of C26: the store holds one entry, with another id. -/
theorem update_unknown_id_witness :
    UpdateExecutionLog (.stored [newExecutionLog 5 1 "p1".toList [] [] [] [] "run".toList []])
        9 .done "6".toList "success".toList "X".toList
      = (.stored [newExecutionLog 5 1 "p1".toList [] [] [] [] "run".toList []], none) :=
  (update_unknown_id (.stored [newExecutionLog 5 1 "p1".toList [] [] [] [] "run".toList []])
    _ 9 "6".toList "success".toList "X".toList rfl (by decide)).1

/-- C27: an update that is written leaves the number and the order of the entries
as they were; either no entry has the id and nothing changes, or the store is
`pre`, `x`, `post` with `x` the first entry with the id, and afterwards it is
`pre`, `x` with the new `Status`, `Output` and `EndTime` and every other
field as before, `post`.  The entries are those the file spells, before and
after, and so are the new status and output.  On a store that cannot be read
nothing is written. -/
theorem update_frame (logs : List ExecutionLog) (unix : Int) (i status output : Text) :
    (∃ after, UpdateExecutionLog (.stored logs) unix .done i status output
          = (.stored after, none)
        ∧ (LogFile.stored after).entries = after
        ∧ after.length = logs.length
        ∧ (((∀ l ∈ (LogFile.stored logs).entries, l.ID ≠ i)
            ∧ after = (LogFile.stored logs).entries)
          ∨ ∃ pre x post, (LogFile.stored logs).entries = pre ++ x :: post
              ∧ (∀ l ∈ pre, l.ID ≠ i) ∧ x.ID = i
              ∧ after = pre ++
                  { x with
                    Status := jsonString status, Output := jsonString output, EndTime := unix }
                  :: post))
    ∧ ∀ (file : LogFile) (err : Text) (w : WriteOutcome),
        loadExecutionLogs file = .error err →
        UpdateExecutionLog file unix w i status output = (file, some err) := by
  have hload : loadExecutionLogs (.stored logs) = .ok (LogFile.stored logs).entries := rfl
  obtain ⟨hu, he⟩ := update_done unix i status output hload
  refine ⟨⟨updateLoop i (jsonString status) (jsonString output) unix
    (LogFile.stored logs).entries, hu, he, ?_, ?_⟩, ?_⟩
  · rcases updateLoop_split i (jsonString status) (jsonString output) unix
      (LogFile.stored logs).entries with ⟨-, e⟩ | ⟨pre, x, post, e, -, -, e2⟩
    · rw [e]
      simp [LogFile.entries]
    · rw [e2]
      have hlen : (LogFile.stored logs).entries.length = logs.length := by
        simp [LogFile.entries]
      rw [← hlen, e]
      simp
  · exact updateLoop_split i (jsonString status) (jsonString output) unix
      (LogFile.stored logs).entries
  · intro file err w hload
    simp only [UpdateExecutionLog, hload]

/-- C30: on a store that can be read, when the write succeeds,
`DeleteExecutionLog(i)` leaves the entries whose id is not `i` and
`ClearExecutionLogs(p)` with a non-empty `p` leaves the entries whose
`ProjectID` is not `p`, in their order and without error, also when no entry
matches (the store is then written back as it was); `ClearExecutionLogs("")`
leaves an empty store, whatever the file was. -/
theorem delete_and_clear (file : LogFile) (logs : List ExecutionLog) (i p : Text)
    (hload : loadExecutionLogs file = .ok logs) (hp : p ≠ []) :
    DeleteExecutionLog file .done i
        = (.stored (logs.filter (fun log => decide (log.ID ≠ i))), none)
    ∧ ((∀ l ∈ logs, l.ID ≠ i) → DeleteExecutionLog file .done i = (.stored logs, none))
    ∧ ClearExecutionLogs file .done p
        = (.stored (logs.filter (fun log => decide (log.ProjectID ≠ p))), none)
    ∧ ((∀ l ∈ logs, l.ProjectID ≠ p) → ClearExecutionLogs file .done p = (.stored logs, none))
    ∧ ∀ anyFile : LogFile, ClearExecutionLogs anyFile .done [] = (.stored [], none) := by
  have hst := loaded_mem_stable hload
  have hd : DeleteExecutionLog file .done i
      = (.stored (logs.filter (fun log => decide (log.ID ≠ i))), none) := by
    simp only [DeleteExecutionLog, hload, filterLoop_eq]
    exact save_done_stable (fun l hl => hst l (List.mem_of_mem_filter hl))
  have hc : ClearExecutionLogs file .done p
      = (.stored (logs.filter (fun log => decide (log.ProjectID ≠ p))), none) := by
    simp only [ClearExecutionLogs, hp, if_false, hload, filterLoop_eq]
    exact save_done_stable (fun l hl => hst l (List.mem_of_mem_filter hl))
  refine ⟨hd, ?_, hc, ?_, ?_⟩
  · intro hno
    rw [hd, List.filter_eq_self.2 (fun l hl => by simpa using hno l hl)]
  · intro hno
    rw [hc, List.filter_eq_self.2 (fun l hl => by simpa using hno l hl)]
  · intro anyFile
    simp only [ClearExecutionLogs, if_true, saveExecutionLogs, List.map_nil]

/-- Witness of C30: three entries, two of the project `p1`; the entry with the id
`7` is deleted and the entries of `p1` are cleared. -/
theorem delete_and_clear_witness :
    DeleteExecutionLog
        (.stored [newExecutionLog 9 3 "p1".toList [] [] [] [] "run".toList [],
          newExecutionLog 7 2 "p2".toList [] [] [] [] "run".toList [],
          newExecutionLog 5 1 "p1".toList [] [] [] [] "run".toList []]) .done "7".toList
      = (.stored [newExecutionLog 9 3 "p1".toList [] [] [] [] "run".toList [],
          newExecutionLog 5 1 "p1".toList [] [] [] [] "run".toList []], none)
    ∧ ClearExecutionLogs
        (.stored [newExecutionLog 9 3 "p1".toList [] [] [] [] "run".toList [],
          newExecutionLog 7 2 "p2".toList [] [] [] [] "run".toList [],
          newExecutionLog 5 1 "p1".toList [] [] [] [] "run".toList []]) .done "p1".toList
      = (.stored [newExecutionLog 7 2 "p2".toList [] [] [] [] "run".toList []], none) :=
  ⟨(delete_and_clear
      (.stored [newExecutionLog 9 3 "p1".toList [] [] [] [] "run".toList [],
        newExecutionLog 7 2 "p2".toList [] [] [] [] "run".toList [],
        newExecutionLog 5 1 "p1".toList [] [] [] [] "run".toList []])
      _ "7".toList "p1".toList rfl (by decide)).1,
   (delete_and_clear
      (.stored [newExecutionLog 9 3 "p1".toList [] [] [] [] "run".toList [],
        newExecutionLog 7 2 "p2".toList [] [] [] [] "run".toList [],
        newExecutionLog 5 1 "p1".toList [] [] [] [] "run".toList []])
      _ "7".toList "p1".toList rfl (by decide)).2.2.1⟩

end AntModal
